import Mathlib

/-!
# MEF 3D: assembly-and-solve pipeline of a tetrahedral finite element code

A shallow embedding of the dense algebra kernel (`math_utilities/matrix_operations.hpp`),
the local system builder, the assembler, the boundary condition appliers and the
solver / result merge (`mef_utilities/mef_process.hpp`) of the heat-transfer variant,
of the local system builder of the second-equation variant and of the heap-backed node
store of the heap variants (`geometry/heap.hpp`), followed by theorems about them.

Conventions of the embedding.

* `float` is an arbitrary linear ordered field `α` (exact arithmetic): there is no
  rounding, no overflow to infinity, no underflow to zero and no NaN, so
  `x == 0 || isnan(x)` is `x = 0`. Theorems about values hold of the program as far as
  its `float` operations stay finite and exact.
* A C array is a function from `Nat` together with its size, kept separately as the
  source does (`nrows`, `ncols`, `size`, `quantities`).
* A `for (int i = 0; i < n; i++)` loop is `for_loop n body`, the body receiving the
  counter and the state.
* An `int` index computed from a node identifier (`get_ID() - 1`) is an `Int`; using it
  outside the bounds of a container is undefined in the source and `none` in the model.
* `exit(EXIT_FAILURE)` is `none`.
-/

/-- Matrices of linear algebra (Mathlib), as opposed to the container `MEF.Matrix`. -/
abbrev LinMatrix (m n : Type) (α : Type) := Matrix m n α

namespace MEF

/-! ## Loops -/

/-- The loop `for (int i = 0; i < n; i++) s = body(i, s);`. -/
def for_loop {σ : Type} (n : Nat) (body : Nat → σ → σ) (s : σ) : σ :=
  (List.range n).foldl (fun acc i => body i acc) s

/-- The loop `for (int i = n - 1; i >= 0; i--) s = body(i, s);`. -/
def for_loop_down {σ : Type} (n : Nat) (body : Nat → σ → σ) (s : σ) : σ :=
  (List.range n).reverse.foldl (fun acc i => body i acc) s

/-- The loop `for (int k = lo; k < hi; k++) s = body(k, s);`. -/
def for_loop_from {σ : Type} (lo hi : Nat) (body : Nat → σ → σ) (s : σ) : σ :=
  (List.range' lo (hi - lo)).foldl (fun acc i => body i acc) s

/-- A loop whose body can fail: the first failure ends it. -/
def for_loop_opt {σ : Type} (n : Nat) (body : Nat → σ → Option σ) (s : σ) : Option σ :=
  for_loop n (fun i acc => acc.bind (body i)) (some s)

/-- A sequence of statements each of which can fail, run in order on the state. -/
def statements {σ : Type} (steps : List (σ → Option σ)) (s : σ) : Option σ :=
  steps.foldl (fun acc f => acc.bind f) (some s)

/-- An `int` index used on a container with `bound` cells: `none` outside `0 .. bound - 1`. -/
def checked_index (i : Int) (bound : Nat) : Option Nat :=
  if 0 ≤ i ∧ i < (bound : Int) then some i.toNat else none

/-! ## Containers -/

/-- Modelled from the spec: the dense vector container of `math_utilities/vector.hpp`
(1D numeric container with explicit size, get / set / accumulate, zero-fill, resize,
removal of one entry preserving the order of the others). -/
structure Vector (α : Type) where
  size : Nat
  data : Nat → α

/-- Modelled from the spec: the dense matrix container of `math_utilities/matrix.hpp`
(2D numeric container with explicit row / column count, get / set / accumulate, zero-fill,
resize, deep copy, row / column removal preserving the order of the others). -/
structure Matrix (α : Type) where
  nrows : Nat
  ncols : Nat
  data : Nat → Nat → α

variable {α : Type}

namespace Vector

/-- Modelled from the spec: `Vector v(n)`; the storage is zero in the model. -/
def create [Zero α] (n : Nat) : Vector α := ⟨n, fun _ => 0⟩

def get_size (v : Vector α) : Nat := v.size

/-- Modelled from the spec: `set_size(n)`, contents kept as they are (undefined). -/
def set_size (v : Vector α) (n : Nat) : Vector α := { v with size := n }

/-- Modelled from the spec: `init()`, zero-fill at the current size. -/
def init [Zero α] (v : Vector α) : Vector α :=
  { v with data := fun i => if i < v.size then 0 else v.data i }

/-- Modelled from the spec: `get(i)`. -/
def get (v : Vector α) (i : Nat) : α := v.data i

/-- Modelled from the spec: `set(value, i)`. -/
def set (v : Vector α) (value : α) (i : Nat) : Vector α :=
  { v with data := Function.update v.data i value }

/-- Modelled from the spec: `add(value, i)`, accumulate rather than overwrite. -/
def add [Add α] (v : Vector α) (value : α) (i : Nat) : Vector α :=
  { v with data := Function.update v.data i (v.data i + value) }

/-- Modelled from the spec: `remove_row(i)`, shrink by one, the remaining entries keep
their relative order. -/
def remove_row (v : Vector α) (i : Nat) : Vector α :=
  { size := v.size - 1, data := fun r => if r < i then v.data r else v.data (r + 1) }

/-- The call `add(value, index)` with an `int` index. -/
def add_at [Add α] (v : Vector α) (value : α) (index : Int) : Option (Vector α) :=
  (checked_index index v.size).map (fun i => v.add value i)

/-- The call `remove_row(index)` with an `int` index. -/
def remove_row_at (v : Vector α) (index : Int) : Option (Vector α) :=
  (checked_index index v.size).map (fun i => v.remove_row i)

end Vector

namespace Matrix

/-- Modelled from the spec: `Matrix M(n, m)`; the storage is zero in the model. -/
def create [Zero α] (n m : Nat) : Matrix α := ⟨n, m, fun _ _ => 0⟩

def get_nrows (M : Matrix α) : Nat := M.nrows

def get_ncols (M : Matrix α) : Nat := M.ncols

/-- Modelled from the spec: `set_size(n, m)`, contents kept as they are (undefined). -/
def set_size (M : Matrix α) (n m : Nat) : Matrix α := { M with nrows := n, ncols := m }

/-- Modelled from the spec: `init()`, zero-fill at the current size. -/
def init [Zero α] (M : Matrix α) : Matrix α :=
  { M with data := fun r c => if r < M.nrows ∧ c < M.ncols then 0 else M.data r c }

/-- Modelled from the spec: `get(r, c)`. -/
def get (M : Matrix α) (r c : Nat) : α := M.data r c

/-- Modelled from the spec: `set(value, r, c)`. -/
def set (M : Matrix α) (value : α) (r c : Nat) : Matrix α :=
  { M with data := fun i j => if i = r ∧ j = c then value else M.data i j }

/-- Modelled from the spec: `add(value, r, c)`, accumulate rather than overwrite. -/
def add [Add α] (M : Matrix α) (value : α) (r c : Nat) : Matrix α :=
  { M with data := fun i j => if i = r ∧ j = c then M.data r c + value else M.data i j }

/-- Modelled from the spec: `remove_row(i)`, shrink by one, the remaining rows keep their
relative order. -/
def remove_row (M : Matrix α) (i : Nat) : Matrix α :=
  { M with nrows := M.nrows - 1,
           data := fun r c => if r < i then M.data r c else M.data (r + 1) c }

/-- Modelled from the spec: `remove_column(i)`, shrink by one, the remaining columns keep
their relative order. -/
def remove_column (M : Matrix α) (i : Nat) : Matrix α :=
  { M with ncols := M.ncols - 1,
           data := fun r c => if c < i then M.data r c else M.data r (c + 1) }

/-- Modelled from the spec: `clone(&other)`, deep copy of the entries into `other`. -/
def clone (M : Matrix α) (other : Matrix α) : Matrix α :=
  { other with data := fun r c => if r < M.nrows ∧ c < M.ncols then M.data r c
                                  else other.data r c }

/-- The call `add(value, row, col)` with `int` indices. -/
def add_at [Add α] (M : Matrix α) (value : α) (row col : Int) : Option (Matrix α) :=
  (checked_index row M.nrows).bind fun r =>
    (checked_index col M.ncols).map fun c => M.add value r c

/-- The call `remove_row(index)` with an `int` index. -/
def remove_row_at (M : Matrix α) (index : Int) : Option (Matrix α) :=
  (checked_index index M.nrows).map (fun i => M.remove_row i)

/-- The call `remove_column(index)` with an `int` index. -/
def remove_column_at (M : Matrix α) (index : Int) : Option (Matrix α) :=
  (checked_index index M.ncols).map (fun i => M.remove_column i)

/-- The `n × m` block of a container as a matrix of linear algebra. -/
def toLin (M : Matrix α) (n m : Nat) : LinMatrix (Fin n) (Fin m) α :=
  fun i j => M.get i.val j.val

end Matrix

/-- The first `n` entries of a container as a vector of linear algebra. -/
def Vector.toLin (v : Vector α) (n : Nat) : Fin n → α := fun i => v.get i.val

/-! ## Dense algebra kernel (`math_utilities/matrix_operations.hpp`) -/

section kernel

variable [LinearOrderedField α]

/-- The literal `0.000006` substituted for degenerate quantities. -/
def epsilon_patch : α := 6 / 1000000

def product_scalar_by_matrix (scalar : α) (M : Matrix α) (n m : Nat) (R : Matrix α) :
    Matrix α :=
  for_loop n (fun r R =>
    for_loop m (fun c R => R.set (scalar * M.get r c) r c) R) R

def product_matrix_by_vector (M : Matrix α) (V : Vector α) (n _m : Nat) (R : Vector α) :
    Vector α :=
  for_loop n (fun r R =>
    let acc := for_loop n (fun c acc => acc + M.get r c * V.get c) (0 : α)
    R.set acc r) R

/-- The product of two containers; `none` is the dimension-mismatch exit. -/
def product_matrix_by_matrix (A B R : Matrix α) : Option (Matrix α) :=
  let n := A.get_nrows
  let m := A.get_ncols
  let p := B.get_nrows
  let q := B.get_ncols
  if m = p then
    let R := R.set_size n q
    let R := R.init
    some (for_loop n (fun r R =>
      for_loop q (fun c R =>
        for_loop m (fun i R => R.add (A.get r i * B.get i c) r c) R) R) R)
  else
    none

/-- The functions `determinant` and `determinant_auxiliar`: closed forms for 1, 2 and 3
columns, expansion along the first row otherwise (with no column the loop of
`determinant_auxiliar` does not run and the accumulator stays 0). -/
def determinant (M : Matrix α) : α :=
  match h : M.get_ncols with
  | 0 => 0
  | 1 => M.get 0 0
  | 2 => M.get 0 0 * M.get 1 1 - M.get 0 1 * M.get 1 0
  | 3 => M.get 0 0 * M.get 1 1 * M.get 2 2 - M.get 0 0 * M.get 1 2 * M.get 2 1
          - M.get 0 1 * M.get 1 0 * M.get 2 2 + M.get 0 1 * M.get 1 2 * M.get 2 0
          + M.get 0 2 * M.get 1 0 * M.get 2 1 - M.get 0 2 * M.get 1 1 * M.get 2 0
  | n + 4 =>
    for_loop (n + 4) (fun c acc =>
      let clon : Matrix α := Matrix.create (n + 4) (n + 4)
      let clon := M.clone clon
      let clon := clon.remove_row 0
      let clon := clon.remove_column c
      acc + (-1) ^ c * M.get 0 c * determinant clon) 0
termination_by M.ncols
decreasing_by
  simp only [Matrix.remove_column, Matrix.remove_row, Matrix.clone, Matrix.create]
  simp only [Matrix.get_ncols] at h
  omega

def transpose (M : Matrix α) (n m : Nat) (T : Matrix α) : Matrix α :=
  for_loop n (fun r T =>
    for_loop m (fun c T => T.set (M.get r c) c r) T) T

/-- First phase of `calculate_inverse`: the Cholesky factor `L`. -/
def calculate_inverse_L (sqrt : α → α) (A : Matrix α) (n : Nat) : Matrix α :=
  let L : Matrix α := Matrix.create n n
  for_loop n (fun i L =>
    for_loop n (fun j L =>
      if i = j then
        let acum := for_loop j (fun k acum => acum + (L.get j k) ^ 2) (0 : α)
        if A.get j j - acum ≤ 0 then
          L.set epsilon_patch j j
        else
          L.set (sqrt (A.get j j - acum)) j j
      else
        if i > j then
          let acum := for_loop j (fun k acum => acum + L.get i k * L.get j k) (0 : α)
          L.set ((1 / L.get j j) * (A.get i j - acum)) i j
        else
          L.set 0 i j) L) L

/-- Second phase of `calculate_inverse`: `Y`, by forward substitution on `L`. -/
def calculate_inverse_Y (L : Matrix α) (n : Nat) : Matrix α :=
  let Y : Matrix α := Matrix.create n n
  for_loop n (fun i Y =>
    for_loop n (fun j Y =>
      if i = j then
        Y.set (1 / L.get i i) i i
      else
        if i > j then
          let acum := for_loop_from j i (fun k acum => acum + L.get i k * Y.get k j) (0 : α)
          Y.set (-(1 / L.get i i) * acum) i j
        else
          Y.set 0 i j) Y) Y

/-- Third phase of `calculate_inverse`: `X`, by back substitution, rows from last to
first. -/
def calculate_inverse_X (L Y : Matrix α) (n : Nat) (X : Matrix α) : Matrix α :=
  for_loop_down n (fun i X =>
    for_loop n (fun j X =>
      let acum := for_loop_from (i + 1) n (fun k acum => acum + L.get k i * X.get k j) (0 : α)
      X.set ((1 / L.get i i) * (Y.get i j - acum)) i j) X) X

/-- The function `calculate_inverse(A, n, X)`; `sqrt` is the square root of the scalars. -/
def calculate_inverse (sqrt : α → α) (A : Matrix α) (n : Nat) (X : Matrix α) : Matrix α :=
  let L := calculate_inverse_L sqrt A n
  let Y := calculate_inverse_Y L n
  calculate_inverse_X L Y n X

/-- The function `product_matrix_by_matrix` with the contents of `R` at its end: the flag
is `false` on the dimension-mismatch exit, which is reached before any write to `R`. -/
def product_matrix_by_matrix_run (A B R : Matrix α) : Matrix α × Bool :=
  let n := A.get_nrows
  let m := A.get_ncols
  let p := B.get_nrows
  let q := B.get_ncols
  if m = p then
    let R := R.set_size n q
    let R := R.init
    (for_loop n (fun r R =>
      for_loop q (fun c R =>
        for_loop m (fun i R => R.add (A.get r i * B.get i c) r c) R) R) R, true)
  else
    (R, false)

end kernel

/-! ## Mesh model (`geometry/`) -/

/-- Modelled from the spec: the node of `geometry/node.hpp` (identifier and 3D
coordinate). -/
structure Node (α : Type) where
  ID : Int
  x_coordinate : α
  y_coordinate : α
  z_coordinate : α

structure Element (α : Type) where
  ID : Int
  node1 : Node α
  node2 : Node α
  node3 : Node α
  node4 : Node α

structure Condition (α : Type) where
  node : Node α
  value : α

inductive parameter where
  | THERMAL_CONDUCTIVITY
  | HEAT_SOURCE
  deriving DecidableEq

inductive quantity where
  | NUM_NODES
  | NUM_ELEMENTS
  | NUM_DIRICHLET
  | NUM_NEUMANN
  deriving DecidableEq

structure Mesh (α : Type) where
  problem_data : parameter → α
  quantities : quantity → Nat
  nodes : Nat → Node α
  elements : Nat → Element α
  dirichlet_conditions : Nat → Condition α
  neumann_conditions : Nat → Condition α

namespace Node
def get_ID (n : Node α) : Int := n.ID
def get_x_coordinate (n : Node α) : α := n.x_coordinate
def get_y_coordinate (n : Node α) : α := n.y_coordinate
def get_z_coordinate (n : Node α) : α := n.z_coordinate
end Node

namespace Element
def get_node1 (e : Element α) : Node α := e.node1
def get_node2 (e : Element α) : Node α := e.node2
def get_node3 (e : Element α) : Node α := e.node3
def get_node4 (e : Element α) : Node α := e.node4
end Element

namespace Condition
def get_node (c : Condition α) : Node α := c.node
def get_value (c : Condition α) : α := c.value
end Condition

namespace Mesh
def get_problem_data (M : Mesh α) (position : parameter) : α := M.problem_data position
def get_quantity (M : Mesh α) (position : quantity) : Nat := M.quantities position
def get_node (M : Mesh α) (position : Nat) : Node α := M.nodes position
def get_element (M : Mesh α) (position : Nat) : Element α := M.elements position
def get_dirichlet_condition (M : Mesh α) (position : Nat) : Condition α :=
  M.dirichlet_conditions position
def get_neumann_condition (M : Mesh α) (position : Nat) : Condition α :=
  M.neumann_conditions position

/-- The search loop of `does_node_have_dirichlet_condition`, ended by the first match. -/
def does_node_have_dirichlet_condition (M : Mesh α) (id : Int) : Bool :=
  (List.range (M.quantities quantity.NUM_DIRICHLET)).any
    (fun i => decide ((M.dirichlet_conditions i).get_node.get_ID = id))
end Mesh

/-! ## FEM process (`mef_utilities/mef_process.hpp`, heat-transfer variant) -/

section process

variable [LinearOrderedField α]

def calculate_local_volume (x1 y1 z1 x2 y2 z2 x3 y3 z3 x4 y4 z4 : α) : α :=
  let volume_matrix : Matrix α := Matrix.create 3 3
  let volume_matrix := volume_matrix.set (x2 - x1) 0 0
  let volume_matrix := volume_matrix.set (y2 - y1) 0 1
  let volume_matrix := volume_matrix.set (z2 - z1) 0 2
  let volume_matrix := volume_matrix.set (x3 - x1) 1 0
  let volume_matrix := volume_matrix.set (y3 - y1) 1 1
  let volume_matrix := volume_matrix.set (z3 - z1) 1 2
  let volume_matrix := volume_matrix.set (x4 - x1) 2 0
  let volume_matrix := volume_matrix.set (y4 - y1) 2 1
  let volume_matrix := volume_matrix.set (z4 - z1) 2 2
  (1 / 6) * |determinant volume_matrix|

def calculate_local_jacobian (x1 y1 z1 x2 y2 z2 x3 y3 z3 x4 y4 z4 : α) : α :=
  let jacobian_matrix : Matrix α := Matrix.create 3 3
  let jacobian_matrix := jacobian_matrix.set (x2 - x1) 0 0
  let jacobian_matrix := jacobian_matrix.set (x3 - x1) 0 1
  let jacobian_matrix := jacobian_matrix.set (x4 - x1) 0 2
  let jacobian_matrix := jacobian_matrix.set (y2 - y1) 1 0
  let jacobian_matrix := jacobian_matrix.set (y3 - y1) 1 1
  let jacobian_matrix := jacobian_matrix.set (y4 - y1) 1 2
  let jacobian_matrix := jacobian_matrix.set (z2 - z1) 2 0
  let jacobian_matrix := jacobian_matrix.set (z3 - z1) 2 1
  let jacobian_matrix := jacobian_matrix.set (z4 - z1) 2 2
  determinant jacobian_matrix

def calculate_B (B : Matrix α) : Matrix α :=
  let B := B.set (-1) 0 0
  let B := B.set 1 0 1
  let B := B.set 0 0 2
  let B := B.set 0 0 3
  let B := B.set (-1) 1 0
  let B := B.set 0 1 1
  let B := B.set 1 1 2
  let B := B.set 0 1 3
  let B := B.set (-1) 2 0
  let B := B.set 0 2 1
  let B := B.set 0 2 2
  let B := B.set 1 2 3
  B

def calculate_local_A (A : Matrix α) (x1 y1 z1 x2 y2 z2 x3 y3 z3 x4 y4 z4 : α) : Matrix α :=
  let A := A.set ((y3 - y1) * (z4 - z1) - (y4 - y1) * (z3 - z1)) 0 0
  let A := A.set (-(x3 - x1) * (z4 - z1) + (x4 - x1) * (z3 - z1)) 0 1
  let A := A.set ((x2 - x1) * (y3 - y1) - (x3 - x1) * (y2 - y1)) 0 2
  let A := A.set (-(y2 - y1) * (z4 - z1) + (y4 - y1) * (z2 - z1)) 1 0
  let A := A.set ((x2 - x1) * (y4 - y1) + (x4 - x1) * (y2 - y1)) 1 1
  let A := A.set (-(x2 - x1) * (y3 - y1) - (x3 - x1) * (y2 - y1)) 1 2
  let A := A.set ((y2 - y1) * (z3 - z1) - (y3 - y1) * (z2 - z1)) 2 0
  let A := A.set (-(x2 - x1) * (z3 - z1) + (x3 - x1) * (z2 - z1)) 2 1
  let A := A.set ((x2 - x1) * (y3 - y1) - (x3 - x1) * (y2 - y1)) 2 2
  A

/-- The function `create_local_K(K, element_id, M)`; `none` is the exit of a matrix
product on mismatched dimensions. -/
def create_local_K (K : Matrix α) (element_id : Nat) (M : Mesh α) : Option (Matrix α) :=
  let K := K.set_size 4 4
  let k := M.get_problem_data parameter.THERMAL_CONDUCTIVITY
  let x1 := (M.get_element element_id).get_node1.get_x_coordinate
  let y1 := (M.get_element element_id).get_node1.get_y_coordinate
  let z1 := (M.get_element element_id).get_node1.get_z_coordinate
  let x2 := (M.get_element element_id).get_node2.get_x_coordinate
  let y2 := (M.get_element element_id).get_node2.get_y_coordinate
  let z2 := (M.get_element element_id).get_node2.get_z_coordinate
  let x3 := (M.get_element element_id).get_node3.get_x_coordinate
  let y3 := (M.get_element element_id).get_node3.get_y_coordinate
  let z3 := (M.get_element element_id).get_node3.get_z_coordinate
  let x4 := (M.get_element element_id).get_node4.get_x_coordinate
  let y4 := (M.get_element element_id).get_node4.get_y_coordinate
  let z4 := (M.get_element element_id).get_node4.get_z_coordinate
  let volume := calculate_local_volume x1 y1 z1 x2 y2 z2 x3 y3 z3 x4 y4 z4
  let J := calculate_local_jacobian x1 y1 z1 x2 y2 z2 x3 y3 z3 x4 y4 z4
  let B := calculate_B (Matrix.create 3 4)
  let A := calculate_local_A (Matrix.create 3 3) x1 y1 z1 x2 y2 z2 x3 y3 z3 x4 y4 z4
  let Bt := transpose B 3 4 (Matrix.create 4 3)
  let At := transpose A 3 3 (Matrix.create 3 3)
  let J := if J = 0 then epsilon_patch else J
  let volume := if volume = 0 then epsilon_patch else volume
  (product_matrix_by_matrix A B (Matrix.create 0 0)).bind fun res1 =>
  (product_matrix_by_matrix At res1 (Matrix.create 0 0)).bind fun res2 =>
  (product_matrix_by_matrix Bt res2 (Matrix.create 0 0)).bind fun res3 =>
  some (product_scalar_by_matrix (k * volume / (J * J)) res3 4 4 K)

def assembly_K (K local_K : Matrix α) (index1 index2 index3 index4 : Int) :
    Option (Matrix α) :=
  statements [
    fun K => K.add_at (local_K.get 0 0) index1 index1,
    fun K => K.add_at (local_K.get 0 1) index1 index2,
    fun K => K.add_at (local_K.get 0 2) index1 index3,
    fun K => K.add_at (local_K.get 0 3) index1 index4,
    fun K => K.add_at (local_K.get 1 0) index2 index1,
    fun K => K.add_at (local_K.get 1 1) index2 index2,
    fun K => K.add_at (local_K.get 1 2) index2 index3,
    fun K => K.add_at (local_K.get 1 3) index2 index4,
    fun K => K.add_at (local_K.get 2 0) index3 index1,
    fun K => K.add_at (local_K.get 2 1) index3 index2,
    fun K => K.add_at (local_K.get 2 2) index3 index3,
    fun K => K.add_at (local_K.get 2 3) index3 index4,
    fun K => K.add_at (local_K.get 3 0) index4 index1,
    fun K => K.add_at (local_K.get 3 1) index4 index2,
    fun K => K.add_at (local_K.get 3 2) index4 index3,
    fun K => K.add_at (local_K.get 3 3) index4 index4] K

def assembly_b (b local_b : Vector α) (index1 index2 index3 index4 : Int) :
    Option (Vector α) :=
  statements [
    fun b => b.add_at (local_b.get 0) index1,
    fun b => b.add_at (local_b.get 1) index2,
    fun b => b.add_at (local_b.get 2) index3,
    fun b => b.add_at (local_b.get 3) index4] b

/-- The function `assembly(K, b, Ks, bs, num_elements, M)`: the arrays of local systems
are functions of the element position. -/
def assembly (K : Matrix α) (b : Vector α) (Ks : Nat → Matrix α) (bs : Nat → Vector α)
    (num_elements : Nat) (M : Mesh α) : Option (Matrix α × Vector α) :=
  let K := K.init
  let b := b.init
  for_loop_opt num_elements (fun e (s : Matrix α × Vector α) =>
    let index1 := (M.get_element e).get_node1.get_ID - 1
    let index2 := (M.get_element e).get_node2.get_ID - 1
    let index3 := (M.get_element e).get_node3.get_ID - 1
    let index4 := (M.get_element e).get_node4.get_ID - 1
    (assembly_K s.1 (Ks e) index1 index2 index3 index4).bind fun K =>
    (assembly_b s.2 (bs e) index1 index2 index3 index4).bind fun b =>
    some (K, b)) (K, b)

def apply_neumann_boundary_conditions (b : Vector α) (M : Mesh α) : Option (Vector α) :=
  let num_conditions := M.get_quantity quantity.NUM_NEUMANN
  for_loop_opt num_conditions (fun c (b : Vector α) =>
    let cond := M.get_neumann_condition c
    let index := cond.get_node.get_ID - 1
    b.add_at cond.get_value index) b

def add_column_to_RHS (K : Matrix α) (b : Vector α) (col : Int) (T_bar : α) :
    Option (Vector α) :=
  (checked_index col K.ncols).map fun col =>
    for_loop K.get_nrows (fun r (b : Vector α) => b.add (-T_bar * K.get r col) r) b

/-- The body of the loop of `apply_dirichlet_boundary_conditions` for the condition at
position `c`, the state being `K`, `b` and the counter `previous_removed`. -/
def dirichlet_step (M : Mesh α) (c : Nat) (s : Matrix α × Vector α × Int) :
    Option (Matrix α × Vector α × Int) :=
  let cond := M.get_dirichlet_condition c
  let index := cond.get_node.get_ID - 1 - s.2.2
  let cond_value := cond.get_value
  (s.1.remove_row_at index).bind fun K =>
  (s.2.1.remove_row_at index).bind fun b =>
  (add_column_to_RHS K b index cond_value).bind fun b =>
  (K.remove_column_at index).bind fun K =>
  some (K, b, s.2.2 + 1)

/-- The loop of `apply_dirichlet_boundary_conditions`, with the counter
`previous_removed` as part of the state. -/
def apply_dirichlet_loop (K : Matrix α) (b : Vector α) (M : Mesh α) :
    Option (Matrix α × Vector α × Int) :=
  let num_conditions := M.get_quantity quantity.NUM_DIRICHLET
  for_loop_opt num_conditions (dirichlet_step M) (K, b, 0)

def apply_dirichlet_boundary_conditions (K : Matrix α) (b : Vector α) (M : Mesh α) :
    Option (Matrix α × Vector α) :=
  (apply_dirichlet_loop K b M).map fun s => (s.1, s.2.1)

/-- The loop of `merge_results_with_dirichlet`, with the counters `cont_dirichlet` and
`cont_T` as part of the state. -/
def merge_loop (T Tf : Vector α) (n : Nat) (M : Mesh α) : Vector α × Nat × Nat :=
  for_loop n (fun i (s : Vector α × Nat × Nat) =>
    if M.does_node_have_dirichlet_condition ((i : Int) + 1) then
      let cond := M.get_dirichlet_condition s.2.1
      let cond_value := cond.get_value
      (s.1.set cond_value i, s.2.1 + 1, s.2.2)
    else
      (s.1.set (T.get s.2.2) i, s.2.1, s.2.2 + 1)) (Tf, 0, 0)

def merge_results_with_dirichlet (T Tf : Vector α) (n : Nat) (M : Mesh α) : Vector α :=
  (merge_loop T Tf n M).1

def solve_system (sqrt : α → α) (K : Matrix α) (b : Vector α) (T : Vector α) : Vector α :=
  let n := K.get_nrows
  let Kinv : Matrix α := Matrix.create n n
  let Kinv := calculate_inverse sqrt K n Kinv
  product_matrix_by_vector Kinv b n n T

/-- The matrix `jacobian_matrix` that `calculate_local_jacobian` fills before taking its
determinant. -/
def local_jacobian_matrix (x1 y1 z1 x2 y2 z2 x3 y3 z3 x4 y4 z4 : α) : Matrix α :=
  let jacobian_matrix : Matrix α := Matrix.create 3 3
  let jacobian_matrix := jacobian_matrix.set (x2 - x1) 0 0
  let jacobian_matrix := jacobian_matrix.set (x3 - x1) 0 1
  let jacobian_matrix := jacobian_matrix.set (x4 - x1) 0 2
  let jacobian_matrix := jacobian_matrix.set (y2 - y1) 1 0
  let jacobian_matrix := jacobian_matrix.set (y3 - y1) 1 1
  let jacobian_matrix := jacobian_matrix.set (y4 - y1) 1 2
  let jacobian_matrix := jacobian_matrix.set (z2 - z1) 2 0
  let jacobian_matrix := jacobian_matrix.set (z3 - z1) 2 1
  let jacobian_matrix := jacobian_matrix.set (z4 - z1) 2 2
  jacobian_matrix

def create_local_b (b : Vector α) (element_id : Nat) (M : Mesh α) : Vector α :=
  let b := b.set_size 4
  let Q := M.get_problem_data parameter.HEAT_SOURCE
  let x1 := (M.get_element element_id).get_node1.get_x_coordinate
  let y1 := (M.get_element element_id).get_node1.get_y_coordinate
  let z1 := (M.get_element element_id).get_node1.get_z_coordinate
  let x2 := (M.get_element element_id).get_node2.get_x_coordinate
  let y2 := (M.get_element element_id).get_node2.get_y_coordinate
  let z2 := (M.get_element element_id).get_node2.get_z_coordinate
  let x3 := (M.get_element element_id).get_node3.get_x_coordinate
  let y3 := (M.get_element element_id).get_node3.get_y_coordinate
  let z3 := (M.get_element element_id).get_node3.get_z_coordinate
  let x4 := (M.get_element element_id).get_node4.get_x_coordinate
  let y4 := (M.get_element element_id).get_node4.get_y_coordinate
  let z4 := (M.get_element element_id).get_node4.get_z_coordinate
  let J := calculate_local_jacobian x1 y1 z1 x2 y2 z2 x3 y3 z3 x4 y4 z4
  let b := b.set (Q * J / 24) 0
  let b := b.set (Q * J / 24) 1
  let b := b.set (Q * J / 24) 2
  let b := b.set (Q * J / 24) 3
  b

end process

/-! ## Quantities of an element, as `create_local_K` reads them from the mesh -/

section element_quantities

variable [LinearOrderedField α]

/-- The value `calculate_local_jacobian` returns on the coordinates of the four nodes. -/
def Element.jacobian (e : Element α) : α :=
  calculate_local_jacobian
    e.get_node1.get_x_coordinate e.get_node1.get_y_coordinate e.get_node1.get_z_coordinate
    e.get_node2.get_x_coordinate e.get_node2.get_y_coordinate e.get_node2.get_z_coordinate
    e.get_node3.get_x_coordinate e.get_node3.get_y_coordinate e.get_node3.get_z_coordinate
    e.get_node4.get_x_coordinate e.get_node4.get_y_coordinate e.get_node4.get_z_coordinate

/-- The value `calculate_local_volume` returns on the coordinates of the four nodes. -/
def Element.volume (e : Element α) : α :=
  calculate_local_volume
    e.get_node1.get_x_coordinate e.get_node1.get_y_coordinate e.get_node1.get_z_coordinate
    e.get_node2.get_x_coordinate e.get_node2.get_y_coordinate e.get_node2.get_z_coordinate
    e.get_node3.get_x_coordinate e.get_node3.get_y_coordinate e.get_node3.get_z_coordinate
    e.get_node4.get_x_coordinate e.get_node4.get_y_coordinate e.get_node4.get_z_coordinate

/-- The matrix `calculate_local_A` writes on the coordinates of the four nodes. -/
def Element.local_A (e : Element α) : Matrix α :=
  calculate_local_A (Matrix.create 3 3)
    e.get_node1.get_x_coordinate e.get_node1.get_y_coordinate e.get_node1.get_z_coordinate
    e.get_node2.get_x_coordinate e.get_node2.get_y_coordinate e.get_node2.get_z_coordinate
    e.get_node3.get_x_coordinate e.get_node3.get_y_coordinate e.get_node3.get_z_coordinate
    e.get_node4.get_x_coordinate e.get_node4.get_y_coordinate e.get_node4.get_z_coordinate

end element_quantities

/-! ## Positions of the free and of the Dirichlet nodes -/

/-- The positions `i < n`, in increasing order, whose node `i + 1` has no Dirichlet
condition. -/
def Mesh.free_positions (M : Mesh α) (n : Nat) : List Nat :=
  (List.range n).filter (fun i => !M.does_node_have_dirichlet_condition ((i : Int) + 1))

/-- The positions `i < n`, in increasing order, whose node `i + 1` has a Dirichlet
condition. -/
def Mesh.dirichlet_positions (M : Mesh α) (n : Nat) : List Nat :=
  (List.range n).filter (fun i => M.does_node_have_dirichlet_condition ((i : Int) + 1))

/-- The identifier of the node of the Dirichlet condition at position `c` of the list. -/
def Mesh.dirichlet_id (M : Mesh α) (c : Nat) : Int :=
  (M.get_dirichlet_condition c).get_node.get_ID

/-- The identifier of the node of the Neumann condition at position `c` of the list. -/
def Mesh.neumann_id (M : Mesh α) (c : Nat) : Int :=
  (M.get_neumann_condition c).get_node.get_ID

/-! ## Rows that survive the condensation -/

/-- The original index of row `r` of the system left after `c` removals, the `k`-th
removal acting on the current index `p k - k` (`p k` being an original index). -/
def survivor_of (p : Nat → Nat) : Nat → Nat → Nat
  | 0, r => r
  | c + 1, r => survivor_of p c (if r < p c - c then r else r + 1)

/-- The original index of the node of the Dirichlet condition at position `c`. -/
def Mesh.dirichlet_position (M : Mesh α) (c : Nat) : Nat := (M.dirichlet_id c - 1).toNat

/-- The original index of row `r` of the system reduced by the first `c` Dirichlet
conditions of the mesh. -/
def Mesh.survivor (M : Mesh α) (c r : Nat) : Nat := survivor_of M.dirichlet_position c r

/-! ## Global indices of the nodes of an element -/

/-- The index `get_ID() - 1` that `assembly` computes for local node `a` (0 .. 3) of an
element. -/
def Element.index (e : Element α) (a : Fin 4) : Int :=
  ![e.get_node1.get_ID - 1, e.get_node2.get_ID - 1, e.get_node3.get_ID - 1,
    e.get_node4.get_ID - 1] a

/-! ## Example inputs -/

/-- A mesh with the single element on the nodes (0,0,0), (1,0,0), (0,1,0), (0,0,1). -/
def unit_mesh : Mesh ℚ where
  problem_data := fun _ => 2
  quantities := fun q => match q with
    | quantity.NUM_NODES => 4
    | quantity.NUM_ELEMENTS => 1
    | quantity.NUM_DIRICHLET => 0
    | quantity.NUM_NEUMANN => 0
  nodes := fun i => ⟨(i : Int) + 1, if i = 1 then 1 else 0, if i = 2 then 1 else 0,
    if i = 3 then 1 else 0⟩
  elements := fun _ => ⟨1, ⟨1, 0, 0, 0⟩, ⟨2, 1, 0, 0⟩, ⟨3, 0, 1, 0⟩, ⟨4, 0, 0, 1⟩⟩
  dirichlet_conditions := fun _ => ⟨⟨1, 0, 0, 0⟩, 0⟩
  neumann_conditions := fun _ => ⟨⟨1, 0, 0, 0⟩, 0⟩

/-- A mesh of four nodes with Dirichlet values 5 on node 2 and 7 on node 4 and a Neumann
value on node 3. -/
def example_mesh : Mesh ℚ where
  problem_data := fun _ => 3
  quantities := fun q => match q with
    | quantity.NUM_NODES => 4
    | quantity.NUM_ELEMENTS => 1
    | quantity.NUM_DIRICHLET => 2
    | quantity.NUM_NEUMANN => 1
  nodes := fun i => ⟨(i : Int) + 1, if i = 1 then 1 else 0, if i = 2 then 1 else 0,
    if i = 3 then 1 else 0⟩
  elements := fun _ => ⟨1, ⟨1, 0, 0, 0⟩, ⟨2, 1, 0, 0⟩, ⟨3, 0, 1, 0⟩, ⟨4, 0, 0, 1⟩⟩
  dirichlet_conditions := fun c => match c with
    | 0 => ⟨⟨2, 1, 0, 0⟩, 5⟩
    | _ => ⟨⟨4, 0, 0, 1⟩, 7⟩
  neumann_conditions := fun _ => ⟨⟨3, 0, 1, 0⟩, 1⟩

/-- A 4×4 system matrix: 2 on the diagonal, 1 elsewhere. -/
def example_K : Matrix ℚ := ⟨4, 4, fun i j => if i = j then 2 else 1⟩

/-- The right-hand side (1, 2, 3, 4). -/
def example_b : Vector ℚ := ⟨4, fun i => (i : ℚ) + 1⟩

/-- The solution of the system of `example_K`, `example_b` reduced by `example_mesh`. -/
def example_X : Vector ℚ := ⟨2, fun i => if i = 0 then -13 / 3 else -7 / 3⟩

/-- The symmetric positive definite 2×2 matrix with 2 on the diagonal and 1 elsewhere. -/
def example_spd (α : Type) [LinearOrderedField α] : Matrix α :=
  ⟨2, 2, fun i j => if i = j then 2 else 1⟩

/-- The right-hand side (1, 2). -/
def example_rhs (α : Type) [LinearOrderedField α] : Vector α := ⟨2, fun i => (i : α) + 1⟩

/-- A mesh whose single element has four coplanar nodes (0,0,0), (1,0,0), (0,1,0),
(1,1,0), so that its Jacobian determinant and its volume are zero; `k = 3`, `Q = 24`. -/
def coplanar_mesh : Mesh ℚ where
  problem_data := fun p => match p with
    | parameter.THERMAL_CONDUCTIVITY => 3
    | parameter.HEAT_SOURCE => 24
  quantities := fun q => match q with
    | quantity.NUM_NODES => 4
    | quantity.NUM_ELEMENTS => 1
    | quantity.NUM_DIRICHLET => 0
    | quantity.NUM_NEUMANN => 0
  nodes := fun i => ⟨(i : Int) + 1, if i = 1 ∨ i = 3 then 1 else 0,
    if i = 2 ∨ i = 3 then 1 else 0, 0⟩
  elements := fun _ => ⟨1, ⟨1, 0, 0, 0⟩, ⟨2, 1, 0, 0⟩, ⟨3, 0, 1, 0⟩, ⟨4, 1, 1, 0⟩⟩
  dirichlet_conditions := fun _ => ⟨⟨1, 0, 0, 0⟩, 0⟩
  neumann_conditions := fun _ => ⟨⟨1, 0, 0, 0⟩, 0⟩

/-- The 1×1 matrix with the entry 0, whose only pivot is not positive. -/
def example_singular : Matrix ℚ := ⟨1, 1, fun _ _ => 0⟩

/-- The 3×3 identity scaled by 2. -/
def example_2I : Matrix ℚ := ⟨3, 3, fun i j => if i = j then 2 else 0⟩

/-- The 3×3 matrix with rows (1, 2, 3), (4, 5, 6), (1, 2, 3). -/
def example_dup : Matrix ℚ := ⟨3, 3, fun i j => (if i = 1 then 3 else 0) + (j : ℚ) + 1⟩

/-- The 2×3 matrix with rows (1, 2, 3), (4, 5, 6). -/
def example_23 : Matrix ℚ := ⟨2, 3, fun i j => 3 * (i : ℚ) + (j : ℚ) + 1⟩

/-- The 3×2 matrix with rows (7, 8), (9, 10), (11, 12). -/
def example_32 : Matrix ℚ := ⟨3, 2, fun i j => 2 * (i : ℚ) + (j : ℚ) + 7⟩

/-- The 1×2 matrix with row (1, 1). -/
def example_row : Matrix ℚ := ⟨1, 2, fun _ _ => 1⟩

/-- The vector (1, 1). -/
def example_ones : Vector ℚ := ⟨2, fun _ => 1⟩

/-! ## The Neumann list of a mesh -/

/-- The Neumann conditions of a mesh, in the order in which
`apply_neumann_boundary_conditions` visits them. -/
def Mesh.neumann_list (M : Mesh α) : List (Condition α) :=
  (List.range (M.get_quantity quantity.NUM_NEUMANN)).map M.get_neumann_condition

/-! ## Local systems of the second-equation variant (`MEF 3D - SEGUNDA ECUACION`) -/

section second_equation_process

variable [LinearOrderedField α]

/-- The function `create_local_K` of the second-equation variant. Its
`calculate_local_jacobian`, `calculate_B` and `calculate_local_A` are those of the
heat-transfer variant word for word; its mesh has no `problem_data`, which this function
does not read. -/
def second_equation.create_local_K (K : Matrix α) (element_id : Nat) (M : Mesh α) :
    Option (Matrix α) :=
  let K := K.set_size 4 4
  let x1 := (M.get_element element_id).get_node1.get_x_coordinate
  let y1 := (M.get_element element_id).get_node1.get_y_coordinate
  let z1 := (M.get_element element_id).get_node1.get_z_coordinate
  let x2 := (M.get_element element_id).get_node2.get_x_coordinate
  let y2 := (M.get_element element_id).get_node2.get_y_coordinate
  let z2 := (M.get_element element_id).get_node2.get_z_coordinate
  let x3 := (M.get_element element_id).get_node3.get_x_coordinate
  let y3 := (M.get_element element_id).get_node3.get_y_coordinate
  let z3 := (M.get_element element_id).get_node3.get_z_coordinate
  let x4 := (M.get_element element_id).get_node4.get_x_coordinate
  let y4 := (M.get_element element_id).get_node4.get_y_coordinate
  let z4 := (M.get_element element_id).get_node4.get_z_coordinate
  let J := calculate_local_jacobian x1 y1 z1 x2 y2 z2 x3 y3 z3 x4 y4 z4
  let B := calculate_B (Matrix.create 3 4)
  let A := calculate_local_A (Matrix.create 3 3) x1 y1 z1 x2 y2 z2 x3 y3 z3 x4 y4 z4
  let Bt := transpose B 3 4 (Matrix.create 4 3)
  let At := transpose A 3 3 (Matrix.create 3 3)
  let J := if J = 0 then epsilon_patch else J
  (product_matrix_by_matrix A B (Matrix.create 0 0)).bind fun res1 =>
  (product_matrix_by_matrix At res1 (Matrix.create 0 0)).bind fun res2 =>
  (product_matrix_by_matrix Bt res2 (Matrix.create 0 0)).bind fun res3 =>
  some (product_scalar_by_matrix (1 / (3360 * J)) res3 4 4 K)

/-- The function `create_local_b` of the second-equation variant. -/
def second_equation.create_local_b (b : Vector α) (element_id : Nat) (M : Mesh α) : Vector α :=
  let b := b.set_size 4
  let x1 := (M.get_element element_id).get_node1.get_x_coordinate
  let y1 := (M.get_element element_id).get_node1.get_y_coordinate
  let z1 := (M.get_element element_id).get_node1.get_z_coordinate
  let x2 := (M.get_element element_id).get_node2.get_x_coordinate
  let y2 := (M.get_element element_id).get_node2.get_y_coordinate
  let z2 := (M.get_element element_id).get_node2.get_z_coordinate
  let x3 := (M.get_element element_id).get_node3.get_x_coordinate
  let y3 := (M.get_element element_id).get_node3.get_y_coordinate
  let z3 := (M.get_element element_id).get_node3.get_z_coordinate
  let x4 := (M.get_element element_id).get_node4.get_x_coordinate
  let y4 := (M.get_element element_id).get_node4.get_y_coordinate
  let z4 := (M.get_element element_id).get_node4.get_z_coordinate
  let J := calculate_local_jacobian x1 y1 z1 x2 y2 z2 x3 y3 z3 x4 y4 z4
  let b := b.set (J / 105) 0
  let b := b.set (J / 105) 1
  let b := b.set (J / 105) 2
  let b := b.set (J / 105) 3
  b

/-- The per-condition condensation step as the specification words it: before removing
anything, subtract `value * K[r, idx]` from `b[r]` for every row `r`; then remove row
`idx` and column `idx` from `K` and element `idx` from `b`. -/
def condensation_step_spec (K : Matrix α) (b : Vector α) (idx : Nat) (value : α) :
    Matrix α × Vector α :=
  let b := for_loop K.get_nrows
    (fun r (b : Vector α) => b.set (b.get r - value * K.get r idx) r) b
  let K := K.remove_row idx
  let K := K.remove_column idx
  let b := b.remove_row idx
  (K, b)

end second_equation_process

/-! ## Heap-backed node store (`geometry/heap.hpp`, `geometry/mesh.hpp` of the heap variants) -/

/-- The class `MinHeap`: the array of nodes, its capacity and the number of nodes stored. -/
structure MinHeap (α : Type) where
  heap_array : Nat → Node α
  capacity : Nat
  heap_size : Nat

namespace MinHeap

/-- The constructor `MinHeap(capacity)`; `cells` is the content of the freshly allocated
array, which the source leaves as it comes. -/
def create (capacity : Nat) (cells : Nat → Node α) : MinHeap α := ⟨cells, capacity, 0⟩

def parent (i : Nat) : Nat := (i - 1) / 2

def left (i : Nat) : Nat := 2 * i + 1

def right (i : Nat) : Nat := 2 * i + 2

/-- The call `swap(heap_array[i], heap_array[j])`. -/
def swap (h : MinHeap α) (i j : Nat) : MinHeap α :=
  { h with heap_array := fun k =>
      if k = i then h.heap_array j else if k = j then h.heap_array i else h.heap_array k }

/-- The `while` loop of `insert`, entered with the counter at `i`. -/
def sift_up (h : MinHeap α) (i : Nat) : MinHeap α :=
  if _hc : i ≠ 0 ∧ (h.heap_array (parent i)).get_ID > (h.heap_array i).get_ID then
    sift_up (h.swap i (parent i)) (parent i)
  else
    h
termination_by i
decreasing_by
  simp only [parent]
  omega

def insert (h : MinHeap α) (k : Node α) : MinHeap α :=
  if h.heap_size = h.capacity then
    h
  else
    let i := h.heap_size
    let h := { h with heap_array := Function.update h.heap_array h.heap_size k,
                      heap_size := h.heap_size + 1 }
    sift_up h i

/-- The recursive search `findFrom(i, find)`; the counter starts at 0 and only grows, so
it is a natural number, and `i > heap_size - 1` is `heap_size ≤ i`. -/
def findFrom (h : MinHeap α) (i : Nat) (find : Int) : Int :=
  if _hc : h.heap_size ≤ i then
    -1
  else
    if (h.heap_array i).get_ID - 1 = find then
      (i : Int)
    else
      max (findFrom h (left i) find) (findFrom h (right i) find)
termination_by h.heap_size - i
decreasing_by
  all_goals simp only [left, right]
  all_goals omega

/-- The function `getNodeById(id)`: the read of `heap_array[found]`, `none` when `found`
is outside the array. -/
def getNodeById (h : MinHeap α) (id : Int) : Option (Node α) :=
  let found := findFrom h 0 id
  (checked_index found h.capacity).map h.heap_array

end MinHeap

/-- The class `Mesh` of the heap variants, reduced to its node store and the quantities
that size it. -/
structure heap_variant.Mesh (α : Type) where
  quantities : quantity → Nat
  nodes : MinHeap α

/-- The part of `init_arrays` that allocates the node store. -/
def heap_variant.Mesh.init_arrays (M : heap_variant.Mesh α) (cells : Nat → Node α) :
    heap_variant.Mesh α :=
  { M with nodes := MinHeap.create (M.quantities quantity.NUM_NODES) cells }

def heap_variant.Mesh.insert_node (M : heap_variant.Mesh α) (node : Node α) (_position : Nat) :
    heap_variant.Mesh α :=
  { M with nodes := M.nodes.insert node }

def heap_variant.Mesh.get_node (M : heap_variant.Mesh α) (position : Int) : Option (Node α) :=
  M.nodes.getNodeById position

/-- The reading loop of `read_input`: the nodes of the file are inserted one after the
other, the `i`-th at position `i`. -/
def heap_variant.Mesh.insert_nodes (M : heap_variant.Mesh α) (l : List (Node α)) :
    heap_variant.Mesh α :=
  (l.enum).foldl (fun M p => M.insert_node p.2 p.1) M
/-! ## Example inputs of the boundary conditions and of the node store -/

/-- The mesh `example_mesh` with the Neumann list `l`. -/
def neumann_mesh (l : List (Condition ℚ)) : Mesh ℚ :=
  { example_mesh with
    quantities := fun q => match q with
      | quantity.NUM_NODES => 4
      | quantity.NUM_ELEMENTS => 1
      | quantity.NUM_DIRICHLET => 2
      | quantity.NUM_NEUMANN => l.length
    neumann_conditions := fun c => l.getD c ⟨⟨1, 0, 0, 0⟩, 0⟩ }

/-- The mesh `example_mesh` with the Dirichlet list `l`. -/
def dirichlet_mesh (l : List (Condition ℚ)) : Mesh ℚ :=
  { example_mesh with
    quantities := fun q => match q with
      | quantity.NUM_NODES => 4
      | quantity.NUM_ELEMENTS => 1
      | quantity.NUM_DIRICHLET => l.length
      | quantity.NUM_NEUMANN => 1
    dirichlet_conditions := fun c => l.getD c ⟨⟨1, 0, 0, 0⟩, 0⟩ }

/-- Four nodes: Dirichlet value 7 on node 4, then 5 on node 2 (decreasing identifiers). -/
def unsorted_mesh : Mesh ℚ := dirichlet_mesh [⟨⟨4, 0, 0, 1⟩, 7⟩, ⟨⟨2, 1, 0, 0⟩, 5⟩]

/-- Four nodes: Dirichlet value 7 on node 3, then 5 on node 1 (decreasing identifiers). -/
def reversed_mesh : Mesh ℚ := dirichlet_mesh [⟨⟨3, 0, 1, 0⟩, 7⟩, ⟨⟨1, 0, 0, 0⟩, 5⟩]

/-- The 4×4 matrix whose entry in row `i`, column `j` (from 1) has the digits `i`, `j`:
11, 12, .., 44. -/
def example_grid : Matrix ℚ := ⟨4, 4, fun i j => 10 * ((i : ℚ) + 1) + ((j : ℚ) + 1)⟩

/-- The nodes 3, 1, 2 in the order of a file that does not list them by identifier. -/
def example_nodes : List (Node ℚ) := [⟨3, 0, 1, 0⟩, ⟨1, 0, 0, 0⟩, ⟨2, 1, 0, 0⟩]

/-- A mesh of the heap variant sized for three nodes, before `init_arrays`. -/
def example_heap_mesh : heap_variant.Mesh ℚ where
  quantities := fun q => match q with
    | quantity.NUM_NODES => 3
    | quantity.NUM_ELEMENTS => 0
    | quantity.NUM_DIRICHLET => 0
    | quantity.NUM_NEUMANN => 0
  nodes := MinHeap.create 0 (fun _ => ⟨0, 0, 0, 0⟩)

/-- The heap of the nodes 1, 2, 3 stored in this order. -/
def example_heap : MinHeap ℚ where
  heap_array := fun i => ⟨(i : Int) + 1, 0, 0, 0⟩
  capacity := 3
  heap_size := 3

/-! ## The nodes stored in a heap, and the overflow report of `insert` -/

/-- The nodes stored in the heap, in the order of the array. -/
def MinHeap.stored (h : MinHeap α) : List (Node α) :=
  (List.range h.heap_size).map h.heap_array

/-- The function `insert` together with its report: the flag is `true` when the overflow
message is printed, which happens before any write. -/
def MinHeap.insert_run (h : MinHeap α) (k : Node α) : MinHeap α × Bool :=
  if h.heap_size = h.capacity then
    (h, true)
  else
    let i := h.heap_size
    let h := { h with heap_array := Function.update h.heap_array h.heap_size k,
                      heap_size := h.heap_size + 1 }
    (MinHeap.sift_up h i, false)

/-- The heap of the nodes 2, 3, 4 stored in this order, with room for one more. -/
def example_heap_spare : MinHeap ℚ where
  heap_array := fun i => ⟨(i : Int) + 2, 0, 0, 0⟩
  capacity := 4
  heap_size := 3

/-- The 2×2 matrix with rows (2, 9), (1, 2): the lower triangle of `example_spd`, another
entry above the diagonal. -/
def example_lower (α : Type) [LinearOrderedField α] : Matrix α :=
  ⟨2, 2, fun i j => if i = j then 2 else if i < j then 9 else 1⟩

/-! ## The local values of `create_local_K` at its last statement -/

section create_local_K_locals

variable [LinearOrderedField α]

/-- The function `create_local_K(K, element_id, M)` together with the values its locals `J`
and `volume` hold when the prefactor `k * volume / (J * J)` is evaluated, that is after
the two statements `if (J == 0 || isnan(J)) J = 0.000006;` and
`if (volume == 0 || isnan(volume)) volume = 0.000006;`: the result is `(K, J, volume)`. -/
def create_local_K_run (K : Matrix α) (element_id : Nat) (M : Mesh α) :
    Option (Matrix α × α × α) :=
  let K := K.set_size 4 4
  let k := M.get_problem_data parameter.THERMAL_CONDUCTIVITY
  let x1 := (M.get_element element_id).get_node1.get_x_coordinate
  let y1 := (M.get_element element_id).get_node1.get_y_coordinate
  let z1 := (M.get_element element_id).get_node1.get_z_coordinate
  let x2 := (M.get_element element_id).get_node2.get_x_coordinate
  let y2 := (M.get_element element_id).get_node2.get_y_coordinate
  let z2 := (M.get_element element_id).get_node2.get_z_coordinate
  let x3 := (M.get_element element_id).get_node3.get_x_coordinate
  let y3 := (M.get_element element_id).get_node3.get_y_coordinate
  let z3 := (M.get_element element_id).get_node3.get_z_coordinate
  let x4 := (M.get_element element_id).get_node4.get_x_coordinate
  let y4 := (M.get_element element_id).get_node4.get_y_coordinate
  let z4 := (M.get_element element_id).get_node4.get_z_coordinate
  let volume := calculate_local_volume x1 y1 z1 x2 y2 z2 x3 y3 z3 x4 y4 z4
  let J := calculate_local_jacobian x1 y1 z1 x2 y2 z2 x3 y3 z3 x4 y4 z4
  let B := calculate_B (Matrix.create 3 4)
  let A := calculate_local_A (Matrix.create 3 3) x1 y1 z1 x2 y2 z2 x3 y3 z3 x4 y4 z4
  let Bt := transpose B 3 4 (Matrix.create 4 3)
  let At := transpose A 3 3 (Matrix.create 3 3)
  let J := if J = 0 then epsilon_patch else J
  let volume := if volume = 0 then epsilon_patch else volume
  (product_matrix_by_matrix A B (Matrix.create 0 0)).bind fun res1 =>
  (product_matrix_by_matrix At res1 (Matrix.create 0 0)).bind fun res2 =>
  (product_matrix_by_matrix Bt res2 (Matrix.create 0 0)).bind fun res3 =>
  some (product_scalar_by_matrix (k * volume / (J * J)) res3 4 4 K, J, volume)

end create_local_K_locals

/-! ## Loop lemmas -/

theorem for_loop_zero {σ : Type} (body : Nat → σ → σ) (s : σ) : for_loop 0 body s = s := rfl

theorem for_loop_succ {σ : Type} (n : Nat) (body : Nat → σ → σ) (s : σ) :
    for_loop (n + 1) body s = body n (for_loop n body s) := by
  simp [for_loop, List.range_succ, List.foldl_append]

theorem for_loop_down_zero {σ : Type} (body : Nat → σ → σ) (s : σ) :
    for_loop_down 0 body s = s := rfl

theorem for_loop_down_succ {σ : Type} (n : Nat) (body : Nat → σ → σ) (s : σ) :
    for_loop_down (n + 1) body s = for_loop_down n body (body n s) := by
  simp [for_loop_down, List.range_succ, List.reverse_append]

theorem for_loop_down_eq {σ : Type} (n : Nat) (body : Nat → σ → σ) (s : σ) :
    for_loop_down n body s = for_loop n (fun t acc => body (n - 1 - t) acc) s := by
  have e : (List.range n).reverse = (List.range n).map (fun t => n - 1 - t) := by
    rw [List.range_eq_range', List.reverse_range']
    simp [List.range_eq_range']
  simp only [for_loop_down, for_loop, e, List.foldl_map]

theorem for_loop_from_empty {σ : Type} (lo hi : Nat) (h : hi ≤ lo) (body : Nat → σ → σ) (s : σ) :
    for_loop_from lo hi body s = s := by
  simp [for_loop_from, Nat.sub_eq_zero_of_le h]

theorem for_loop_from_succ {σ : Type} (lo hi : Nat) (h : lo ≤ hi) (body : Nat → σ → σ) (s : σ) :
    for_loop_from lo (hi + 1) body s = body hi (for_loop_from lo hi body s) := by
  have e : hi + 1 - lo = (hi - lo) + 1 := by omega
  simp only [for_loop_from, e, List.range'_concat, List.foldl_append, List.foldl_cons,
    List.foldl_nil]
  congr 1
  omega

theorem for_loop_sum [AddCommMonoid α] (n : Nat) (f : Nat → α) :
    for_loop n (fun c acc => acc + f c) (0 : α) = ∑ c in Finset.range n, f c := by
  induction n with
  | zero => rfl
  | succ n ih => rw [for_loop_succ, ih, Finset.sum_range_succ]

theorem for_loop_from_sum [AddCommMonoid α] (lo hi : Nat) (f : Nat → α) :
    for_loop_from lo hi (fun c acc => acc + f c) (0 : α) = ∑ c in Finset.Ico lo hi, f c := by
  by_cases h : hi ≤ lo
  · rw [for_loop_from_empty lo hi h, Finset.Ico_eq_empty_of_le h, Finset.sum_empty]
  · push_neg at h
    obtain ⟨d, rfl⟩ := Nat.exists_eq_add_of_le (le_of_lt h)
    clear h
    induction d with
    | zero => simp [for_loop_from_empty]
    | succ d ih =>
      rw [← Nat.add_assoc, for_loop_from_succ lo (lo + d) (by omega), ih,
        Finset.sum_Ico_succ_top (by omega)]

theorem for_loop_opt_zero {σ : Type} (body : Nat → σ → Option σ) (s : σ) :
    for_loop_opt 0 body s = some s := rfl

theorem for_loop_opt_succ {σ : Type} (n : Nat) (body : Nat → σ → Option σ) (s : σ) :
    for_loop_opt (n + 1) body s = (for_loop_opt n body s).bind (body n) := by
  simp [for_loop_opt, for_loop_succ]

theorem checked_index_eq {i : Int} {bound : Nat} (h0 : 0 ≤ i) (h1 : i < (bound : Int)) :
    checked_index i bound = some i.toNat := by
  simp [checked_index, h0, h1]

theorem checked_index_natCast {i bound : Nat} (h : i < bound) :
    checked_index (i : Int) bound = some i := by
  rw [checked_index_eq (by omega) (by omega)]
  simp

/-! ## Container lemmas -/

namespace Matrix

@[simp] theorem get_set (M : Matrix α) (v : α) (r c i j : Nat) :
    (M.set v r c).get i j = if i = r ∧ j = c then v else M.get i j := rfl

@[simp] theorem nrows_set (M : Matrix α) (v : α) (r c : Nat) : (M.set v r c).nrows = M.nrows := rfl

@[simp] theorem ncols_set (M : Matrix α) (v : α) (r c : Nat) : (M.set v r c).ncols = M.ncols := rfl

@[simp] theorem get_add [Add α] (M : Matrix α) (v : α) (r c i j : Nat) :
    (M.add v r c).get i j = if i = r ∧ j = c then M.get r c + v else M.get i j := rfl

@[simp] theorem nrows_add [Add α] (M : Matrix α) (v : α) (r c : Nat) :
    (M.add v r c).nrows = M.nrows := rfl

@[simp] theorem ncols_add [Add α] (M : Matrix α) (v : α) (r c : Nat) :
    (M.add v r c).ncols = M.ncols := rfl

@[simp] theorem get_init [Zero α] (M : Matrix α) (i j : Nat) :
    M.init.get i j = if i < M.nrows ∧ j < M.ncols then 0 else M.get i j := rfl

@[simp] theorem nrows_init [Zero α] (M : Matrix α) : M.init.nrows = M.nrows := rfl

@[simp] theorem ncols_init [Zero α] (M : Matrix α) : M.init.ncols = M.ncols := rfl

@[simp] theorem get_set_size (M : Matrix α) (n m i j : Nat) :
    (M.set_size n m).get i j = M.get i j := rfl

@[simp] theorem nrows_set_size (M : Matrix α) (n m : Nat) : (M.set_size n m).nrows = n := rfl

@[simp] theorem ncols_set_size (M : Matrix α) (n m : Nat) : (M.set_size n m).ncols = m := rfl

@[simp] theorem get_create [Zero α] (n m i j : Nat) :
    (Matrix.create n m : Matrix α).get i j = 0 := rfl

@[simp] theorem nrows_create [Zero α] (n m : Nat) : (Matrix.create n m : Matrix α).nrows = n := rfl

@[simp] theorem ncols_create [Zero α] (n m : Nat) : (Matrix.create n m : Matrix α).ncols = m := rfl

@[simp] theorem get_remove_row (M : Matrix α) (k i j : Nat) :
    (M.remove_row k).get i j = if i < k then M.get i j else M.get (i + 1) j := by
  simp only [remove_row, get]

@[simp] theorem nrows_remove_row (M : Matrix α) (k : Nat) :
    (M.remove_row k).nrows = M.nrows - 1 := rfl

@[simp] theorem ncols_remove_row (M : Matrix α) (k : Nat) :
    (M.remove_row k).ncols = M.ncols := rfl

@[simp] theorem get_remove_column (M : Matrix α) (k i j : Nat) :
    (M.remove_column k).get i j = if j < k then M.get i j else M.get i (j + 1) := by
  simp only [remove_column, get]

@[simp] theorem nrows_remove_column (M : Matrix α) (k : Nat) :
    (M.remove_column k).nrows = M.nrows := rfl

@[simp] theorem ncols_remove_column (M : Matrix α) (k : Nat) :
    (M.remove_column k).ncols = M.ncols - 1 := rfl

@[simp] theorem get_nrows_eq (M : Matrix α) : M.get_nrows = M.nrows := rfl

@[simp] theorem get_ncols_eq (M : Matrix α) : M.get_ncols = M.ncols := rfl

end Matrix

namespace Vector

@[simp] theorem vget_set (v : Vector α) (x : α) (k i : Nat) :
    (v.set x k).get i = if i = k then x else v.get i := by
  simp only [set, get, Function.update_apply]

@[simp] theorem size_set (v : Vector α) (x : α) (k : Nat) : (v.set x k).size = v.size := rfl

@[simp] theorem vget_add [Add α] (v : Vector α) (x : α) (k i : Nat) :
    (v.add x k).get i = if i = k then v.get k + x else v.get i := by
  simp only [add, get, Function.update_apply]

@[simp] theorem size_add [Add α] (v : Vector α) (x : α) (k : Nat) : (v.add x k).size = v.size := rfl

@[simp] theorem vget_init [Zero α] (v : Vector α) (i : Nat) :
    v.init.get i = if i < v.size then 0 else v.get i := rfl

@[simp] theorem size_init [Zero α] (v : Vector α) : v.init.size = v.size := rfl

@[simp] theorem vget_remove_row (v : Vector α) (k i : Nat) :
    (v.remove_row k).get i = if i < k then v.get i else v.get (i + 1) := by
  simp only [remove_row, get]

@[simp] theorem size_remove_row (v : Vector α) (k : Nat) : (v.remove_row k).size = v.size - 1 := rfl

@[simp] theorem get_size_eq (v : Vector α) : v.get_size = v.size := rfl

end Vector

/-! ## Kernel loops -/

theorem transpose_spec (M : Matrix α) (n m : Nat) (T : Matrix α) :
    (transpose M n m T).nrows = T.nrows ∧ (transpose M n m T).ncols = T.ncols ∧
    ∀ i j, (transpose M n m T).get i j = if j < n ∧ i < m then M.get j i else T.get i j := by
  have inner : ∀ (r k : Nat) (T : Matrix α),
      (for_loop k (fun c T => T.set (M.get r c) c r) T).nrows = T.nrows ∧
      (for_loop k (fun c T => T.set (M.get r c) c r) T).ncols = T.ncols ∧
      ∀ i j, (for_loop k (fun c T => T.set (M.get r c) c r) T).get i j =
        if j = r ∧ i < k then M.get j i else T.get i j := by
    intro r k T
    induction k with
    | zero => simp [for_loop_zero]
    | succ k ih =>
      rw [for_loop_succ]
      obtain ⟨h1, h2, h3⟩ := ih
      refine ⟨by simp [h1], by simp [h2], ?_⟩
      intro i j
      simp only [Matrix.get_set, h3]
      by_cases hj : j = r <;> by_cases hi : i = k
      · subst hi; subst hj; simp
      · have : i < k + 1 ↔ i < k := by omega
        simp [hi, hj, this]
      · simp [hj]
      · simp [hj]
  unfold transpose
  induction n with
  | zero => simp [for_loop_zero]
  | succ n ih =>
    rw [for_loop_succ]
    obtain ⟨h1, h2, h3⟩ := ih
    obtain ⟨g1, g2, g3⟩ := inner n m
      (for_loop n (fun r T => for_loop m (fun c T => T.set (M.get r c) c r) T) T)
    refine ⟨by rw [g1, h1], by rw [g2, h2], ?_⟩
    intro i j
    rw [g3, h3]
    by_cases hj : j = n
    · subst hj; by_cases hi : i < m <;> simp [hi]
    · have : j < n + 1 ↔ j < n := by omega
      simp [hj, this]

section kernel_lemmas

variable [LinearOrderedField α]

theorem product_scalar_by_matrix_spec (scalar : α) (M : Matrix α) (n m : Nat) (R : Matrix α) :
    (product_scalar_by_matrix scalar M n m R).nrows = R.nrows ∧
    (product_scalar_by_matrix scalar M n m R).ncols = R.ncols ∧
    ∀ i j, (product_scalar_by_matrix scalar M n m R).get i j =
      if i < n ∧ j < m then scalar * M.get i j else R.get i j := by
  have inner : ∀ (r k : Nat) (R : Matrix α),
      (for_loop k (fun c R => R.set (scalar * M.get r c) r c) R).nrows = R.nrows ∧
      (for_loop k (fun c R => R.set (scalar * M.get r c) r c) R).ncols = R.ncols ∧
      ∀ i j, (for_loop k (fun c R => R.set (scalar * M.get r c) r c) R).get i j =
        if i = r ∧ j < k then scalar * M.get i j else R.get i j := by
    intro r k R
    induction k with
    | zero => simp [for_loop_zero]
    | succ k ih =>
      rw [for_loop_succ]
      obtain ⟨h1, h2, h3⟩ := ih
      refine ⟨by simp [h1], by simp [h2], ?_⟩
      intro i j
      simp only [Matrix.get_set, h3]
      by_cases hi : i = r <;> by_cases hj : j = k
      · subst hi; subst hj; simp
      · have : j < k + 1 ↔ j < k := by omega
        simp [hi, hj, this]
      · simp [hi]
      · simp [hi]
  unfold product_scalar_by_matrix
  induction n with
  | zero => simp [for_loop_zero]
  | succ n ih =>
    rw [for_loop_succ]
    obtain ⟨h1, h2, h3⟩ := ih
    obtain ⟨g1, g2, g3⟩ := inner n m
      (for_loop n (fun r R => for_loop m (fun c R => R.set (scalar * M.get r c) r c) R) R)
    refine ⟨by rw [g1, h1], by rw [g2, h2], ?_⟩
    intro i j
    rw [g3, h3]
    by_cases hi : i = n
    · subst hi; by_cases hj : j < m <;> simp [hj]
    · have : i < n + 1 ↔ i < n := by omega
      simp [hi, this]

end kernel_lemmas

section kernel_lemmas2

variable [LinearOrderedField α]

theorem add_loop_spec (f : Nat → α) (r c k : Nat) (R : Matrix α) :
    (for_loop k (fun i R => R.add (f i) r c) R).nrows = R.nrows ∧
    (for_loop k (fun i R => R.add (f i) r c) R).ncols = R.ncols ∧
    ∀ i j, (for_loop k (fun i R => R.add (f i) r c) R).get i j =
      if i = r ∧ j = c then R.get r c + ∑ t in Finset.range k, f t else R.get i j := by
  induction k with
  | zero =>
    refine ⟨rfl, rfl, ?_⟩
    intro i j
    by_cases h : i = r ∧ j = c
    · simp [for_loop_zero, h]
    · simp [for_loop_zero, h]
  | succ k ih =>
    rw [for_loop_succ]
    obtain ⟨h1, h2, h3⟩ := ih
    refine ⟨by simp [h1], by simp [h2], ?_⟩
    intro i j
    simp only [Matrix.get_add, h3]
    by_cases h : i = r ∧ j = c
    · simp [h, Finset.sum_range_succ, add_assoc]
    · simp [h]

theorem product_loops_spec (A B : Matrix α) (n q m : Nat) (R : Matrix α) :
    let P := for_loop n (fun r R =>
      for_loop q (fun c R =>
        for_loop m (fun i R => R.add (A.get r i * B.get i c) r c) R) R) R
    P.nrows = R.nrows ∧ P.ncols = R.ncols ∧
    ∀ i j, P.get i j =
      if i < n ∧ j < q then R.get i j + ∑ t in Finset.range m, A.get i t * B.get t j
      else R.get i j := by
  have middle : ∀ (r k : Nat) (R : Matrix α),
      let P := for_loop k (fun c R =>
        for_loop m (fun i R => R.add (A.get r i * B.get i c) r c) R) R
      P.nrows = R.nrows ∧ P.ncols = R.ncols ∧
      ∀ i j, P.get i j =
        if i = r ∧ j < k then R.get i j + ∑ t in Finset.range m, A.get i t * B.get t j
        else R.get i j := by
    intro r k R
    induction k with
    | zero => simp [for_loop_zero]
    | succ k ih =>
      simp only at ih ⊢
      rw [for_loop_succ]
      obtain ⟨h1, h2, h3⟩ := ih
      obtain ⟨g1, g2, g3⟩ := add_loop_spec (fun i => A.get r i * B.get i k) r k m
        (for_loop k (fun c R =>
          for_loop m (fun i R => R.add (A.get r i * B.get i c) r c) R) R)
      refine ⟨by rw [g1, h1], by rw [g2, h2], ?_⟩
      intro i j
      rw [g3, h3, h3]
      by_cases hi : i = r <;> by_cases hj : j = k
      · subst hi; subst hj; simp
      · have : j < k + 1 ↔ j < k := by omega
        simp [hi, hj, this]
      · simp [hi]
      · simp [hi]
  intro P
  show (for_loop n _ R).nrows = _ ∧ (for_loop n _ R).ncols = _ ∧ ∀ i j, (for_loop n _ R).get i j = _
  induction n with
  | zero => simp [for_loop_zero]
  | succ n ih =>
    rw [for_loop_succ]
    obtain ⟨h1, h2, h3⟩ := ih
    obtain ⟨g1, g2, g3⟩ := middle n q (for_loop n (fun r R =>
      for_loop q (fun c R =>
        for_loop m (fun i R => R.add (A.get r i * B.get i c) r c) R) R) R)
    refine ⟨by rw [g1, h1], by rw [g2, h2], ?_⟩
    intro i j
    rw [g3, h3]
    by_cases hi : i = n
    · subst hi; by_cases hj : j < q <;> simp [hj]
    · have : i < n + 1 ↔ i < n := by omega
      simp [hi, this]

/-- The product of two containers with matching inner dimensions. -/
theorem product_matrix_by_matrix_spec (A B R : Matrix α) (h : A.ncols = B.nrows) :
    ∃ P, product_matrix_by_matrix A B R = some P ∧ P.nrows = A.nrows ∧ P.ncols = B.ncols ∧
      ∀ i j, P.get i j =
        if i < A.nrows ∧ j < B.ncols then ∑ t in Finset.range A.ncols, A.get i t * B.get t j
        else R.get i j := by
  obtain ⟨g1, g2, g3⟩ := product_loops_spec A B A.nrows B.ncols A.ncols
    ((R.set_size A.nrows B.ncols).init)
  refine ⟨_, ?_, g1, g2, ?_⟩
  · simp only [product_matrix_by_matrix, Matrix.get_nrows_eq, Matrix.get_ncols_eq, h, if_true]
  · intro i j
    rw [g3]
    by_cases hr : i < A.nrows ∧ j < B.ncols
    · simp [hr]
    · simp [hr]

theorem product_matrix_by_matrix_mismatch (A B R : Matrix α) (h : A.ncols ≠ B.nrows) :
    product_matrix_by_matrix A B R = none := by
  simp [product_matrix_by_matrix, h]

theorem product_matrix_by_vector_spec (M : Matrix α) (V : Vector α) (n m : Nat)
    (R : Vector α) :
    (product_matrix_by_vector M V n m R).size = R.size ∧
    ∀ i, (product_matrix_by_vector M V n m R).get i =
      if i < n then ∑ c in Finset.range n, M.get i c * V.get c else R.get i := by
  have key : ∀ k : Nat,
      (for_loop k (fun r (R : Vector α) =>
        R.set (for_loop n (fun c acc => acc + M.get r c * V.get c) (0 : α)) r) R).size
        = R.size ∧
      ∀ i, (for_loop k (fun r (R : Vector α) =>
        R.set (for_loop n (fun c acc => acc + M.get r c * V.get c) (0 : α)) r) R).get i =
        if i < k then ∑ c in Finset.range n, M.get i c * V.get c else R.get i := by
    intro k
    simp only [for_loop_sum]
    induction k with
    | zero => simp [for_loop_zero]
    | succ k ih =>
      rw [for_loop_succ]
      obtain ⟨h1, h2⟩ := ih
      refine ⟨by simp [h1], ?_⟩
      intro i
      simp only [Vector.vget_set, h2]
      by_cases hi : i = k
      · subst hi; simp
      · have : i < k + 1 ↔ i < k := by omega
        simp [hi, this]
  exact key n

end kernel_lemmas2

theorem toLin_transpose (M : Matrix α) (n m : Nat) (T : Matrix α) :
    (transpose M n m T).toLin m n = (M.toLin n m).transpose := by
  funext i j
  simp [Matrix.toLin, (transpose_spec M n m T).2.2, Matrix.transpose_apply]

section local_system_lemmas

variable [LinearOrderedField α]

theorem toLin_product (A B R : Matrix α) (n m q : Nat) (hn : A.nrows = n) (hm : A.ncols = m)
    (hp : B.nrows = m) (hq : B.ncols = q) :
    ∃ P, product_matrix_by_matrix A B R = some P ∧ P.nrows = n ∧ P.ncols = q ∧
      P.toLin n q = A.toLin n m * B.toLin m q := by
  obtain ⟨P, h1, h2, h3, h4⟩ := product_matrix_by_matrix_spec A B R (by rw [hm, hp])
  refine ⟨P, h1, by rw [h2, hn], by rw [h3, hq], ?_⟩
  funext i j
  have hi : (i : Nat) < A.nrows := by rw [hn]; exact i.isLt
  have hj : (j : Nat) < B.ncols := by rw [hq]; exact j.isLt
  simp only [Matrix.toLin, h4, hi, hj, and_self, if_true, Matrix.mul_apply, hm]
  rw [Finset.sum_range]

theorem toLin_product_scalar (scalar : α) (M : Matrix α) (n m : Nat) (R : Matrix α) :
    (product_scalar_by_matrix scalar M n m R).toLin n m = scalar • M.toLin n m := by
  funext i j
  simp [Matrix.toLin, (product_scalar_by_matrix_spec scalar M n m R).2.2]

theorem calculate_B_dims (B : Matrix α) :
    (calculate_B B).nrows = B.nrows ∧ (calculate_B B).ncols = B.ncols := by
  simp [calculate_B]

theorem calculate_local_A_dims (A : Matrix α) (x1 y1 z1 x2 y2 z2 x3 y3 z3 x4 y4 z4 : α) :
    (calculate_local_A A x1 y1 z1 x2 y2 z2 x3 y3 z3 x4 y4 z4).nrows = A.nrows ∧
    (calculate_local_A A x1 y1 z1 x2 y2 z2 x3 y3 z3 x4 y4 z4).ncols = A.ncols := by
  simp [calculate_local_A]

theorem calculate_B_toLin (B0 : Matrix α) :
    (calculate_B B0).toLin 3 4 = !![-1, 1, 0, 0; -1, 0, 1, 0; -1, 0, 0, 1] := by
  funext i j
  fin_cases i <;> fin_cases j <;> rfl

/-- The scalar prefactor of `create_local_K`, after the two substitutions. -/
theorem create_local_K_eq (K0 : Matrix α) (element_id : Nat) (M : Mesh α) :
    ∃ K, create_local_K K0 element_id M = some K ∧ K.nrows = 4 ∧ K.ncols = 4 ∧
      K.toLin 4 4 =
        (M.get_problem_data parameter.THERMAL_CONDUCTIVITY
          * (if (M.get_element element_id).volume = 0 then epsilon_patch
              else (M.get_element element_id).volume)
          / ((if (M.get_element element_id).jacobian = 0 then epsilon_patch
              else (M.get_element element_id).jacobian)
            * (if (M.get_element element_id).jacobian = 0 then epsilon_patch
              else (M.get_element element_id).jacobian))) •
        (((calculate_B (Matrix.create 3 4 : Matrix α)).toLin 3 4).transpose *
          ((((M.get_element element_id).local_A).toLin 3 3).transpose *
            (((M.get_element element_id).local_A).toLin 3 3 *
              (calculate_B (Matrix.create 3 4 : Matrix α)).toLin 3 4))) := by
  have hB := calculate_B_dims (Matrix.create 3 4 : Matrix α)
  simp only [Matrix.nrows_create, Matrix.ncols_create] at hB
  set A := (M.get_element element_id).local_A with hA
  have hAd : A.nrows = 3 ∧ A.ncols = 3 := by
    have := calculate_local_A_dims (Matrix.create 3 3 : Matrix α)
      (M.get_element element_id).get_node1.get_x_coordinate
      (M.get_element element_id).get_node1.get_y_coordinate
      (M.get_element element_id).get_node1.get_z_coordinate
      (M.get_element element_id).get_node2.get_x_coordinate
      (M.get_element element_id).get_node2.get_y_coordinate
      (M.get_element element_id).get_node2.get_z_coordinate
      (M.get_element element_id).get_node3.get_x_coordinate
      (M.get_element element_id).get_node3.get_y_coordinate
      (M.get_element element_id).get_node3.get_z_coordinate
      (M.get_element element_id).get_node4.get_x_coordinate
      (M.get_element element_id).get_node4.get_y_coordinate
      (M.get_element element_id).get_node4.get_z_coordinate
    simpa [hA, Element.local_A] using this
  set B := calculate_B (Matrix.create 3 4 : Matrix α) with hBdef
  obtain ⟨res1, e1, r1n, r1m, r1⟩ :=
    toLin_product A B (Matrix.create 0 0) 3 3 4 hAd.1 hAd.2 hB.1 hB.2
  have hAt := transpose_spec A 3 3 (Matrix.create 3 3)
  have hBt := transpose_spec B 3 4 (Matrix.create 4 3)
  obtain ⟨res2, e2, r2n, r2m, r2⟩ :=
    toLin_product (transpose A 3 3 (Matrix.create 3 3)) res1 (Matrix.create 0 0) 3 3 4
      (by rw [hAt.1]; rfl) (by rw [hAt.2.1]; rfl) r1n r1m
  obtain ⟨res3, e3, r3n, r3m, r3⟩ :=
    toLin_product (transpose B 3 4 (Matrix.create 4 3)) res2 (Matrix.create 0 0) 4 3 4
      (by rw [hBt.1]; rfl) (by rw [hBt.2.1]; rfl) r2n r2m
  obtain ⟨s, hs⟩ : ∃ s : α, s = M.get_problem_data parameter.THERMAL_CONDUCTIVITY
        * (if (M.get_element element_id).volume = 0 then epsilon_patch
            else (M.get_element element_id).volume)
        / ((if (M.get_element element_id).jacobian = 0 then epsilon_patch
            else (M.get_element element_id).jacobian)
          * (if (M.get_element element_id).jacobian = 0 then epsilon_patch
            else (M.get_element element_id).jacobian)) := ⟨_, rfl⟩
  rw [← hs]
  refine ⟨product_scalar_by_matrix s res3 4 4 (K0.set_size 4 4), ?_, ?_, ?_, ?_⟩
  · rw [hs]
    simp only [create_local_K]
    rw [show calculate_local_A (Matrix.create 3 3) _ _ _ _ _ _ _ _ _ _ _ _ = A from rfl]
    rw [e1]
    simp only [Option.some_bind, Option.bind_eq_bind]
    rw [e2]
    simp only [Option.some_bind, Option.bind_eq_bind]
    rw [e3]
    simp only [Option.some_bind, Option.bind_eq_bind]
    rfl
  · rw [(product_scalar_by_matrix_spec _ _ _ _ _).1]; rfl
  · rw [(product_scalar_by_matrix_spec _ _ _ _ _).2.1]; rfl
  · rw [toLin_product_scalar, r3, r2, r1, toLin_transpose, toLin_transpose]

end local_system_lemmas

section local_system_lemmas2

variable [LinearOrderedField α]

theorem determinant_three (M : Matrix α) (h : M.ncols = 3) :
    determinant M =
      M.get 0 0 * M.get 1 1 * M.get 2 2 - M.get 0 0 * M.get 1 2 * M.get 2 1
        - M.get 0 1 * M.get 1 0 * M.get 2 2 + M.get 0 1 * M.get 1 2 * M.get 2 0
        + M.get 0 2 * M.get 1 0 * M.get 2 1 - M.get 0 2 * M.get 1 1 * M.get 2 0 := by
  rw [determinant]
  split <;> simp_all

theorem calculate_local_jacobian_eq (x1 y1 z1 x2 y2 z2 x3 y3 z3 x4 y4 z4 : α) :
    calculate_local_jacobian x1 y1 z1 x2 y2 z2 x3 y3 z3 x4 y4 z4 =
      (x2 - x1) * (y3 - y1) * (z4 - z1) - (x2 - x1) * (y4 - y1) * (z3 - z1)
        - (x3 - x1) * (y2 - y1) * (z4 - z1) + (x3 - x1) * (y4 - y1) * (z2 - z1)
        + (x4 - x1) * (y2 - y1) * (z3 - z1) - (x4 - x1) * (y3 - y1) * (z2 - z1) := by
  unfold calculate_local_jacobian
  rw [determinant_three _ (by simp)]
  simp

theorem calculate_local_volume_eq (x1 y1 z1 x2 y2 z2 x3 y3 z3 x4 y4 z4 : α) :
    calculate_local_volume x1 y1 z1 x2 y2 z2 x3 y3 z3 x4 y4 z4 =
      (1 / 6) * |(x2 - x1) * (y3 - y1) * (z4 - z1) - (x2 - x1) * (z3 - z1) * (y4 - y1)
        - (y2 - y1) * (x3 - x1) * (z4 - z1) + (y2 - y1) * (z3 - z1) * (x4 - x1)
        + (z2 - z1) * (x3 - x1) * (y4 - y1) - (z2 - z1) * (y3 - y1) * (x4 - x1)| := by
  simp only [calculate_local_volume]
  rw [determinant_three _ (by simp)]
  simp

end local_system_lemmas2

section claims_local

variable [LinearOrderedField α]

/-- C9: for every element whose Jacobian determinant and volume are nonzero,
`create_local_K` returns the 4×4 matrix `(k·V / J²) · Bᵗ · (Aᵗ · (A · B))`, with `k` the
thermal conductivity, `V` the value of `calculate_local_volume`, `J` the value of
`calculate_local_jacobian`, `B` the constant 3×4 matrix written by `calculate_B` and `A`
the 3×3 matrix written by `calculate_local_A`. -/
theorem C9_create_local_K_formula (K0 : Matrix α) (element_id : Nat) (M : Mesh α)
    (hJ : (M.get_element element_id).jacobian ≠ 0)
    (hV : (M.get_element element_id).volume ≠ 0) :
    (calculate_B (Matrix.create 3 4 : Matrix α)).toLin 3 4
        = !![-1, 1, 0, 0; -1, 0, 1, 0; -1, 0, 0, 1] ∧
    ∃ K, create_local_K K0 element_id M = some K ∧ K.nrows = 4 ∧ K.ncols = 4 ∧
      K.toLin 4 4 =
        (M.get_problem_data parameter.THERMAL_CONDUCTIVITY * (M.get_element element_id).volume
          / (M.get_element element_id).jacobian ^ 2) •
        ((!![-1, 1, 0, 0; -1, 0, 1, 0; -1, 0, 0, 1] : LinMatrix (Fin 3) (Fin 4) α).transpose *
          ((((M.get_element element_id).local_A).toLin 3 3).transpose *
            (((M.get_element element_id).local_A).toLin 3 3 *
              (!![-1, 1, 0, 0; -1, 0, 1, 0; -1, 0, 0, 1] : LinMatrix (Fin 3) (Fin 4) α)))) := by
  refine ⟨calculate_B_toLin _, ?_⟩
  obtain ⟨K, h1, h2, h3, h4⟩ := create_local_K_eq K0 element_id M
  refine ⟨K, h1, h2, h3, ?_⟩
  rw [h4, if_neg hJ, if_neg hV, calculate_B_toLin, sq]

/-- C10: the 4×4 matrix returned by `create_local_K` is symmetric, for every element
(any node coordinates, any `k`). -/
theorem C10_create_local_K_symmetric (K0 : Matrix α) (element_id : Nat) (M : Mesh α) :
    ∃ K, create_local_K K0 element_id M = some K ∧
      ∀ a b : Fin 4, K.get a b = K.get b a := by
  obtain ⟨K, h1, _, _, h4⟩ := create_local_K_eq K0 element_id M
  refine ⟨K, h1, ?_⟩
  intro a b
  have hs : (K.toLin 4 4).transpose = K.toLin 4 4 := by
    rw [h4]
    simp only [Matrix.transpose_smul, Matrix.transpose_mul, Matrix.transpose_transpose,
      Matrix.mul_assoc]
  have := congrFun (congrFun hs a) b
  simpa [Matrix.toLin, Matrix.transpose_apply] using this.symm

end claims_local

/-- The local stiffness formula on the element of `unit_mesh` (Jacobian 1, volume 1/6). -/
theorem C9_create_local_K_formula_witness :
    (unit_mesh.get_element 0).jacobian ≠ 0 ∧ (unit_mesh.get_element 0).volume ≠ 0 ∧
    ∃ K, create_local_K (Matrix.create 0 0) 0 unit_mesh = some K ∧ K.nrows = 4 ∧ K.ncols = 4 ∧
      K.toLin 4 4 =
        (unit_mesh.get_problem_data parameter.THERMAL_CONDUCTIVITY
          * (unit_mesh.get_element 0).volume / (unit_mesh.get_element 0).jacobian ^ 2) •
        ((!![-1, 1, 0, 0; -1, 0, 1, 0; -1, 0, 0, 1] : LinMatrix (Fin 3) (Fin 4) ℚ).transpose *
          ((((unit_mesh.get_element 0).local_A).toLin 3 3).transpose *
            (((unit_mesh.get_element 0).local_A).toLin 3 3 *
              (!![-1, 1, 0, 0; -1, 0, 1, 0; -1, 0, 0, 1] : LinMatrix (Fin 3) (Fin 4) ℚ)))) := by
  have hJ : (unit_mesh.get_element 0).jacobian ≠ 0 := by
    simp [Element.jacobian, calculate_local_jacobian_eq, unit_mesh, Mesh.get_element,
      Element.get_node1, Element.get_node2, Element.get_node3, Element.get_node4,
      Node.get_x_coordinate, Node.get_y_coordinate, Node.get_z_coordinate]
  have hV : (unit_mesh.get_element 0).volume ≠ 0 := by
    simp [Element.volume, calculate_local_volume_eq, unit_mesh, Mesh.get_element,
      Element.get_node1, Element.get_node2, Element.get_node3, Element.get_node4,
      Node.get_x_coordinate, Node.get_y_coordinate, Node.get_z_coordinate]
  exact ⟨hJ, hV, (C9_create_local_K_formula (Matrix.create 0 0) 0 unit_mesh hJ hV).2⟩

/-! ## Merge of the reduced solution with the Dirichlet values -/

theorem free_positions_succ (M : Mesh α) (k : Nat) :
    M.free_positions (k + 1) =
      if M.does_node_have_dirichlet_condition ((k : Int) + 1) then M.free_positions k
      else M.free_positions k ++ [k] := by
  simp only [Mesh.free_positions, List.range_succ, List.filter_append, List.filter_cons,
    List.filter_nil]
  cases M.does_node_have_dirichlet_condition ((k : Int) + 1) <;> simp

theorem dirichlet_positions_succ (M : Mesh α) (k : Nat) :
    M.dirichlet_positions (k + 1) =
      if M.does_node_have_dirichlet_condition ((k : Int) + 1) then M.dirichlet_positions k ++ [k]
      else M.dirichlet_positions k := by
  simp only [Mesh.dirichlet_positions, List.range_succ, List.filter_append, List.filter_cons,
    List.filter_nil]
  cases M.does_node_have_dirichlet_condition ((k : Int) + 1) <;> simp

theorem mem_free_positions (M : Mesh α) (n i : Nat) :
    i ∈ M.free_positions n ↔
      i < n ∧ M.does_node_have_dirichlet_condition ((i : Int) + 1) = false := by
  simp [Mesh.free_positions]

theorem mem_dirichlet_positions (M : Mesh α) (n i : Nat) :
    i ∈ M.dirichlet_positions n ↔
      i < n ∧ M.does_node_have_dirichlet_condition ((i : Int) + 1) = true := by
  simp [Mesh.dirichlet_positions]

/-- State of the merge loop after `k` iterations. -/
theorem merge_loop_spec (T Tf : Vector α) (M : Mesh α) (k : Nat) :
    (merge_loop T Tf k M).1.size = Tf.size ∧
    (merge_loop T Tf k M).2.1 = (M.dirichlet_positions k).length ∧
    (merge_loop T Tf k M).2.2 = (M.free_positions k).length ∧
    (∀ i, k ≤ i → (merge_loop T Tf k M).1.get i = Tf.get i) ∧
    (∀ j i, (M.free_positions k)[j]? = some i → (merge_loop T Tf k M).1.get i = T.get j) ∧
    (∀ j i, (M.dirichlet_positions k)[j]? = some i →
      (merge_loop T Tf k M).1.get i = (M.get_dirichlet_condition j).get_value) := by
  induction k with
  | zero =>
    simp [merge_loop, for_loop_zero, Mesh.free_positions, Mesh.dirichlet_positions]
  | succ k ih =>
    obtain ⟨h1, h2, h3, h4, h5, h6⟩ := ih
    have hstep : merge_loop T Tf (k + 1) M =
        if M.does_node_have_dirichlet_condition ((k : Int) + 1) then
          ((merge_loop T Tf k M).1.set
              (M.get_dirichlet_condition (merge_loop T Tf k M).2.1).get_value k,
            (merge_loop T Tf k M).2.1 + 1, (merge_loop T Tf k M).2.2)
        else
          ((merge_loop T Tf k M).1.set (T.get (merge_loop T Tf k M).2.2) k,
            (merge_loop T Tf k M).2.1, (merge_loop T Tf k M).2.2 + 1) := by
      simp only [merge_loop, for_loop_succ]
    have hfree_lt : ∀ j i, (M.free_positions k)[j]? = some i → i < k := fun j i h =>
      ((mem_free_positions M k _).1 (List.getElem?_mem h)).1
    have hdir_lt : ∀ j i, (M.dirichlet_positions k)[j]? = some i → i < k := fun j i h =>
      ((mem_dirichlet_positions M k _).1 (List.getElem?_mem h)).1
    by_cases hD : M.does_node_have_dirichlet_condition ((k : Int) + 1) = true
    · have e1 : M.free_positions (k + 1) = M.free_positions k := by
        rw [free_positions_succ, if_pos hD]
      have e2 : M.dirichlet_positions (k + 1) = M.dirichlet_positions k ++ [k] := by
        rw [dirichlet_positions_succ, if_pos hD]
      rw [hstep, if_pos hD, e1, e2]
      refine ⟨by simp [h1], by simp [h2], h3, ?_, ?_, ?_⟩
      · intro i hi
        rw [Vector.vget_set, if_neg (by omega), h4 i (by omega)]
      · intro j i h
        rw [Vector.vget_set, if_neg (by have := hfree_lt j i h; omega), h5 j i h]
      · intro j i h
        rw [List.getElem?_append] at h
        by_cases hj : j < (M.dirichlet_positions k).length
        · rw [if_pos hj] at h
          rw [Vector.vget_set, if_neg (by have := hdir_lt j i h; omega), h6 j i h]
        · rw [if_neg hj] at h
          have hmem := List.getElem?_mem h
          have hik : i = k := by simpa using hmem
          have hj0 : j - (M.dirichlet_positions k).length = 0 := by
            by_contra hne
            have : ([k] : List Nat)[j - (M.dirichlet_positions k).length]? = none := by
              apply List.getElem?_eq_none
              simp; omega
            rw [this] at h
            exact Option.noConfusion h
          have hj2 : j = (M.dirichlet_positions k).length := by omega
          rw [hik, Vector.vget_set, if_pos rfl, h2, hj2]
    · have hD' : M.does_node_have_dirichlet_condition ((k : Int) + 1) = false := by
        simpa using hD
      have e1 : M.free_positions (k + 1) = M.free_positions k ++ [k] := by
        rw [free_positions_succ, if_neg hD]
      have e2 : M.dirichlet_positions (k + 1) = M.dirichlet_positions k := by
        rw [dirichlet_positions_succ, if_neg hD]
      rw [hstep, if_neg hD, e1, e2]
      refine ⟨by simp [h1], h2, by simp [h3], ?_, ?_, ?_⟩
      · intro i hi
        rw [Vector.vget_set, if_neg (by omega), h4 i (by omega)]
      · intro j i h
        rw [List.getElem?_append] at h
        by_cases hj : j < (M.free_positions k).length
        · rw [if_pos hj] at h
          rw [Vector.vget_set, if_neg (by have := hfree_lt j i h; omega), h5 j i h]
        · rw [if_neg hj] at h
          have hmem := List.getElem?_mem h
          have hik : i = k := by simpa using hmem
          have hj0 : j - (M.free_positions k).length = 0 := by
            by_contra hne
            have : ([k] : List Nat)[j - (M.free_positions k).length]? = none := by
              apply List.getElem?_eq_none
              simp; omega
            rw [this] at h
            exact Option.noConfusion h
          have hj2 : j = (M.free_positions k).length := by omega
          rw [hik, Vector.vget_set, if_pos rfl, h3, hj2]
      · intro j i h
        rw [Vector.vget_set, if_neg (by have := hdir_lt j i h; omega), h6 j i h]

/-- C4: `merge_results_with_dirichlet` writes at the position of the `j`-th node (in
increasing identifier order, `j` counted from 0) that has no Dirichlet condition exactly
`X[j]`; the entries of `X` are consumed in order, each once: the counter `cont_T` ends at
the number of such nodes. -/
theorem C4_merge_free_positions (X Tf : Vector α) (n : Nat) (M : Mesh α) :
    (merge_loop X Tf n M).2.2 = (M.free_positions n).length ∧
    ∀ j : Fin (M.free_positions n).length,
      (merge_results_with_dirichlet X Tf n M).get ((M.free_positions n).get j) = X.get j := by
  obtain ⟨_, _, h3, _, h5, _⟩ := merge_loop_spec X Tf M n
  refine ⟨h3, fun j => h5 j.val _ ?_⟩
  rw [List.getElem?_eq_getElem j.isLt]
  rfl

/-! ## Dirichlet lists with strictly increasing identifiers -/

theorem has_dirichlet_iff (M : Mesh α) (id : Int) :
    M.does_node_have_dirichlet_condition id = true ↔
      ∃ c, c < M.get_quantity quantity.NUM_DIRICHLET ∧ M.dirichlet_id c = id := by
  simp [Mesh.does_node_have_dirichlet_condition, Mesh.dirichlet_id, Mesh.get_quantity,
    Mesh.get_dirichlet_condition, List.any_eq_true]

theorem dirichlet_id_strictMono (M : Mesh α)
    (hinc : ∀ c, c + 1 < M.get_quantity quantity.NUM_DIRICHLET →
      M.dirichlet_id c < M.dirichlet_id (c + 1))
    (a b : Nat) (hab : a < b) (hb : b < M.get_quantity quantity.NUM_DIRICHLET) :
    M.dirichlet_id a < M.dirichlet_id b := by
  induction b with
  | zero => omega
  | succ b ih =>
    by_cases h : a = b
    · subst h; exact hinc a hb
    · exact lt_trans (ih (by omega) (by omega)) (hinc b hb)

/-- With strictly increasing identifiers in `1 .. n` the Dirichlet positions, in increasing
order, are those of the conditions in list order. -/
theorem dirichlet_positions_eq_map (M : Mesh α) (n : Nat)
    (hinc : ∀ c, c + 1 < M.get_quantity quantity.NUM_DIRICHLET →
      M.dirichlet_id c < M.dirichlet_id (c + 1))
    (hrange : ∀ c, c < M.get_quantity quantity.NUM_DIRICHLET →
      1 ≤ M.dirichlet_id c ∧ M.dirichlet_id c ≤ (n : Int)) :
    M.dirichlet_positions n =
      (List.range (M.get_quantity quantity.NUM_DIRICHLET)).map
        (fun c => (M.dirichlet_id c - 1).toNat) := by
  apply List.eq_of_perm_of_sorted (r := (· < ·))
  · rw [List.perm_ext_iff_of_nodup]
    · intro i
      rw [mem_dirichlet_positions, has_dirichlet_iff, List.mem_map]
      constructor
      · rintro ⟨_, c, hc, hid⟩
        exact ⟨c, List.mem_range.2 hc, by rw [hid]; simp⟩
      · rintro ⟨c, hc, hid⟩
        have hc' := List.mem_range.1 hc
        have := hrange c hc'
        refine ⟨by omega, c, hc', by omega⟩
    · exact (List.nodup_range n).filter _
    · apply List.Nodup.map_on _ (List.nodup_range _)
      intro a ha b hb hab
      have ha' := List.mem_range.1 ha
      have hb' := List.mem_range.1 hb
      have h1 := hrange a ha'
      have h2 := hrange b hb'
      have heq : M.dirichlet_id a = M.dirichlet_id b := by omega
      by_contra hne
      rcases Nat.lt_or_gt_of_ne hne with h | h
      · have := dirichlet_id_strictMono M hinc a b h hb'; omega
      · have := dirichlet_id_strictMono M hinc b a h ha'; omega
  · exact (List.pairwise_lt_range n).filter _
  · rw [List.Sorted, List.pairwise_map]
    apply (List.pairwise_lt_range _).imp_of_mem
    intro a b ha hb hab
    have hb' := List.mem_range.1 hb
    have ha' := List.mem_range.1 ha
    have := dirichlet_id_strictMono M hinc a b hab hb'
    have h1 := hrange a ha'
    have h2 := hrange b hb'
    omega

/-- C3: for every mesh whose Dirichlet list has strictly increasing node identifiers in
`1 .. n`, `merge_results_with_dirichlet` writes at position `id - 1` of the full result
the prescribed value of the condition attached to node `id`, for every Dirichlet node. -/
theorem C3_merge_dirichlet_positions (X Tf : Vector α) (n : Nat) (M : Mesh α)
    (hinc : ∀ c, c + 1 < M.get_quantity quantity.NUM_DIRICHLET →
      M.dirichlet_id c < M.dirichlet_id (c + 1))
    (hrange : ∀ c, c < M.get_quantity quantity.NUM_DIRICHLET →
      1 ≤ M.dirichlet_id c ∧ M.dirichlet_id c ≤ (n : Int)) :
    ∀ c : Fin (M.get_quantity quantity.NUM_DIRICHLET),
      (merge_results_with_dirichlet X Tf n M).get (M.dirichlet_id c - 1).toNat =
        (M.get_dirichlet_condition c).get_value := by
  intro c
  obtain ⟨_, _, _, _, _, h6⟩ := merge_loop_spec X Tf M n
  apply h6 c.val
  rw [dirichlet_positions_eq_map M n hinc hrange]
  simp [c.isLt]

/-- The Dirichlet identifiers of `example_mesh` (2, 4) are strictly increasing. -/
theorem example_mesh_increasing :
    ∀ c, c + 1 < example_mesh.get_quantity quantity.NUM_DIRICHLET →
      example_mesh.dirichlet_id c < example_mesh.dirichlet_id (c + 1) := by
  intro c hc
  have h0 : c = 0 := by
    simp only [Mesh.get_quantity, example_mesh] at hc
    omega
  subst h0
  decide

/-- The Dirichlet identifiers of `example_mesh` lie in `1 .. 4`. -/
theorem example_mesh_in_range :
    ∀ c, c < example_mesh.get_quantity quantity.NUM_DIRICHLET →
      1 ≤ example_mesh.dirichlet_id c ∧ example_mesh.dirichlet_id c ≤ ((4 : Nat) : Int) := by
  intro c hc
  have h0 : c = 0 ∨ c = 1 := by
    simp only [Mesh.get_quantity, example_mesh] at hc
    omega
  rcases h0 with h0 | h0 <;> subst h0 <;> decide

/-- On `example_mesh` the merged vector holds 5 at position 1 and 7 at position 3. -/
theorem C3_merge_dirichlet_positions_witness :
    (merge_results_with_dirichlet example_X (Vector.create 4) 4 example_mesh).get 1 = 5 ∧
    (merge_results_with_dirichlet example_X (Vector.create 4) 4 example_mesh).get 3 = 7 := by
  have h0 := C3_merge_dirichlet_positions example_X (Vector.create 4) 4 example_mesh
    example_mesh_increasing example_mesh_in_range ⟨0, by decide⟩
  have h1 := C3_merge_dirichlet_positions example_X (Vector.create 4) 4 example_mesh
    example_mesh_increasing example_mesh_in_range ⟨1, by decide⟩
  have e0 : (example_mesh.dirichlet_id 0 - 1).toNat = 1 := by decide
  have e1 : (example_mesh.dirichlet_id 1 - 1).toNat = 3 := by decide
  have v0 : (example_mesh.get_dirichlet_condition 0).get_value = 5 := rfl
  have v1 : (example_mesh.get_dirichlet_condition 1).get_value = 7 := rfl
  simp only [e0, v0] at h0
  simp only [e1, v1] at h1
  exact ⟨h0, h1⟩

/-! ## Rows that survive the condensation -/

theorem survivor_of_strictMono (p : Nat → Nat) (c : Nat) : StrictMono (survivor_of p c) := by
  induction c with
  | zero => intro a b h; exact h
  | succ c ih =>
    intro a b h
    simp only [survivor_of]
    apply ih
    split_ifs <;> omega

theorem survivor_of_eq_add (p : Nat → Nat) (c r : Nat) (h : ∀ k, k < c → p k < r + c) :
    survivor_of p c r = r + c := by
  induction c generalizing r with
  | zero => rfl
  | succ c ih =>
    simp only [survivor_of]
    have hc := h c (Nat.lt_succ_self c)
    rw [if_neg (by omega), ih (r + 1) (fun k hk => by have := h k (by omega); omega)]
    omega

/-- Strictly increasing original positions on the first `d` conditions. -/
theorem survivor_of_at_index (p : Nat → Nat) (d : Nat)
    (hp : ∀ a b, a < b → b < d → p a < p b) (c : Nat) (hc : c < d) :
    c ≤ p c ∧ survivor_of p c (p c - c) = p c := by
  have hge : ∀ k, k < d → k ≤ p k := by
    intro k
    induction k with
    | zero => intro _; omega
    | succ k ih => intro hk; have := ih (by omega); have := hp k (k + 1) (by omega) hk; omega
  have h1 := hge c hc
  refine ⟨h1, ?_⟩
  rw [survivor_of_eq_add p c (p c - c) (fun k hk => by have := hp k c hk hc; omega)]
  omega

theorem survivor_of_ne (p : Nat → Nat) (d : Nat)
    (hp : ∀ a b, a < b → b < d → p a < p b) (c : Nat) (hc : c ≤ d) (r k : Nat) (hk : k < c) :
    survivor_of p c r ≠ p k := by
  induction c generalizing r with
  | zero => omega
  | succ c ih =>
    simp only [survivor_of]
    by_cases hkc : k = c
    · subst hkc
      obtain ⟨_, h2⟩ := survivor_of_at_index p d hp k (by omega)
      intro heq
      rw [← h2] at heq
      have := (survivor_of_strictMono p k).injective heq
      split_ifs at this <;> omega
    · exact ih (by omega) _ (by omega)

theorem survivor_of_surj (p : Nat → Nat) (d : Nat)
    (hp : ∀ a b, a < b → b < d → p a < p b) (c : Nat) (hc : c ≤ d) (i : Nat)
    (hi : ∀ k, k < c → p k ≠ i) : ∃ r, survivor_of p c r = i := by
  induction c with
  | zero => exact ⟨i, rfl⟩
  | succ c ih =>
    obtain ⟨r', hr'⟩ := ih (by omega) (fun k hk => hi k (by omega))
    obtain ⟨_, h2⟩ := survivor_of_at_index p d hp c (by omega)
    have hne : r' ≠ p c - c := by
      intro h
      rw [h, h2] at hr'
      exact hi c (by omega) hr'
    by_cases hlt : r' < p c - c
    · exact ⟨r', by simp only [survivor_of]; rw [if_pos hlt]; exact hr'⟩
    · refine ⟨r' - 1, ?_⟩
      simp only [survivor_of]
      rw [if_neg (by omega)]
      have : r' - 1 + 1 = r' := by omega
      rw [this]; exact hr'

/-- The rows left after `d` removals, in order, are the original indices below `n` that
are not removed. -/
theorem survivor_of_list (p : Nat → Nat) (d n : Nat)
    (hp : ∀ a b, a < b → b < d → p a < p b) (hn : ∀ k, k < d → p k < n) :
    (List.range (n - d)).map (survivor_of p d) =
      (List.range n).filter (fun i => decide (∀ k, k < d → p k ≠ i)) := by
  have hdn : d ≤ n := by
    rcases Nat.eq_zero_or_pos d with h | h
    · omega
    · obtain ⟨h1, _⟩ := survivor_of_at_index p d hp (d - 1) (by omega)
      have := hn (d - 1) (by omega)
      omega
  have htop : survivor_of p d (n - d) = n := by
    rw [survivor_of_eq_add p d (n - d) (fun k hk => by have := hn k hk; omega)]
    omega
  apply List.eq_of_perm_of_sorted (r := (· < ·))
  · rw [List.perm_ext_iff_of_nodup]
    · intro i
      simp only [List.mem_map, List.mem_range, List.mem_filter, decide_eq_true_eq]
      constructor
      · rintro ⟨r, hr, rfl⟩
        refine ⟨?_, fun k hk h => survivor_of_ne p d hp d (le_refl d) r k hk h.symm⟩
        rw [← htop]
        exact survivor_of_strictMono p d hr
      · rintro ⟨hi, hne⟩
        obtain ⟨r, hr⟩ := survivor_of_surj p d hp d (le_refl d) i hne
        refine ⟨r, ?_, hr⟩
        by_contra hge
        have := (survivor_of_strictMono p d).monotone (not_lt.1 hge)
        omega
    · exact (List.nodup_range _).map (survivor_of_strictMono p d).injective
    · exact (List.nodup_range n).filter _
  · rw [List.Sorted, List.pairwise_map]
    exact (List.pairwise_lt_range _).imp (fun h => survivor_of_strictMono p d h)
  · exact (List.pairwise_lt_range n).filter _

section dirichlet_lemmas

variable [LinearOrderedField α]

theorem add_column_to_RHS_spec (K : Matrix α) (b : Vector α) (col : Nat) (T_bar : α)
    (hcol : col < K.ncols) :
    ∃ b', add_column_to_RHS K b (col : Int) T_bar = some b' ∧ b'.size = b.size ∧
      ∀ r, b'.get r = if r < K.nrows then b.get r + -T_bar * K.get r col else b.get r := by
  have key : ∀ k : Nat,
      (for_loop k (fun r (b : Vector α) => b.add (-T_bar * K.get r col) r) b).size = b.size ∧
      ∀ r, (for_loop k (fun r (b : Vector α) => b.add (-T_bar * K.get r col) r) b).get r =
        if r < k then b.get r + -T_bar * K.get r col else b.get r := by
    intro k
    induction k with
    | zero => simp [for_loop_zero]
    | succ k ih =>
      rw [for_loop_succ]
      obtain ⟨h1, h2⟩ := ih
      refine ⟨by rw [Vector.size_add, h1], ?_⟩
      intro r
      simp only [Vector.vget_add, h2]
      by_cases hr : r = k
      · subst hr; simp only [lt_irrefl, if_false, if_true, Nat.lt_succ_self]
      · have : r < k + 1 ↔ r < k := by omega
        simp only [hr, this, if_false]
  refine ⟨_, ?_, (key K.nrows).1, (key K.nrows).2⟩
  simp [add_column_to_RHS, checked_index_natCast hcol]

/-- State of the condensation loop after `c` conditions. -/
theorem apply_dirichlet_steps (K : Matrix α) (b : Vector α) (M : Mesh α) (n : Nat)
    (hKr : K.nrows = n) (hKc : K.ncols = n) (hb : b.size = n)
    (hinc : ∀ c, c + 1 < M.get_quantity quantity.NUM_DIRICHLET →
      M.dirichlet_id c < M.dirichlet_id (c + 1))
    (hrange : ∀ c, c < M.get_quantity quantity.NUM_DIRICHLET →
      1 ≤ M.dirichlet_id c ∧ M.dirichlet_id c ≤ (n : Int))
    (c : Nat) (hc : c ≤ M.get_quantity quantity.NUM_DIRICHLET) :
    ∃ Kc bc, for_loop_opt c (dirichlet_step M) (K, b, 0) = some (Kc, bc, (c : Int)) ∧
      Kc.nrows = n - c ∧ Kc.ncols = n - c ∧ bc.size = n - c ∧
      (∀ r s, Kc.get r s = K.get (M.survivor c r) (M.survivor c s)) ∧
      (∀ r, r < n - c → bc.get r = b.get (M.survivor c r) +
        ∑ k in Finset.range c, -(M.get_dirichlet_condition k).get_value *
          K.get (M.survivor c r) (M.dirichlet_position k)) := by
  have hp : ∀ a b', a < b' → b' < M.get_quantity quantity.NUM_DIRICHLET →
      M.dirichlet_position a < M.dirichlet_position b' := by
    intro a b' hab hb'
    have := dirichlet_id_strictMono M hinc a b' hab hb'
    have h1 := hrange a (by omega)
    have h2 := hrange b' hb'
    simp only [Mesh.dirichlet_position]
    omega
  induction c with
  | zero =>
    refine ⟨K, b, rfl, by simpa using hKr, by simpa using hKc, by simpa using hb, ?_, ?_⟩
    · intro r s; rfl
    · intro r _; simp [Mesh.survivor, survivor_of]
  | succ c ih =>
    obtain ⟨Kc, bc, hloop, h1, h2, h3, h4, h5⟩ := ih (by omega)
    have hcd : c < M.get_quantity quantity.NUM_DIRICHLET := by omega
    obtain ⟨hge, hat⟩ := survivor_of_at_index M.dirichlet_position _ hp c hcd
    have hr := hrange c hcd
    have hpc : M.dirichlet_position c = (M.dirichlet_id c - 1).toNat := rfl
    have hidx : (M.get_dirichlet_condition c).get_node.get_ID - 1 - (c : Int) =
        ((M.dirichlet_position c - c : Nat) : Int) := by
      have : M.dirichlet_id c = (M.get_dirichlet_condition c).get_node.get_ID := rfl
      omega
    have hlt : M.dirichlet_position c - c < n - c := by omega
    obtain ⟨b2, hb2, hb2s, hb2g⟩ := add_column_to_RHS_spec
      (Kc.remove_row (M.dirichlet_position c - c)) (bc.remove_row (M.dirichlet_position c - c))
      (M.dirichlet_position c - c) (M.get_dirichlet_condition c).get_value
      (by simp [h2]; omega)
    refine ⟨(Kc.remove_row (M.dirichlet_position c - c)).remove_column
      (M.dirichlet_position c - c), b2, ?_, ?_, ?_, ?_, ?_, ?_⟩
    · rw [for_loop_opt_succ, hloop]
      simp only [Option.some_bind, dirichlet_step, hidx, Matrix.remove_row_at,
        Vector.remove_row_at, Matrix.remove_column_at]
      rw [checked_index_natCast (by omega), checked_index_natCast (by omega)]
      simp only [Option.map_some', Option.some_bind, hb2]
      rw [checked_index_natCast (by simp [h2]; omega)]
      simp
    · simp [h1]; omega
    · simp [h2]; omega
    · rw [hb2s]; simp [h3]; omega
    · intro r s
      simp only [Matrix.get_remove_column, Matrix.get_remove_row, Mesh.survivor, survivor_of]
      by_cases hr1 : r < M.dirichlet_position c - c <;>
        by_cases hs1 : s < M.dirichlet_position c - c <;>
        simp [hr1, hs1, h4, Mesh.survivor]
    · intro r hr1
      rw [hb2g, if_pos (by simp [h1]; omega), Finset.sum_range_succ]
      have hsurv : M.survivor (c + 1) r =
          M.survivor c (if r < M.dirichlet_position c - c then r else r + 1) := rfl
      have hK1 : (Kc.remove_row (M.dirichlet_position c - c)).get r
            (M.dirichlet_position c - c) =
          K.get (M.survivor (c + 1) r) (M.dirichlet_position c) := by
        rw [Matrix.get_remove_row, hsurv]
        have hat' : M.survivor c (M.dirichlet_position c - c) = M.dirichlet_position c := hat
        by_cases hr2 : r < M.dirichlet_position c - c
        · simp only [hr2, if_true]; rw [h4, hat']
        · simp only [hr2, if_false]; rw [h4, hat']
      have hb1 : (bc.remove_row (M.dirichlet_position c - c)).get r =
          b.get (M.survivor (c + 1) r) +
            ∑ k in Finset.range c, -(M.get_dirichlet_condition k).get_value *
              K.get (M.survivor (c + 1) r) (M.dirichlet_position k) := by
        rw [Vector.vget_remove_row, hsurv]
        by_cases hr2 : r < M.dirichlet_position c - c
        · simp only [hr2, if_true]; exact h5 r (by omega)
        · simp only [hr2, if_false]; exact h5 (r + 1) (by omega)
      rw [hK1, hb1, add_assoc]

end dirichlet_lemmas

theorem free_positions_eq_map (M : Mesh α) (n : Nat)
    (hinc : ∀ c, c + 1 < M.get_quantity quantity.NUM_DIRICHLET →
      M.dirichlet_id c < M.dirichlet_id (c + 1))
    (hrange : ∀ c, c < M.get_quantity quantity.NUM_DIRICHLET →
      1 ≤ M.dirichlet_id c ∧ M.dirichlet_id c ≤ (n : Int)) :
    M.free_positions n =
      (List.range (n - M.get_quantity quantity.NUM_DIRICHLET)).map
        (M.survivor (M.get_quantity quantity.NUM_DIRICHLET)) := by
  have hp : ∀ a b', a < b' → b' < M.get_quantity quantity.NUM_DIRICHLET →
      M.dirichlet_position a < M.dirichlet_position b' := by
    intro a b' hab hb'
    have := dirichlet_id_strictMono M hinc a b' hab hb'
    have h1 := hrange a (by omega)
    have h2 := hrange b' hb'
    simp only [Mesh.dirichlet_position]
    omega
  have hn : ∀ k, k < M.get_quantity quantity.NUM_DIRICHLET → M.dirichlet_position k < n := by
    intro k hk
    have := hrange k hk
    simp only [Mesh.dirichlet_position]
    omega
  have := survivor_of_list M.dirichlet_position (M.get_quantity quantity.NUM_DIRICHLET) n hp hn
  rw [show (List.range (n - M.get_quantity quantity.NUM_DIRICHLET)).map
        (M.survivor (M.get_quantity quantity.NUM_DIRICHLET)) = _ from this]
  simp only [Mesh.free_positions]
  apply List.filter_congr
  intro i _
  have hiff := has_dirichlet_iff M ((i : Int) + 1)
  by_cases hD : M.does_node_have_dirichlet_condition ((i : Int) + 1) = true
  · obtain ⟨c, hc, hid⟩ := hiff.1 hD
    have hne : ¬ ∀ k, k < M.get_quantity quantity.NUM_DIRICHLET → M.dirichlet_position k ≠ i := by
      intro h
      apply h c hc
      simp only [Mesh.dirichlet_position, hid]
      omega
    simp [hD, hne]
  · have hall : ∀ k, k < M.get_quantity quantity.NUM_DIRICHLET → M.dirichlet_position k ≠ i := by
      intro k hk heq
      apply hD
      apply hiff.2
      refine ⟨k, hk, ?_⟩
      have := hrange k hk
      simp only [Mesh.dirichlet_position] at heq
      omega
    have hD' : M.does_node_have_dirichlet_condition ((i : Int) + 1) = false := by
      simpa using hD
    simp only [hD', Bool.not_false]
    exact (decide_eq_true hall).symm

theorem free_positions_get (M : Mesh α) (n : Nat)
    (hinc : ∀ c, c + 1 < M.get_quantity quantity.NUM_DIRICHLET →
      M.dirichlet_id c < M.dirichlet_id (c + 1))
    (hrange : ∀ c, c < M.get_quantity quantity.NUM_DIRICHLET →
      1 ≤ M.dirichlet_id c ∧ M.dirichlet_id c ≤ (n : Int)) :
    (M.free_positions n).length = n - M.get_quantity quantity.NUM_DIRICHLET ∧
    ∀ r : Fin (M.free_positions n).length,
      (M.free_positions n).get r = M.survivor (M.get_quantity quantity.NUM_DIRICHLET) r := by
  have h := free_positions_eq_map M n hinc hrange
  have hlen : (M.free_positions n).length = n - M.get_quantity quantity.NUM_DIRICHLET := by
    rw [h]; simp
  refine ⟨hlen, ?_⟩
  have h2 : ∀ j, j < n - M.get_quantity quantity.NUM_DIRICHLET →
      (M.free_positions n)[j]? = some (M.survivor (M.get_quantity quantity.NUM_DIRICHLET) j) := by
    intro j hj
    rw [h]
    simp [hj]
  intro r
  have h3 := h2 r (by have := r.isLt; omega)
  rw [List.getElem?_eq_getElem r.isLt] at h3
  exact Option.some.inj h3

section dirichlet_claims

variable [LinearOrderedField α]

/-- C1: for every n×n matrix `K`, length-n vector `b` and Dirichlet list whose node
identifiers are strictly increasing and lie in `1 .. n`,
`apply_dirichlet_boundary_conditions` leaves `K` equal to the submatrix of the original `K`
on the non-Dirichlet rows and columns (in their original relative order) and leaves `b`
with, for every surviving original row `r`, the entry
`b[r] − Σ_c value_c · K[r, id_c − 1]`, the sum running over all Dirichlet conditions. -/
theorem C1_dirichlet_condensation (K : Matrix α) (b : Vector α) (M : Mesh α) (n : Nat)
    (hKr : K.nrows = n) (hKc : K.ncols = n) (hb : b.size = n)
    (hinc : ∀ c, c + 1 < M.get_quantity quantity.NUM_DIRICHLET →
      M.dirichlet_id c < M.dirichlet_id (c + 1))
    (hrange : ∀ c, c < M.get_quantity quantity.NUM_DIRICHLET →
      1 ≤ M.dirichlet_id c ∧ M.dirichlet_id c ≤ (n : Int)) :
    ∃ K' b', apply_dirichlet_boundary_conditions K b M = some (K', b') ∧
      K'.nrows = (M.free_positions n).length ∧ K'.ncols = (M.free_positions n).length ∧
      b'.size = (M.free_positions n).length ∧
      (∀ r s : Fin (M.free_positions n).length,
        K'.get r s = K.get ((M.free_positions n).get r) ((M.free_positions n).get s)) ∧
      (∀ r : Fin (M.free_positions n).length,
        b'.get r = b.get ((M.free_positions n).get r) -
          ∑ c in Finset.range (M.get_quantity quantity.NUM_DIRICHLET),
            (M.get_dirichlet_condition c).get_value *
              K.get ((M.free_positions n).get r) (M.dirichlet_id c - 1).toNat) := by
  obtain ⟨Kc, bc, hloop, h1, h2, h3, h4, h5⟩ :=
    apply_dirichlet_steps K b M n hKr hKc hb hinc hrange _ (le_refl _)
  obtain ⟨hlen, hget⟩ := free_positions_get M n hinc hrange
  refine ⟨Kc, bc, ?_, by rw [h1, hlen], by rw [h2, hlen], by rw [h3, hlen], ?_, ?_⟩
  · simp [apply_dirichlet_boundary_conditions, apply_dirichlet_loop, hloop]
  · intro r s
    rw [h4, hget r, hget s]
  · intro r
    rw [h5 r (by have := r.isLt; omega), hget r, sub_eq_add_neg, ← Finset.sum_neg_distrib]
    congr 1
    apply Finset.sum_congr rfl
    intro c _
    simp only [Mesh.dirichlet_position, neg_mul]

/-- C8: for every n×n `K`, length-n `b` and Dirichlet list of `d` conditions with strictly
increasing node identifiers in `1 .. n`, after `apply_dirichlet_boundary_conditions` the
matrix has exactly `n − d` rows and `n − d` columns and the vector exactly `n − d`
entries. -/
theorem C8_reduced_size (K : Matrix α) (b : Vector α) (M : Mesh α) (n : Nat)
    (hKr : K.nrows = n) (hKc : K.ncols = n) (hb : b.size = n)
    (hinc : ∀ c, c + 1 < M.get_quantity quantity.NUM_DIRICHLET →
      M.dirichlet_id c < M.dirichlet_id (c + 1))
    (hrange : ∀ c, c < M.get_quantity quantity.NUM_DIRICHLET →
      1 ≤ M.dirichlet_id c ∧ M.dirichlet_id c ≤ (n : Int)) :
    ∃ K' b', apply_dirichlet_boundary_conditions K b M = some (K', b') ∧
      K'.nrows = n - M.get_quantity quantity.NUM_DIRICHLET ∧
      K'.ncols = n - M.get_quantity quantity.NUM_DIRICHLET ∧
      b'.size = n - M.get_quantity quantity.NUM_DIRICHLET := by
  obtain ⟨Kc, bc, hloop, h1, h2, h3, _, _⟩ :=
    apply_dirichlet_steps K b M n hKr hKc hb hinc hrange _ (le_refl _)
  refine ⟨Kc, bc, ?_, h1, h2, h3⟩
  simp [apply_dirichlet_boundary_conditions, apply_dirichlet_loop, hloop]

end dirichlet_claims

/-- The condensation of `example_K`, `example_b` by the two conditions of `example_mesh`. -/
theorem C1_dirichlet_condensation_witness :
    ∃ K' b', apply_dirichlet_boundary_conditions example_K example_b example_mesh = some (K', b') ∧
      K'.nrows = (example_mesh.free_positions 4).length ∧
      K'.ncols = (example_mesh.free_positions 4).length ∧
      b'.size = (example_mesh.free_positions 4).length ∧
      (∀ r s : Fin (example_mesh.free_positions 4).length,
        K'.get r s = example_K.get ((example_mesh.free_positions 4).get r)
          ((example_mesh.free_positions 4).get s)) ∧
      (∀ r : Fin (example_mesh.free_positions 4).length,
        b'.get r = example_b.get ((example_mesh.free_positions 4).get r) -
          ∑ c in Finset.range (example_mesh.get_quantity quantity.NUM_DIRICHLET),
            (example_mesh.get_dirichlet_condition c).get_value *
              example_K.get ((example_mesh.free_positions 4).get r)
                (example_mesh.dirichlet_id c - 1).toNat) :=
  C1_dirichlet_condensation example_K example_b example_mesh 4 rfl rfl rfl
    example_mesh_increasing example_mesh_in_range

/-- The system of `example_K`, `example_b` reduced by `example_mesh` has size 4 - 2. -/
theorem C8_reduced_size_witness :
    ∃ K' b', apply_dirichlet_boundary_conditions example_K example_b example_mesh = some (K', b') ∧
      K'.nrows = 4 - example_mesh.get_quantity quantity.NUM_DIRICHLET ∧
      K'.ncols = 4 - example_mesh.get_quantity quantity.NUM_DIRICHLET ∧
      b'.size = 4 - example_mesh.get_quantity quantity.NUM_DIRICHLET :=
  C8_reduced_size example_K example_b example_mesh 4 rfl rfl rfl
    example_mesh_increasing example_mesh_in_range

section consistency

variable [LinearOrderedField α]

/-- C2: for every n×n `K`, length-n `b` and Dirichlet list with strictly increasing node
identifiers in `1 .. n`, if `X` solves the reduced system produced by
`apply_dirichlet_boundary_conditions` (`K_red · X = b_red`), then the full vector `T`
produced by `merge_results_with_dirichlet` satisfies `Σ_j K[r][j] · T[j] = b[r]` for every
non-Dirichlet row `r` of the original system. -/
theorem C2_condensation_merge_consistent (K : Matrix α) (b : Vector α) (M : Mesh α) (n : Nat)
    (hKr : K.nrows = n) (hKc : K.ncols = n) (hb : b.size = n)
    (hinc : ∀ c, c + 1 < M.get_quantity quantity.NUM_DIRICHLET →
      M.dirichlet_id c < M.dirichlet_id (c + 1))
    (hrange : ∀ c, c < M.get_quantity quantity.NUM_DIRICHLET →
      1 ≤ M.dirichlet_id c ∧ M.dirichlet_id c ≤ (n : Int))
    (K_red : Matrix α) (b_red : Vector α)
    (hred : apply_dirichlet_boundary_conditions K b M = some (K_red, b_red))
    (X Tf : Vector α)
    (hsol : ∀ r, r < K_red.nrows →
      ∑ s in Finset.range K_red.ncols, K_red.get r s * X.get s = b_red.get r) :
    ∀ r : Nat, r < n → M.does_node_have_dirichlet_condition ((r : Int) + 1) = false →
      ∑ j in Finset.range n, K.get r j * (merge_results_with_dirichlet X Tf n M).get j
        = b.get r := by
  obtain ⟨Kc, bc, hloop, h1, h2, h3, h4, h5⟩ :=
    apply_dirichlet_steps K b M n hKr hKc hb hinc hrange _ (le_refl _)
  have hKb : K_red = Kc ∧ b_red = bc := by
    simp only [apply_dirichlet_boundary_conditions, apply_dirichlet_loop, hloop,
      Option.map_some', Option.some.injEq, Prod.mk.injEq] at hred
    exact ⟨hred.1.symm, hred.2.symm⟩
  obtain ⟨rfl, rfl⟩ := hKb
  set d := M.get_quantity quantity.NUM_DIRICHLET with hd
  set T := merge_results_with_dirichlet X Tf n M with hT
  obtain ⟨_, _, _, _, m5, m6⟩ := merge_loop_spec X Tf M n
  have hfreeL := free_positions_eq_map M n hinc hrange
  have hdirL := dirichlet_positions_eq_map M n hinc hrange
  have hTfree : ∀ s, s < n - d → T.get (M.survivor d s) = X.get s := by
    intro s hs
    apply m5 s
    rw [hfreeL]; simp [hs, hd]
  have hTdir : ∀ c, c < d →
      T.get (M.dirichlet_position c) = (M.get_dirichlet_condition c).get_value := by
    intro c hc
    apply m6 c
    rw [hdirL]; simp [hc, hd, Mesh.dirichlet_position]
  have hσ : StrictMono (M.survivor d) := survivor_of_strictMono _ _
  have hp : ∀ a b', a < b' → b' < d → M.dirichlet_position a < M.dirichlet_position b' := by
    intro a b' hab hb'
    have := dirichlet_id_strictMono M hinc a b' hab hb'
    have h1 := hrange a (by omega)
    have h2 := hrange b' hb'
    simp only [Mesh.dirichlet_position]
    omega
  have hFree : (Finset.range n).filter
      (fun i : Nat => M.does_node_have_dirichlet_condition ((i : Int) + 1) = false)
        = (Finset.range (n - d)).image (M.survivor d) := by
    ext i
    have := mem_free_positions M n i
    rw [hfreeL] at this
    simp only [Finset.mem_filter, Finset.mem_range, Finset.mem_image]
    rw [← this]
    simp [hd]
  have hDir : (Finset.range n).filter
      (fun i : Nat => ¬ M.does_node_have_dirichlet_condition ((i : Int) + 1) = false)
        = (Finset.range d).image M.dirichlet_position := by
    ext i
    have := mem_dirichlet_positions M n i
    rw [hdirL] at this
    simp only [Finset.mem_filter, Finset.mem_range, Finset.mem_image, Bool.not_eq_false]
    rw [← this]
    simp [hd, Mesh.dirichlet_position]
  intro r hr hfree
  have hrmem : r ∈ (Finset.range n).filter
      (fun i : Nat => M.does_node_have_dirichlet_condition ((i : Int) + 1) = false) := by
    simp [hr, hfree]
  rw [hFree] at hrmem
  obtain ⟨ρ, hρ, rfl⟩ := Finset.mem_image.1 hrmem
  have hρ' : ρ < n - d := Finset.mem_range.1 hρ
  rw [← Finset.sum_filter_add_sum_filter_not (Finset.range n)
    (fun i : Nat => M.does_node_have_dirichlet_condition ((i : Int) + 1) = false), hFree, hDir,
    Finset.sum_image (fun x _ y _ h => hσ.injective h),
    Finset.sum_image (fun x hx y hy h => by
      have hx' := Finset.mem_range.1 hx
      have hy' := Finset.mem_range.1 hy
      by_contra hne
      rcases Nat.lt_or_gt_of_ne hne with h' | h'
      · have := hp x y h' hy'; omega
      · have := hp y x h' hx'; omega)]
  have e1 : ∑ s in Finset.range (n - d), K.get (M.survivor d ρ) (M.survivor d s) *
      T.get (M.survivor d s) = b_red.get ρ := by
    rw [← hsol ρ (by rw [h1]; exact hρ'), h2]
    apply Finset.sum_congr rfl
    intro s hs
    rw [hTfree s (Finset.mem_range.1 hs), h4]
  have e2 : ∑ c in Finset.range d, K.get (M.survivor d ρ) (M.dirichlet_position c) *
      T.get (M.dirichlet_position c) =
      ∑ c in Finset.range d, (M.get_dirichlet_condition c).get_value *
        K.get (M.survivor d ρ) (M.dirichlet_position c) := by
    apply Finset.sum_congr rfl
    intro c hc
    rw [hTdir c (Finset.mem_range.1 hc), mul_comm]
  rw [e1, e2, h5 ρ hρ', add_assoc, ← Finset.sum_add_distrib]
  simp

end consistency

/-- On `example_mesh` the merge of `example_X`, which solves the reduced system, satisfies
the original equations of the free rows 0 and 2. -/
theorem C2_condensation_merge_consistent_witness :
    ∑ j in Finset.range 4, example_K.get 0 j *
        (merge_results_with_dirichlet example_X (Vector.create 4) 4 example_mesh).get j
      = example_b.get 0 ∧
    ∑ j in Finset.range 4, example_K.get 2 j *
        (merge_results_with_dirichlet example_X (Vector.create 4) 4 example_mesh).get j
      = example_b.get 2 := by
  obtain ⟨Kc, bc, hloop, h1, h2, _, h4, h5⟩ :=
    apply_dirichlet_steps example_K example_b example_mesh 4 rfl rfl rfl
      example_mesh_increasing example_mesh_in_range 2 (le_refl _)
  have hred : apply_dirichlet_boundary_conditions example_K example_b example_mesh
      = some (Kc, bc) := by
    have hq : example_mesh.get_quantity quantity.NUM_DIRICHLET = 2 := rfl
    simp [apply_dirichlet_boundary_conditions, apply_dirichlet_loop, hq, hloop]
  have s0 : example_mesh.survivor 2 0 = 0 := by decide
  have s1 : example_mesh.survivor 2 1 = 2 := by decide
  have p0 : example_mesh.dirichlet_position 0 = 1 := by decide
  have p1 : example_mesh.dirichlet_position 1 = 3 := by decide
  have v0 : (example_mesh.get_dirichlet_condition 0).get_value = 5 := rfl
  have v1 : (example_mesh.get_dirichlet_condition 1).get_value = 7 := rfl
  have hsol : ∀ r, r < Kc.nrows →
      ∑ s in Finset.range Kc.ncols, Kc.get r s * example_X.get s = bc.get r := by
    intro r hr
    rw [h1] at hr
    rw [h2, h5 r hr]
    have hr2 : r = 0 ∨ r = 1 := by omega
    rcases hr2 with rfl | rfl
    · simp only [Finset.sum_range_succ, Finset.sum_range_zero, h4, s0, s1, p0, p1, v0, v1]
      norm_num [example_K, example_X, example_b, Matrix.get, Vector.get]
    · simp only [Finset.sum_range_succ, Finset.sum_range_zero, h4, s0, s1, p0, p1, v0, v1]
      norm_num [example_K, example_X, example_b, Matrix.get, Vector.get]
  exact ⟨C2_condensation_merge_consistent example_K example_b example_mesh 4 rfl rfl rfl
      example_mesh_increasing example_mesh_in_range Kc bc hred example_X (Vector.create 4) hsol
      0 (by decide) (by decide),
    C2_condensation_merge_consistent example_K example_b example_mesh 4 rfl rfl rfl
      example_mesh_increasing example_mesh_in_range Kc bc hred example_X (Vector.create 4) hsol
      2 (by decide) (by decide)⟩

/-! ## Assembly -/

theorem statements_nil {σ : Type} (s : σ) : statements ([] : List (σ → Option σ)) s = some s :=
  rfl

theorem statements_cons {σ : Type} (f : σ → Option σ) (fs : List (σ → Option σ)) (s : σ) :
    statements (f :: fs) s = (f s).bind (statements fs) := by
  have hnone : ∀ l : List (σ → Option σ),
      l.foldl (fun acc g => acc.bind g) (none : Option σ) = none := by
    intro l
    induction l with
    | nil => rfl
    | cons g gs ih => simpa using ih
  simp only [statements, List.foldl_cons, Option.some_bind]
  cases h : f s with
  | none => simp [hnone]
  | some s' => simp

section assembly_lemmas

variable [LinearOrderedField α]

theorem matrix_add_at_eq (K : Matrix α) (v : α) (r c : Int)
    (hr0 : 0 ≤ r) (hr1 : r < (K.nrows : Int)) (hc0 : 0 ≤ c) (hc1 : c < (K.ncols : Int)) :
    K.add_at v r c = some (K.add v r.toNat c.toNat) := by
  simp [Matrix.add_at, checked_index_eq hr0 hr1, checked_index_eq hc0 hc1]

theorem vector_add_at_eq (b : Vector α) (v : α) (r : Int)
    (hr0 : 0 ≤ r) (hr1 : r < (b.size : Int)) :
    b.add_at v r = some (b.add v r.toNat) := by
  simp [Vector.add_at, checked_index_eq hr0 hr1]

/-- A sequence of in-range `add` calls on a matrix. -/
theorem statements_matrix_add (l : List (α × Int × Int)) (K : Matrix α)
    (hl : ∀ t ∈ l, 0 ≤ t.2.1 ∧ t.2.1 < (K.nrows : Int) ∧ 0 ≤ t.2.2 ∧ t.2.2 < (K.ncols : Int)) :
    ∃ K', statements (l.map fun t (K : Matrix α) => K.add_at t.1 t.2.1 t.2.2) K = some K' ∧
      K'.nrows = K.nrows ∧ K'.ncols = K.ncols ∧
      ∀ i j : Nat, K'.get i j = K.get i j +
        (l.map fun t => if t.2.1 = (i : Int) ∧ t.2.2 = (j : Int) then t.1 else 0).sum := by
  induction l generalizing K with
  | nil => exact ⟨K, rfl, rfl, rfl, by simp⟩
  | cons t ts ih =>
    obtain ⟨h0, h1, h2, h3⟩ := hl t (List.mem_cons_self _ _)
    obtain ⟨K', e, d1, d2, g⟩ := ih (K.add t.1 t.2.1.toNat t.2.2.toNat)
      (fun t' ht' => by simpa using hl t' (List.mem_cons_of_mem _ ht'))
    refine ⟨K', ?_, by simpa using d1, by simpa using d2, ?_⟩
    · rw [List.map_cons, statements_cons, matrix_add_at_eq K _ _ _ h0 h1 h2 h3]
      exact e
    · intro i j
      rw [g, Matrix.get_add, List.map_cons, List.sum_cons]
      have hiff : (i = t.2.1.toNat ∧ j = t.2.2.toNat) ↔ (t.2.1 = (i : Int) ∧ t.2.2 = (j : Int)) := by
        constructor
        · rintro ⟨a, b⟩; constructor <;> omega
        · rintro ⟨a, b⟩; constructor <;> omega
      by_cases hc : t.2.1 = (i : Int) ∧ t.2.2 = (j : Int)
      · rw [if_pos (hiff.2 hc), if_pos hc]
        have e1 : t.2.1.toNat = i := by omega
        have e2 : t.2.2.toNat = j := by omega
        rw [e1, e2]; ring
      · rw [if_neg (fun h => hc (hiff.1 h)), if_neg hc]; ring

/-- A sequence of in-range `add` calls on a vector. -/
theorem statements_vector_add (l : List (α × Int)) (b : Vector α)
    (hl : ∀ t ∈ l, 0 ≤ t.2 ∧ t.2 < (b.size : Int)) :
    ∃ b', statements (l.map fun t (b : Vector α) => b.add_at t.1 t.2) b = some b' ∧
      b'.size = b.size ∧
      ∀ i : Nat, b'.get i = b.get i +
        (l.map fun t => if t.2 = (i : Int) then t.1 else 0).sum := by
  induction l generalizing b with
  | nil => exact ⟨b, rfl, rfl, by simp⟩
  | cons t ts ih =>
    obtain ⟨h0, h1⟩ := hl t (List.mem_cons_self _ _)
    obtain ⟨b', e, d1, g⟩ := ih (b.add t.1 t.2.toNat)
      (fun t' ht' => by simpa using hl t' (List.mem_cons_of_mem _ ht'))
    refine ⟨b', ?_, by simpa using d1, ?_⟩
    · rw [List.map_cons, statements_cons, vector_add_at_eq b _ _ h0 h1]
      exact e
    · intro i
      rw [g, Vector.vget_add, List.map_cons, List.sum_cons]
      by_cases hc : t.2 = (i : Int)
      · have e1 : t.2.toNat = i := by omega
        rw [if_pos e1.symm, if_pos hc, e1]; ring
      · rw [if_neg (fun h => hc (by omega)), if_neg hc]; ring

end assembly_lemmas

section assembly_lemmas2

variable [LinearOrderedField α]

theorem assembly_K_spec (K local_K : Matrix α) (idx : Fin 4 → Int)
    (hr : ∀ a, 0 ≤ idx a ∧ idx a < (K.nrows : Int))
    (hc : ∀ a, 0 ≤ idx a ∧ idx a < (K.ncols : Int)) :
    ∃ K', assembly_K K local_K (idx 0) (idx 1) (idx 2) (idx 3) = some K' ∧
      K'.nrows = K.nrows ∧ K'.ncols = K.ncols ∧
      ∀ i j : Nat, K'.get i j = K.get i j +
        ∑ a : Fin 4, ∑ b : Fin 4,
          if idx a = (i : Int) ∧ idx b = (j : Int) then local_K.get a b else 0 := by
  obtain ⟨K', e, d1, d2, g⟩ := statements_matrix_add
    [(local_K.get 0 0, idx 0, idx 0), (local_K.get 0 1, idx 0, idx 1),
     (local_K.get 0 2, idx 0, idx 2), (local_K.get 0 3, idx 0, idx 3),
     (local_K.get 1 0, idx 1, idx 0), (local_K.get 1 1, idx 1, idx 1),
     (local_K.get 1 2, idx 1, idx 2), (local_K.get 1 3, idx 1, idx 3),
     (local_K.get 2 0, idx 2, idx 0), (local_K.get 2 1, idx 2, idx 1),
     (local_K.get 2 2, idx 2, idx 2), (local_K.get 2 3, idx 2, idx 3),
     (local_K.get 3 0, idx 3, idx 0), (local_K.get 3 1, idx 3, idx 1),
     (local_K.get 3 2, idx 3, idx 2), (local_K.get 3 3, idx 3, idx 3)] K
    (by
      intro t ht
      simp only [List.mem_cons, List.mem_singleton, List.not_mem_nil, or_false] at ht
      rcases ht with h | h | h | h | h | h | h | h | h | h | h | h | h | h | h | h <;>
        subst h <;> exact ⟨(hr _).1, (hr _).2, (hc _).1, (hc _).2⟩)
  refine ⟨K', e, d1, d2, ?_⟩
  intro i j
  rw [g]
  simp only [List.map_cons, List.map_nil, List.sum_cons, List.sum_nil, Fin.sum_univ_four,
    Fin.val_zero, Fin.val_one, Fin.val_two]
  have h3 : ((3 : Fin 4) : Nat) = 3 := rfl
  rw [h3]
  ring

theorem assembly_b_spec (b local_b : Vector α) (idx : Fin 4 → Int)
    (hr : ∀ a, 0 ≤ idx a ∧ idx a < (b.size : Int)) :
    ∃ b', assembly_b b local_b (idx 0) (idx 1) (idx 2) (idx 3) = some b' ∧
      b'.size = b.size ∧
      ∀ i : Nat, b'.get i = b.get i +
        ∑ a : Fin 4, if idx a = (i : Int) then local_b.get a else 0 := by
  obtain ⟨b', e, d1, g⟩ := statements_vector_add
    [(local_b.get 0, idx 0), (local_b.get 1, idx 1), (local_b.get 2, idx 2),
     (local_b.get 3, idx 3)] b
    (by
      intro t ht
      simp only [List.mem_cons, List.mem_singleton, List.not_mem_nil, or_false] at ht
      rcases ht with h | h | h | h <;> subst h <;> exact hr _)
  refine ⟨b', e, d1, ?_⟩
  intro i
  rw [g]
  simp only [List.map_cons, List.map_nil, List.sum_cons, List.sum_nil, Fin.sum_univ_four,
    Fin.val_zero, Fin.val_one, Fin.val_two]
  have h3 : ((3 : Fin 4) : Nat) = 3 := rfl
  rw [h3]
  ring

/-- The result of the assembly loop over the elements. -/
theorem assembly_loop_spec (K : Matrix α) (b : Vector α) (Ks : Nat → Matrix α)
    (bs : Nat → Vector α) (num_elements : Nat) (M : Mesh α) (n : Nat)
    (hKr : K.nrows = n) (hKc : K.ncols = n) (hb : b.size = n)
    (hids : ∀ e, e < num_elements → ∀ a : Fin 4,
      0 ≤ (M.get_element e).index a ∧ (M.get_element e).index a < (n : Int)) :
    ∃ K' b', assembly K b Ks bs num_elements M = some (K', b') ∧
      K'.nrows = n ∧ K'.ncols = n ∧ b'.size = n ∧
      (∀ i j : Nat, K'.get i j = K.init.get i j +
        ∑ e in Finset.range num_elements, ∑ a : Fin 4, ∑ b : Fin 4,
          if (M.get_element e).index a = (i : Int) ∧ (M.get_element e).index b = (j : Int)
          then (Ks e).get a b else 0) ∧
      (∀ i : Nat, b'.get i = b.init.get i +
        ∑ e in Finset.range num_elements, ∑ a : Fin 4,
          if (M.get_element e).index a = (i : Int) then (bs e).get a else 0) := by
  unfold assembly
  simp only []
  induction num_elements with
  | zero =>
    exact ⟨K.init, b.init, rfl, hKr, hKc, hb, by simp, by simp⟩
  | succ k ih =>
    obtain ⟨K1, b1, e1, d1, d2, d3, g1, g2⟩ := ih (fun e he a => hids e (by omega) a)
    obtain ⟨K2, eK, dK1, dK2, gK⟩ := assembly_K_spec K1 (Ks k) (M.get_element k).index
      (fun a => by rw [d1]; exact hids k (by omega) a)
      (fun a => by rw [d2]; exact hids k (by omega) a)
    obtain ⟨b2, eb, db, gb⟩ := assembly_b_spec b1 (bs k) (M.get_element k).index
      (fun a => by rw [d3]; exact hids k (by omega) a)
    refine ⟨K2, b2, ?_, by rw [dK1, d1], by rw [dK2, d2], by rw [db, d3], ?_, ?_⟩
    · rw [for_loop_opt_succ, e1]
      simp only [Option.some_bind]
      have eK' : assembly_K K1 (Ks k) ((M.get_element k).get_node1.get_ID - 1)
          ((M.get_element k).get_node2.get_ID - 1) ((M.get_element k).get_node3.get_ID - 1)
          ((M.get_element k).get_node4.get_ID - 1) = some K2 := eK
      have eb' : assembly_b b1 (bs k) ((M.get_element k).get_node1.get_ID - 1)
          ((M.get_element k).get_node2.get_ID - 1) ((M.get_element k).get_node3.get_ID - 1)
          ((M.get_element k).get_node4.get_ID - 1) = some b2 := eb
      rw [eK', Option.some_bind, eb', Option.some_bind]
    · intro i j
      rw [gK, g1, Finset.sum_range_succ, add_assoc]
    · intro i
      rw [gb, g2, Finset.sum_range_succ, add_assoc]

end assembly_lemmas2

section assembly_claim

variable [LinearOrderedField α]

/-- C5: assembly is a scatter-add. For every mesh whose node identifiers lie in `1 .. n`
(index `get_ID() - 1` in `0 .. n - 1`) and every array of local matrices and vectors, after
`assembly` the global entry `K[i][j]` is the sum, over all elements `e` and all local pairs
`(a, b)` with global index of node `a` of `e` equal to `i` and of node `b` equal to `j`, of
`K_local_e[a][b]`, and `b[i]` is the sum over all elements `e` and local `a` with global
index `i` of `b_local_e[a]`. In particular for a single element with four distinct nodes the
global `K` and `b` equal the local ones at the node indices. -/
theorem C5_assembly_scatter_add (K : Matrix α) (b : Vector α) (Ks : Nat → Matrix α)
    (bs : Nat → Vector α) (num_elements : Nat) (M : Mesh α) (n : Nat)
    (hKr : K.nrows = n) (hKc : K.ncols = n) (hb : b.size = n)
    (hids : ∀ e, e < num_elements → ∀ a : Fin 4,
      1 ≤ (M.get_element e).index a + 1 ∧ (M.get_element e).index a + 1 ≤ (n : Int)) :
    ∃ K' b', assembly K b Ks bs num_elements M = some (K', b') ∧
      (∀ i j : Fin n, K'.get i j =
        ∑ e in Finset.range num_elements, ∑ a : Fin 4, ∑ b : Fin 4,
          if (M.get_element e).index a = ((i : Nat) : Int) ∧
              (M.get_element e).index b = ((j : Nat) : Int)
          then (Ks e).get a b else 0) ∧
      (∀ i : Fin n, b'.get i =
        ∑ e in Finset.range num_elements, ∑ a : Fin 4,
          if (M.get_element e).index a = ((i : Nat) : Int) then (bs e).get a else 0) ∧
      (num_elements = 1 → Function.Injective (M.get_element 0).index →
        ∀ a b : Fin 4,
          K'.get ((M.get_element 0).index a).toNat ((M.get_element 0).index b).toNat
            = (Ks 0).get a b ∧
          b'.get ((M.get_element 0).index a).toNat = (bs 0).get a) := by
  have hids' : ∀ e, e < num_elements → ∀ a : Fin 4,
      0 ≤ (M.get_element e).index a ∧ (M.get_element e).index a < (n : Int) := by
    intro e he a
    have := hids e he a
    omega
  obtain ⟨K', b', e, d1, d2, d3, g1, g2⟩ :=
    assembly_loop_spec K b Ks bs num_elements M n hKr hKc hb hids'
  have z1 : ∀ i j : Nat, i < n → j < n → K.init.get i j = 0 := by
    intro i j hi hj
    simp [hKr, hKc, hi, hj]
  have z2 : ∀ i : Nat, i < n → b.init.get i = 0 := by
    intro i hi
    simp [hb, hi]
  refine ⟨K', b', e, ?_, ?_, ?_⟩
  · intro i j
    rw [g1, z1 i j i.isLt j.isLt, zero_add]
  · intro i
    rw [g2, z2 i i.isLt, zero_add]
  · intro h1 hinj a b
    subst h1
    have ha := hids' 0 (by omega) a
    have hb' := hids' 0 (by omega) b
    have ca : (((M.get_element 0).index a).toNat : Int) = (M.get_element 0).index a := by omega
    have cb : (((M.get_element 0).index b).toNat : Int) = (M.get_element 0).index b := by omega
    constructor
    · rw [g1, z1 _ _ (by omega) (by omega), zero_add, Finset.sum_range_one, ca, cb,
        Finset.sum_eq_single a, Finset.sum_eq_single b]
      · simp
      · intro b2 _ hne
        rw [if_neg]
        rintro ⟨_, h⟩
        exact hne (hinj h)
      · simp
      · intro a2 _ hne
        apply Finset.sum_eq_zero
        intro b2 _
        rw [if_neg]
        rintro ⟨h, _⟩
        exact hne (hinj h)
      · simp
    · rw [g2, z2 _ (by omega), zero_add, Finset.sum_range_one, ca, Finset.sum_eq_single a]
      · simp
      · intro a2 _ hne
        rw [if_neg]
        intro h
        exact hne (hinj h)
      · simp

end assembly_claim

/-- The node identifiers of the element of `unit_mesh` lie in `1 .. 4`. -/
theorem unit_mesh_indices : ∀ e, e < 1 → ∀ a : Fin 4,
    1 ≤ (unit_mesh.get_element e).index a + 1 ∧
      (unit_mesh.get_element e).index a + 1 ≤ ((4 : Nat) : Int) := by
  intro e he a
  have h0 : e = 0 := by omega
  subst h0
  fin_cases a <;> decide

/-- Assembly of one local system on the element of `unit_mesh`. -/
theorem C5_assembly_scatter_add_witness :
    ∃ K' b', assembly (Matrix.create 4 4) (Vector.create 4) (fun _ => example_K)
        (fun _ => example_b) 1 unit_mesh = some (K', b') ∧
      (∀ i j : Fin 4, K'.get i j =
        ∑ e in Finset.range 1, ∑ a : Fin 4, ∑ b : Fin 4,
          if (unit_mesh.get_element e).index a = ((i : Nat) : Int) ∧
              (unit_mesh.get_element e).index b = ((j : Nat) : Int)
          then example_K.get a b else 0) ∧
      (∀ i : Fin 4, b'.get i =
        ∑ e in Finset.range 1, ∑ a : Fin 4,
          if (unit_mesh.get_element e).index a = ((i : Nat) : Int) then example_b.get a
          else 0) ∧
      ((1 : Nat) = 1 → Function.Injective (unit_mesh.get_element 0).index →
        ∀ a b : Fin 4,
          K'.get ((unit_mesh.get_element 0).index a).toNat
              ((unit_mesh.get_element 0).index b).toNat = example_K.get a b ∧
          b'.get ((unit_mesh.get_element 0).index a).toNat = example_b.get a) :=
  C5_assembly_scatter_add (Matrix.create 4 4) (Vector.create 4) (fun _ => example_K)
    (fun _ => example_b) 1 unit_mesh 4 rfl rfl rfl unit_mesh_indices

/-! ## Loops that fill a matrix row by row -/

/-- A double loop that writes cell `(ρ t, j)` at step `(t, j)` with a value that depends
only on the cells written before: at the end every written cell holds the value computed
from the final matrix. -/
theorem fill_spec (n m : Nat) (ρ : Nat → Nat)
    (hρ : ∀ a b, a < n → b < n → ρ a = ρ b → a = b)
    (F : Nat → Nat → Matrix α → α)
    (hF : ∀ t j (L L' : Matrix α), t < n → j < m →
      (∀ t' j', t' < n → j' < m → (t' < t ∨ (t' = t ∧ j' < j)) →
        L.get (ρ t') j' = L'.get (ρ t') j') → F t j L = F t j L')
    (L0 : Matrix α) :
    ∀ t j, t < n → j < m →
      (for_loop n (fun t L => for_loop m (fun j L => L.set (F t j L) (ρ t) j) L) L0).get (ρ t) j
        = F t j (for_loop n (fun t L => for_loop m (fun j L => L.set (F t j L) (ρ t) j) L) L0) := by
  have step : ∀ (t k : Nat) (L : Matrix α), t < n → k < m →
      (∀ t' j', t' < n → j' < m → (t' < t ∨ (t' = t ∧ j' < k)) →
        L.get (ρ t') j' = F t' j' L) →
      (∀ t' j', t' < n → j' < m → (t' < t ∨ (t' = t ∧ j' < k + 1)) →
        (L.set (F t k L) (ρ t) k).get (ρ t') j' = F t' j' (L.set (F t k L) (ρ t) k)) := by
    intro t k L ht hk inv t' j' ht' hj' hbefore
    have hagree : ∀ t'' j'', t'' < n → j'' < m → (t'' < t ∨ (t'' = t ∧ j'' < k)) →
        L.get (ρ t'') j'' = (L.set (F t k L) (ρ t) k).get (ρ t'') j'' := by
      intro t'' j'' ht'' _ hb
      rw [Matrix.get_set, if_neg]
      rintro ⟨h1, h2⟩
      have := hρ t'' t ht'' ht h1
      omega
    by_cases hcur : t' = t ∧ j' = k
    · obtain ⟨rfl, rfl⟩ := hcur
      rw [Matrix.get_set, if_pos ⟨rfl, rfl⟩]
      exact hF t' j' _ _ ht hk hagree
    · have hb : t' < t ∨ (t' = t ∧ j' < k) := by omega
      rw [← hagree t' j' ht' hj' hb, inv t' j' ht' hj' hb]
      apply hF t' j' _ _ ht' hj'
      intro t'' j'' ht'' hj'' hb''
      exact hagree t'' j'' ht'' hj'' (by omega)
  have inner : ∀ (t k : Nat) (L : Matrix α), t < n → k ≤ m →
      (∀ t' j', t' < n → j' < m → (t' < t ∨ (t' = t ∧ j' < 0)) →
        L.get (ρ t') j' = F t' j' L) →
      (∀ t' j', t' < n → j' < m → (t' < t ∨ (t' = t ∧ j' < k)) →
        (for_loop k (fun j L => L.set (F t j L) (ρ t) j) L).get (ρ t') j'
          = F t' j' (for_loop k (fun j L => L.set (F t j L) (ρ t) j) L)) := by
    intro t k L ht hk inv
    induction k with
    | zero => exact inv
    | succ k ih =>
      rw [for_loop_succ]
      exact step t k _ ht (by omega) (ih (by omega))
  have outer : ∀ (t : Nat), t ≤ n →
      (∀ t' j', t' < n → j' < m → (t' < t ∨ (t' = t ∧ j' < 0)) →
        (for_loop t (fun t L => for_loop m (fun j L => L.set (F t j L) (ρ t) j) L) L0).get
            (ρ t') j'
          = F t' j'
            (for_loop t (fun t L => for_loop m (fun j L => L.set (F t j L) (ρ t) j) L) L0)) := by
    intro t ht
    induction t with
    | zero => intro t' j' _ _ h; omega
    | succ t ih =>
      rw [for_loop_succ]
      intro t' j' ht' hj' hb
      exact inner t m _ (by omega) (le_refl m) (ih (by omega)) t' j' ht' hj' (by omega)
  intro t j ht hj
  exact outer n (le_refl n) t j ht hj (by omega)

/-- The cells a filling loop does not write keep their value, and the size is kept. -/
theorem fill_frame (n m : Nat) (ρ : Nat → Nat) (F : Nat → Nat → Matrix α → α)
    (L0 : Matrix α) :
    (for_loop n (fun t L => for_loop m (fun j L => L.set (F t j L) (ρ t) j) L) L0).nrows
      = L0.nrows ∧
    (for_loop n (fun t L => for_loop m (fun j L => L.set (F t j L) (ρ t) j) L) L0).ncols
      = L0.ncols ∧
    ∀ r c, (∀ t, t < n → ρ t = r → m ≤ c) →
      (for_loop n (fun t L => for_loop m (fun j L => L.set (F t j L) (ρ t) j) L) L0).get r c
        = L0.get r c := by
  have inner : ∀ (t k : Nat) (L : Matrix α),
      (for_loop k (fun j L => L.set (F t j L) (ρ t) j) L).nrows = L.nrows ∧
      (for_loop k (fun j L => L.set (F t j L) (ρ t) j) L).ncols = L.ncols ∧
      ∀ r c, (ρ t = r → k ≤ c) →
        (for_loop k (fun j L => L.set (F t j L) (ρ t) j) L).get r c = L.get r c := by
    intro t k L
    induction k with
    | zero => exact ⟨rfl, rfl, fun _ _ _ => rfl⟩
    | succ k ih =>
      rw [for_loop_succ]
      obtain ⟨h1, h2, h3⟩ := ih
      refine ⟨by rw [Matrix.nrows_set, h1], by rw [Matrix.ncols_set, h2], ?_⟩
      intro r c h
      rw [Matrix.get_set, if_neg, h3 r c (fun e => by have := h e; omega)]
      rintro ⟨e1, e2⟩
      have := h e1.symm
      omega
  induction n with
  | zero => exact ⟨rfl, rfl, fun _ _ _ => rfl⟩
  | succ n ih =>
    rw [for_loop_succ]
    obtain ⟨h1, h2, h3⟩ := ih
    obtain ⟨g1, g2, g3⟩ := inner n m
      (for_loop n (fun t L => for_loop m (fun j L => L.set (F t j L) (ρ t) j) L) L0)
    refine ⟨by rw [g1, h1], by rw [g2, h2], ?_⟩
    intro r c h
    rw [g3 r c (fun e => h n (by omega) e), h3 r c (fun t ht e => h t (by omega) e)]

section cholesky_loops

variable [LinearOrderedField α]

/-- The entries of the factor `L` satisfy the Cholesky recurrences. -/
theorem calculate_inverse_L_spec (sqrt : α → α) (A : Matrix α) (n : Nat) :
    (∀ i j, i < j → j < n → (calculate_inverse_L sqrt A n).get i j = 0) ∧
    (∀ j, j < n → (calculate_inverse_L sqrt A n).get j j =
      if A.get j j - ∑ k in Finset.range j, (calculate_inverse_L sqrt A n).get j k ^ 2 ≤ 0
      then epsilon_patch
      else sqrt (A.get j j
        - ∑ k in Finset.range j, (calculate_inverse_L sqrt A n).get j k ^ 2)) ∧
    (∀ i j, j < i → i < n → (calculate_inverse_L sqrt A n).get i j =
      (1 / (calculate_inverse_L sqrt A n).get j j) * (A.get i j
        - ∑ k in Finset.range j,
            (calculate_inverse_L sqrt A n).get i k * (calculate_inverse_L sqrt A n).get j k)) := by
  let F : Nat → Nat → Matrix α → α := fun i j L =>
    if i = j then
      (if A.get j j - ∑ k in Finset.range j, L.get j k ^ 2 ≤ 0 then epsilon_patch
       else sqrt (A.get j j - ∑ k in Finset.range j, L.get j k ^ 2))
    else if i > j then
      (1 / L.get j j) * (A.get i j - ∑ k in Finset.range j, L.get i k * L.get j k)
    else 0
  have hdef : calculate_inverse_L sqrt A n =
      for_loop n (fun t L => for_loop n (fun j L => L.set (F t j L) (id t) j) L)
        (Matrix.create n n) := by
    simp only [calculate_inverse_L, for_loop_sum]
    congr 1
    funext i L
    congr 1
    funext j L
    simp only [F, id]
    by_cases h1 : i = j
    · subst h1
      simp only [if_true]
      split_ifs <;> rfl
    · simp only [h1, if_false]
      split_ifs <;> rfl
  have hF : ∀ t j (L L' : Matrix α), t < n → j < n →
      (∀ t' j', t' < n → j' < n → (t' < t ∨ (t' = t ∧ j' < j)) →
        L.get (id t') j' = L'.get (id t') j') → F t j L = F t j L' := by
    intro t j L L' ht hj hag
    simp only [id] at hag
    simp only [F]
    by_cases h1 : t = j
    · subst h1
      have e : ∑ k in Finset.range t, L.get t k ^ 2 = ∑ k in Finset.range t, L'.get t k ^ 2 := by
        apply Finset.sum_congr rfl
        intro k hk
        have hk' := Finset.mem_range.1 hk
        rw [hag t k ht (by omega) (by omega)]
      simp only [if_true, e]
    · simp only [h1, if_false]
      by_cases h2 : t > j
      · have e : ∑ k in Finset.range j, L.get t k * L.get j k =
            ∑ k in Finset.range j, L'.get t k * L'.get j k := by
          apply Finset.sum_congr rfl
          intro k hk
          have hk' := Finset.mem_range.1 hk
          rw [hag t k ht (by omega) (by omega), hag j k hj (by omega) (by omega)]
        simp only [h2, if_true, e, hag j j hj hj (by omega)]
      · simp only [h2, if_false]
  have key := fill_spec n n id (fun a b _ _ h => h) F hF (Matrix.create n n)
  rw [← hdef] at key
  simp only [id] at key
  refine ⟨?_, ?_, ?_⟩
  · intro i j hij hj
    rw [key i j (by omega) hj]
    simp only [F]
    rw [if_neg (by omega), if_neg (by omega)]
  · intro j hj
    rw [key j j hj hj]
    simp only [F, if_true]
  · intro i j hji hi
    rw [key i j hi (by omega)]
    simp only [F]
    rw [if_neg (by omega), if_pos hji]

/-- The entries of `Y` satisfy the forward substitution recurrences. -/
theorem calculate_inverse_Y_spec (L : Matrix α) (n : Nat) :
    (∀ i j, i < j → j < n → (calculate_inverse_Y L n).get i j = 0) ∧
    (∀ i, i < n → (calculate_inverse_Y L n).get i i = 1 / L.get i i) ∧
    (∀ i j, j < i → i < n → (calculate_inverse_Y L n).get i j =
      -(1 / L.get i i) *
        ∑ k in Finset.Ico j i, L.get i k * (calculate_inverse_Y L n).get k j) := by
  let F : Nat → Nat → Matrix α → α := fun i j Y =>
    if i = j then 1 / L.get i i
    else if i > j then -(1 / L.get i i) * ∑ k in Finset.Ico j i, L.get i k * Y.get k j
    else 0
  have hdef : calculate_inverse_Y L n =
      for_loop n (fun t Y => for_loop n (fun j Y => Y.set (F t j Y) (id t) j) Y)
        (Matrix.create n n) := by
    simp only [calculate_inverse_Y, for_loop_from_sum]
    congr 1
    funext i Y
    congr 1
    funext j Y
    simp only [F, id]
    by_cases h1 : i = j
    · subst h1
      simp only [if_true]
    · simp only [h1, if_false]
      split_ifs <;> rfl
  have hF : ∀ t j (Y Y' : Matrix α), t < n → j < n →
      (∀ t' j', t' < n → j' < n → (t' < t ∨ (t' = t ∧ j' < j)) →
        Y.get (id t') j' = Y'.get (id t') j') → F t j Y = F t j Y' := by
    intro t j Y Y' ht hj hag
    simp only [id] at hag
    simp only [F]
    by_cases h1 : t = j
    · simp only [h1, if_true]
    · simp only [h1, if_false]
      by_cases h2 : t > j
      · have e : ∑ k in Finset.Ico j t, L.get t k * Y.get k j =
            ∑ k in Finset.Ico j t, L.get t k * Y'.get k j := by
          apply Finset.sum_congr rfl
          intro k hk
          have hk' := Finset.mem_Ico.1 hk
          rw [hag k j (by omega) hj (by omega)]
        simp only [h2, if_true, e]
      · simp only [h2, if_false]
  have key := fill_spec n n id (fun a b _ _ h => h) F hF (Matrix.create n n)
  rw [← hdef] at key
  simp only [id] at key
  refine ⟨?_, ?_, ?_⟩
  · intro i j hij hj
    rw [key i j (by omega) hj]
    simp only [F]
    rw [if_neg (by omega), if_neg (by omega)]
  · intro i hi
    rw [key i i hi hi]
    simp only [F, if_true]
  · intro i j hji hi
    rw [key i j hi (by omega)]
    simp only [F]
    rw [if_neg (by omega), if_pos hji]

/-- The entries of `X` satisfy the back substitution recurrences, and the size of `X` is
kept. -/
theorem calculate_inverse_X_spec (L Y : Matrix α) (n : Nat) (X : Matrix α) :
    (calculate_inverse_X L Y n X).nrows = X.nrows ∧
    (calculate_inverse_X L Y n X).ncols = X.ncols ∧
    ∀ i j, i < n → j < n → (calculate_inverse_X L Y n X).get i j =
      (1 / L.get i i) * (Y.get i j
        - ∑ k in Finset.Ico (i + 1) n, L.get k i * (calculate_inverse_X L Y n X).get k j) := by
  let F : Nat → Nat → Matrix α → α := fun t j X =>
    (1 / L.get (n - 1 - t) (n - 1 - t)) * (Y.get (n - 1 - t) j
      - ∑ k in Finset.Ico (n - 1 - t + 1) n, L.get k (n - 1 - t) * X.get k j)
  have hdef : calculate_inverse_X L Y n X =
      for_loop n (fun t X => for_loop n (fun j X => X.set (F t j X) (n - 1 - t) j) X) X := by
    simp only [calculate_inverse_X, for_loop_from_sum, for_loop_down_eq]
  have hF : ∀ t j (X X' : Matrix α), t < n → j < n →
      (∀ t' j', t' < n → j' < n → (t' < t ∨ (t' = t ∧ j' < j)) →
        X.get (n - 1 - t') j' = X'.get (n - 1 - t') j') → F t j X = F t j X' := by
    intro t j X X' ht hj hag
    simp only [F]
    have e : ∑ k in Finset.Ico (n - 1 - t + 1) n, L.get k (n - 1 - t) * X.get k j =
        ∑ k in Finset.Ico (n - 1 - t + 1) n, L.get k (n - 1 - t) * X'.get k j := by
      apply Finset.sum_congr rfl
      intro k hk
      have hk' := Finset.mem_Ico.1 hk
      have := hag (n - 1 - k) j (by omega) hj (by omega)
      have e2 : n - 1 - (n - 1 - k) = k := by omega
      rw [e2] at this
      rw [this]
    rw [e]
  have key := fill_spec n n (fun t => n - 1 - t) (fun a b ha hb h => by simp only at h; omega) F hF X
  have frame := fill_frame n n (fun t => n - 1 - t) F X
  rw [← hdef] at key frame
  refine ⟨frame.1, frame.2.1, ?_⟩
  intro i j hi hj
  have := key (n - 1 - i) j (by omega) hj
  have e2 : n - 1 - (n - 1 - i) = i := by omega
  simp only [F, e2] at this
  exact this

end cholesky_loops

/-! ## Cholesky factorisation of a positive definite matrix -/

/-- A triangular system with nonzero diagonal has a solution. -/
theorem triangular_solve (j : Nat) (L : Nat → Nat → ℝ)
    (hup : ∀ a k, a < k → k < j → L a k = 0) (hd : ∀ k, k < j → L k k ≠ 0) (r : Nat → ℝ) :
    ∃ y : Nat → ℝ, ∀ k, k < j → ∑ a in Finset.range j, L a k * y a = r k := by
  let T : LinMatrix (Fin j) (Fin j) ℝ := fun k a => L a k
  have htri : T.BlockTriangular id := by
    intro k a hak
    exact hup a k hak k.isLt
  have hdet : T.det ≠ 0 := by
    rw [Matrix.det_of_upperTriangular htri]
    exact Finset.prod_ne_zero_iff.2 (fun k _ => hd k k.isLt)
  have hunit : IsUnit T.det := isUnit_iff_ne_zero.2 hdet
  refine ⟨fun a => if h : a < j then (T⁻¹.mulVec (fun k => r k)) ⟨a, h⟩ else 0, ?_⟩
  intro k hk
  have h1 : T.mulVec (T⁻¹.mulVec (fun k => r k)) ⟨k, hk⟩ = r k := by
    rw [Matrix.mulVec_mulVec, Matrix.mul_nonsing_inv T hunit, Matrix.one_mulVec]
  rw [← h1, Matrix.mulVec, Matrix.dotProduct, Finset.sum_range]
  apply Finset.sum_congr rfl
  intro a _
  simp [T]

open Finset in
/-- Every pivot of the Cholesky recurrences on a symmetric positive definite matrix is
positive. -/
theorem cholesky_pivot_pos (n : Nat) (A L : Nat → Nat → ℝ) (ε : ℝ)
    (hsym : ∀ i j, i < n → j < n → A i j = A j i)
    (hpd : ∀ x : Nat → ℝ, (∃ i, i < n ∧ x i ≠ 0) →
      0 < ∑ i in range n, ∑ i' in range n, x i * A i i' * x i')
    (hup : ∀ i j, i < j → j < n → L i j = 0)
    (hdiag : ∀ j, j < n → L j j =
      if A j j - ∑ k in range j, L j k ^ 2 ≤ 0 then ε
      else Real.sqrt (A j j - ∑ k in range j, L j k ^ 2))
    (hlow : ∀ i j, j < i → i < n → L i j =
      (1 / L j j) * (A i j - ∑ k in range j, L i k * L j k)) :
    ∀ j, j < n → 0 < A j j - ∑ k in range j, L j k ^ 2 := by
  intro j
  induction j using Nat.strong_induction_on with
  | _ j ih =>
  intro hj
  have hdpos : ∀ c, c < j → 0 < L c c ∧ L c c * L c c = A c c - ∑ k in range c, L c k ^ 2 := by
    intro c hc
    have hp := ih c hc (by omega)
    rw [hdiag c (by omega), if_neg (not_le.2 hp)]
    exact ⟨Real.sqrt_pos.2 hp, Real.mul_self_sqrt hp.le⟩
  have I1 : ∀ a c, c < j → c ≤ a → a < n →
      ∑ k in range (c + 1), L a k * L c k = A a c := by
    intro a c hc hca ha
    rw [sum_range_succ]
    obtain ⟨hpos, hsq⟩ := hdpos c hc
    rcases eq_or_lt_of_le hca with rfl | hlt
    · rw [hsq]
      have : ∑ k in range c, L c k * L c k = ∑ k in range c, L c k ^ 2 :=
        sum_congr rfl (fun k _ => (sq (L c k)).symm)
      rw [this]; ring
    · rw [hlow a c hlt ha]
      field_simp
  have hext : ∀ a' c', c' < j →
      ∑ k in range j, L a' k * L c' k = ∑ k in range (c' + 1), L a' k * L c' k := by
    intro a' c' hc'
    symm
    apply sum_subset (range_subset.2 (by omega))
    intro k hk hk'
    have h1 := mem_range.1 hk
    have h2 : ¬ k < c' + 1 := fun h => hk' (mem_range.2 h)
    rw [hup c' k (by omega) (by omega)]; ring
  have I2 : ∀ a c, a < n → c < j → ∑ k in range j, L a k * L c k = A a c := by
    intro a c ha hc
    by_cases hca : c ≤ a
    · rw [hext a c hc, I1 a c hc hca ha]
    · push_neg at hca
      rw [hsym a c ha (by omega), ← I1 c a (by omega) (le_of_lt hca) (by omega),
        ← hext c a (by omega)]
      exact sum_congr rfl (fun k _ => mul_comm _ _)
  obtain ⟨y, hy⟩ := triangular_solve j L (fun a k hak hk => hup a k hak (by omega))
    (fun k hk => (hdpos k hk).1.ne') (fun k => L j k)
  have hx := hpd (fun i => if i < j then -y i else if i = j then 1 else 0)
    ⟨j, hj, by simp⟩
  have r1 : ∀ f : Nat → ℝ, (∀ i, j < i → f i = 0) →
      ∑ i in range n, f i = ∑ i in range (j + 1), f i := by
    intro f hf
    symm
    apply sum_subset (range_subset.2 (by omega))
    intro i hi hi'
    have h2 : ¬ i < j + 1 := fun h => hi' (mem_range.2 h)
    exact hf i (by omega)
  have T3 : ∀ i, i < n → (∀ c, c < j → A i c = A j c) →
      ∑ c in range j, A i c * y c = ∑ k in range j, L j k ^ 2 := by
    intro i _ hi
    calc ∑ c in range j, A i c * y c
        = ∑ c in range j, ∑ k in range j, L j k * (L c k * y c) := by
          apply sum_congr rfl
          intro c hc
          have hc' := mem_range.1 hc
          rw [hi c hc', ← I2 j c hj hc', sum_mul]
          exact sum_congr rfl (fun k _ => by ring)
      _ = ∑ k in range j, ∑ c in range j, L j k * (L c k * y c) := sum_comm
      _ = ∑ k in range j, L j k ^ 2 := by
          apply sum_congr rfl
          intro k hk
          rw [← mul_sum, hy k (mem_range.1 hk), sq]
  have T1 : ∑ a in range j, ∑ c in range j, y a * A a c * y c = ∑ k in range j, L j k ^ 2 := by
    calc ∑ a in range j, ∑ c in range j, y a * A a c * y c
        = ∑ a in range j, ∑ c in range j, ∑ k in range j,
            (L a k * y a) * (L c k * y c) := by
          apply sum_congr rfl
          intro a ha
          apply sum_congr rfl
          intro c hc
          rw [← I2 a c (by have := mem_range.1 ha; omega) (mem_range.1 hc), mul_sum, sum_mul]
          exact sum_congr rfl (fun k _ => by ring)
      _ = ∑ a in range j, ∑ k in range j, ∑ c in range j,
            (L a k * y a) * (L c k * y c) := by
          apply sum_congr rfl
          intro a _
          exact sum_comm
      _ = ∑ k in range j, ∑ a in range j, ∑ c in range j,
            (L a k * y a) * (L c k * y c) := sum_comm
      _ = ∑ k in range j, L j k ^ 2 := by
          apply sum_congr rfl
          intro k hk
          rw [← sum_mul_sum, hy k (mem_range.1 hk), sq]
  have hQ : ∑ i in range n, ∑ i' in range n,
      (if i < j then -y i else if i = j then 1 else 0) * A i i' *
        (if i' < j then -y i' else if i' = j then 1 else 0)
      = A j j - ∑ k in range j, L j k ^ 2 := by
    rw [r1 _ (fun i hi => by
      apply sum_eq_zero
      intro i' _
      rw [if_neg (show ¬ i < j by omega), if_neg (show ¬ i = j by omega)]; ring)]
    have inner : ∀ i, ∑ i' in range n,
        (if i < j then -y i else if i = j then 1 else 0) * A i i' *
          (if i' < j then -y i' else if i' = j then 1 else 0)
        = (if i < j then -y i else if i = j then 1 else 0) *
          (-(∑ c in range j, A i c * y c) + A i j) := by
      intro i
      rw [r1 _ (fun i' hi' => by
          rw [if_neg (show ¬ i' < j by omega), if_neg (show ¬ i' = j by omega)]; ring),
        sum_range_succ, if_neg (lt_irrefl j), if_pos rfl, mul_add, mul_neg, mul_sum, ← sum_neg_distrib]
      congr 1
      · apply sum_congr rfl
        intro c hc
        rw [if_pos (mem_range.1 hc)]; ring
      · ring
    simp only [inner]
    rw [sum_range_succ, if_neg (lt_irrefl j), if_pos rfl,
      T3 j hj (fun c _ => rfl)]
    have e1 : ∑ a in range j, (if a < j then -y a else if a = j then 1 else 0) *
        (-(∑ c in range j, A a c * y c) + A a j)
        = ∑ a in range j, ∑ c in range j, y a * A a c * y c
          - ∑ a in range j, A j a * y a := by
      rw [← sum_sub_distrib]
      apply sum_congr rfl
      intro a ha
      have ha' := mem_range.1 ha
      rw [if_pos ha', hsym a j (by omega) hj, mul_add, mul_neg, neg_mul, neg_neg, mul_sum]
      have : ∑ c in range j, y a * (A a c * y c) = ∑ c in range j, y a * A a c * y c :=
        sum_congr rfl (fun c _ => by ring)
      rw [this]; ring
    rw [e1, T1, T3 j hj (fun c _ => rfl)]
    ring
  rw [hQ] at hx
  exact hx

open Finset in
/-- The factor of the Cholesky recurrences has a positive diagonal and `L · Lᵗ = A`. -/
theorem cholesky_factor (n : Nat) (A L : Nat → Nat → ℝ) (ε : ℝ)
    (hsym : ∀ i j, i < n → j < n → A i j = A j i)
    (hpd : ∀ x : Nat → ℝ, (∃ i, i < n ∧ x i ≠ 0) →
      0 < ∑ i in range n, ∑ i' in range n, x i * A i i' * x i')
    (hup : ∀ i j, i < j → j < n → L i j = 0)
    (hdiag : ∀ j, j < n → L j j =
      if A j j - ∑ k in range j, L j k ^ 2 ≤ 0 then ε
      else Real.sqrt (A j j - ∑ k in range j, L j k ^ 2))
    (hlow : ∀ i j, j < i → i < n → L i j =
      (1 / L j j) * (A i j - ∑ k in range j, L i k * L j k)) :
    (∀ j, j < n → 0 < L j j) ∧
    ∀ i j, i < n → j < n → ∑ k in range n, L i k * L j k = A i j := by
  have hp := cholesky_pivot_pos n A L ε hsym hpd hup hdiag hlow
  have hdpos : ∀ c, c < n → 0 < L c c ∧ L c c * L c c = A c c - ∑ k in range c, L c k ^ 2 := by
    intro c hc
    have hpc := hp c hc
    rw [hdiag c hc, if_neg (not_le.2 hpc)]
    exact ⟨Real.sqrt_pos.2 hpc, Real.mul_self_sqrt hpc.le⟩
  have I1 : ∀ a c, c ≤ a → a < n → ∑ k in range n, L a k * L c k = A a c := by
    intro a c hca ha
    have hext : ∑ k in range n, L a k * L c k = ∑ k in range (c + 1), L a k * L c k := by
      symm
      apply sum_subset (range_subset.2 (by omega))
      intro k hk hk'
      have h1 := mem_range.1 hk
      have h2 : ¬ k < c + 1 := fun h => hk' (mem_range.2 h)
      rw [hup c k (by omega) (by omega)]; ring
    rw [hext, sum_range_succ]
    obtain ⟨hpos, hsq⟩ := hdpos c (by omega)
    rcases eq_or_lt_of_le hca with rfl | hlt
    · rw [hsq]
      have : ∑ k in range c, L c k * L c k = ∑ k in range c, L c k ^ 2 :=
        sum_congr rfl (fun k _ => (sq (L c k)).symm)
      rw [this]; ring
    · rw [hlow a c hlt ha]
      field_simp
  refine ⟨fun j hj => (hdpos j hj).1, ?_⟩
  intro i j hi hj
  by_cases hji : j ≤ i
  · exact I1 i j hji hi
  · push_neg at hji
    rw [hsym i j hi hj, ← I1 j i (le_of_lt hji) hj]
    exact sum_congr rfl (fun k _ => mul_comm _ _)

open Finset in
/-- Forward substitution inverts the factor: `L · Y = I`. -/
theorem forward_substitution (n : Nat) (L Y : Nat → Nat → ℝ)
    (hd : ∀ j, j < n → L j j ≠ 0)
    (hup : ∀ i j, i < j → j < n → L i j = 0)
    (hY0 : ∀ i j, i < j → j < n → Y i j = 0)
    (hY1 : ∀ i, i < n → Y i i = 1 / L i i)
    (hY2 : ∀ i j, j < i → i < n → Y i j = -(1 / L i i) * ∑ k in Ico j i, L i k * Y k j) :
    ∀ i j, i < n → j < n → ∑ k in range n, L i k * Y k j = if i = j then 1 else 0 := by
  intro i j hi hj
  have hext : ∑ k in range n, L i k * Y k j = ∑ k in Ico j (i + 1), L i k * Y k j := by
    symm
    apply sum_subset
    · intro k hk
      have := mem_Ico.1 hk
      exact mem_range.2 (by omega)
    · intro k hk hk'
      have h1 := mem_range.1 hk
      have h2 : ¬ (j ≤ k ∧ k < i + 1) := fun h => hk' (mem_Ico.2 h)
      by_cases hkj : k < j
      · rw [hY0 k j hkj hj]; ring
      · rw [hup i k (by omega) h1]; ring
  rw [hext]
  by_cases hij : i = j
  · subst hij
    rw [if_pos rfl, Nat.Ico_succ_singleton, sum_singleton, hY1 i hi]
    field_simp [hd i hi]
  · rw [if_neg hij]
    by_cases hlt : i < j
    · rw [Ico_eq_empty_of_le (by omega), sum_empty]
    · have hji : j < i := by omega
      rw [sum_Ico_succ_top (by omega), hY2 i j hji hi]
      field_simp [hd i hi]
      ring

open Finset in
/-- Back substitution: `Lᵗ · X = Y`. -/
theorem back_substitution (n : Nat) (L Y X : Nat → Nat → ℝ)
    (hd : ∀ j, j < n → L j j ≠ 0)
    (hup : ∀ i j, i < j → j < n → L i j = 0)
    (hX : ∀ i j, i < n → j < n → X i j =
      (1 / L i i) * (Y i j - ∑ k in Ico (i + 1) n, L k i * X k j)) :
    ∀ i j, i < n → j < n → ∑ k in range n, L k i * X k j = Y i j := by
  intro i j hi hj
  have hext : ∑ k in range n, L k i * X k j = ∑ k in Ico i n, L k i * X k j := by
    symm
    apply sum_subset
    · intro k hk
      have := mem_Ico.1 hk
      exact mem_range.2 (by omega)
    · intro k hk hk'
      have h1 := mem_range.1 hk
      have h2 : ¬ (i ≤ k ∧ k < n) := fun h => hk' (mem_Ico.2 h)
      rw [hup k i (by omega) hi]; ring
  rw [hext, sum_eq_sum_Ico_succ_bot hi, hX i j hi hj]
  field_simp [hd i hi]

open Finset in
/-- On a symmetric positive definite matrix `calculate_inverse` writes a right inverse. -/
theorem calculate_inverse_right (A : Matrix ℝ) (n : Nat) (X0 : Matrix ℝ)
    (hA : (A.toLin n n).PosDef) :
    A.toLin n n * (calculate_inverse Real.sqrt A n X0).toLin n n = 1 := by
  obtain ⟨hL0, hL1, hL2⟩ := calculate_inverse_L_spec Real.sqrt A n
  obtain ⟨hY0, hY1, hY2⟩ := calculate_inverse_Y_spec (calculate_inverse_L Real.sqrt A n) n
  obtain ⟨_, _, hX⟩ := calculate_inverse_X_spec (calculate_inverse_L Real.sqrt A n)
    (calculate_inverse_Y (calculate_inverse_L Real.sqrt A n) n) n X0
  set L := calculate_inverse_L Real.sqrt A n with hLdef
  set Y := calculate_inverse_Y L n with hYdef
  have hXdef : calculate_inverse Real.sqrt A n X0 = calculate_inverse_X L Y n X0 := rfl
  rw [hXdef]
  set X := calculate_inverse_X L Y n X0 with hXd
  have hsym : ∀ i j, i < n → j < n → A.get i j = A.get j i := by
    intro i j hi hj
    have := hA.1.apply ⟨i, hi⟩ ⟨j, hj⟩
    simpa [Matrix.toLin] using this.symm
  have hpd : ∀ x : Nat → ℝ, (∃ i, i < n ∧ x i ≠ 0) →
      0 < ∑ i in range n, ∑ i' in range n, x i * A.get i i' * x i' := by
    intro x ⟨i, hi, hxi⟩
    have hne : (fun k : Fin n => x k) ≠ 0 := by
      intro h
      exact hxi (by simpa using congrFun h ⟨i, hi⟩)
    have := hA.2 (fun k : Fin n => x k) hne
    simp only [Matrix.dotProduct, Matrix.mulVec, Pi.star_apply, star_trivial, Matrix.toLin,
      mul_sum] at this
    rw [sum_range]
    refine lt_of_lt_of_eq this ?_
    apply sum_congr rfl
    intro a _
    rw [sum_range]
    exact sum_congr rfl (fun b _ => by ring)
  obtain ⟨hpos, hLLt⟩ := cholesky_factor n (fun i j => A.get i j) (fun i j => L.get i j)
    epsilon_patch hsym hpd hL0 hL1 hL2
  have hd : ∀ j, j < n → L.get j j ≠ 0 := fun j hj => (hpos j hj).ne'
  have hLY := forward_substitution n (fun i j => L.get i j) (fun i j => Y.get i j) hd hL0
    hY0 hY1 hY2
  have hLtX := back_substitution n (fun i j => L.get i j) (fun i j => Y.get i j)
    (fun i j => X.get i j) hd hL0 hX
  ext i j
  rw [Matrix.mul_apply, Matrix.one_apply]
  have key : ∑ k in range n, A.get i k * X.get k j = if (i : Nat) = j then 1 else 0 := by
    rw [← hLY i j i.isLt j.isLt]
    calc ∑ k in range n, A.get i k * X.get k j
        = ∑ k in range n, ∑ m in range n, L.get i m * (L.get k m * X.get k j) := by
          apply sum_congr rfl
          intro k hk
          rw [← hLLt i k i.isLt (mem_range.1 hk), sum_mul]
          exact sum_congr rfl (fun m _ => by ring)
      _ = ∑ m in range n, ∑ k in range n, L.get i m * (L.get k m * X.get k j) := sum_comm
      _ = ∑ m in range n, L.get i m * Y.get m j := by
          apply sum_congr rfl
          intro m hm
          rw [← mul_sum, hLtX m j (mem_range.1 hm) j.isLt]
  rw [sum_range] at key
  simp only [Matrix.toLin]
  rw [key]
  simp only [Fin.ext_iff]

/-- C6: for every symmetric positive definite n×n matrix `A` (exact real arithmetic, the
claim's `n ≥ 1` included), the matrix `X` written by `calculate_inverse(A, n, X)` satisfies
`A · X = I` and `X · A = I`. -/
theorem C6_calculate_inverse_is_inverse (A : Matrix ℝ) (n : Nat) (X0 : Matrix ℝ)
    (hA : (A.toLin n n).PosDef) :
    A.toLin n n * (calculate_inverse Real.sqrt A n X0).toLin n n = 1 ∧
    (calculate_inverse Real.sqrt A n X0).toLin n n * A.toLin n n = 1 := by
  have h := calculate_inverse_right A n X0 hA
  exact ⟨h, Matrix.mul_eq_one_comm.1 h⟩

/-- The matrix `example_spd` is symmetric positive definite over the reals. -/
theorem example_spd_posDef : ((example_spd ℝ).toLin 2 2).PosDef := by
  refine ⟨?_, ?_⟩
  · ext i j
    fin_cases i <;> fin_cases j <;> simp [Matrix.toLin, example_spd, Matrix.get]
  · intro x hx
    have hne : x 0 ≠ 0 ∨ x 1 ≠ 0 := by
      by_contra h
      push_neg at h
      apply hx
      funext i
      fin_cases i
      · exact h.1
      · exact h.2
    simp only [Matrix.dotProduct, Matrix.mulVec, Fin.sum_univ_two, Pi.star_apply, star_trivial,
      Matrix.toLin, example_spd, Matrix.get]
    simp only [Fin.val_zero, Fin.val_one, if_true]
    norm_num
    rcases hne with h | h
    · have := sq_pos_of_ne_zero h
      nlinarith [sq_nonneg (x 0 + x 1), sq_nonneg (x 1)]
    · have := sq_pos_of_ne_zero h
      nlinarith [sq_nonneg (x 0 + x 1), sq_nonneg (x 0)]

/-- The Cholesky inverse of `example_spd` over the reals. -/
theorem C6_calculate_inverse_is_inverse_witness :
    (example_spd ℝ).toLin 2 2 *
        (calculate_inverse Real.sqrt (example_spd ℝ) 2 (Matrix.create 2 2)).toLin 2 2 = 1 ∧
    (calculate_inverse Real.sqrt (example_spd ℝ) 2 (Matrix.create 2 2)).toLin 2 2 *
        (example_spd ℝ).toLin 2 2 = 1 :=
  C6_calculate_inverse_is_inverse (example_spd ℝ) 2 (Matrix.create 2 2) example_spd_posDef

/-- C7: for every real symmetric positive definite n×n matrix `K` and length-n vector `b`
(exact real arithmetic), the vector written by `solve_system` satisfies `K · X = b`. -/
theorem C7_solve_system_solves (K : Matrix ℝ) (b T0 : Vector ℝ)
    (hK : (K.toLin K.nrows K.nrows).PosDef) :
    (K.toLin K.nrows K.nrows).mulVec ((solve_system Real.sqrt K b T0).toLin K.nrows)
      = b.toLin K.nrows := by
  have hinv := calculate_inverse_right K K.nrows (Matrix.create K.nrows K.nrows) hK
  have hT : (solve_system Real.sqrt K b T0).toLin K.nrows =
      ((calculate_inverse Real.sqrt K K.nrows (Matrix.create K.nrows K.nrows)).toLin
        K.nrows K.nrows).mulVec (b.toLin K.nrows) := by
    funext i
    simp only [solve_system, Matrix.get_nrows_eq, Vector.toLin,
      (product_matrix_by_vector_spec _ b K.nrows K.nrows T0).2, i.isLt, if_true,
      Matrix.mulVec, Matrix.dotProduct, Matrix.toLin]
    rw [Finset.sum_range]
  rw [hT, Matrix.mulVec_mulVec, hinv, Matrix.one_mulVec]

/-- The solution of the system of `example_spd` and `example_rhs` over the reals. -/
theorem C7_solve_system_solves_witness :
    ((example_spd ℝ).toLin (example_spd ℝ).nrows (example_spd ℝ).nrows).mulVec
        ((solve_system Real.sqrt (example_spd ℝ) (example_rhs ℝ) (Vector.create 2)).toLin
          (example_spd ℝ).nrows)
      = (example_rhs ℝ).toLin (example_spd ℝ).nrows :=
  C7_solve_system_solves (example_spd ℝ) (example_rhs ℝ) (Vector.create 2) example_spd_posDef

section geometry_claims

variable [LinearOrderedField α]

/-- The volume is a sixth of the absolute value of the Jacobian determinant. -/
theorem volume_eq_abs_jacobian (x1 y1 z1 x2 y2 z2 x3 y3 z3 x4 y4 z4 : α) :
    calculate_local_volume x1 y1 z1 x2 y2 z2 x3 y3 z3 x4 y4 z4 =
      (1 / 6) * |calculate_local_jacobian x1 y1 z1 x2 y2 z2 x3 y3 z3 x4 y4 z4| := by
  rw [calculate_local_volume_eq, calculate_local_jacobian_eq]
  congr 2
  ring

theorem element_volume_eq (e : Element α) : e.volume = (1 / 6) * |e.jacobian| :=
  volume_eq_abs_jacobian _ _ _ _ _ _ _ _ _ _ _ _

theorem element_volume_zero_iff (e : Element α) : e.volume = 0 ↔ e.jacobian = 0 := by
  rw [element_volume_eq]
  constructor
  · intro h
    have h6 : (1 / 6 : α) ≠ 0 := by norm_num
    rcases mul_eq_zero.1 h with h | h
    · exact absurd h h6
    · exact abs_eq_zero.1 h
  · intro h
    rw [h]; simp

/-- C12: for all node coordinates (exact arithmetic), `calculate_local_volume` returns
`(1/6) · |calculate_local_jacobian|` for the same coordinates (the volume code fills the
edge vectors as rows, the Jacobian code as columns), and therefore is always `≥ 0`. -/
theorem C12_volume_is_sixth_of_abs_jacobian (x1 y1 z1 x2 y2 z2 x3 y3 z3 x4 y4 z4 : α) :
    calculate_local_volume x1 y1 z1 x2 y2 z2 x3 y3 z3 x4 y4 z4 =
      (1 / 6) * |calculate_local_jacobian x1 y1 z1 x2 y2 z2 x3 y3 z3 x4 y4 z4| ∧
    0 ≤ calculate_local_volume x1 y1 z1 x2 y2 z2 x3 y3 z3 x4 y4 z4 := by
  have h := volume_eq_abs_jacobian x1 y1 z1 x2 y2 z2 x3 y3 z3 x4 y4 z4
  refine ⟨h, ?_⟩
  rw [h]
  exact mul_nonneg (by norm_num) (abs_nonneg _)

/-- The entries `create_local_b` writes. -/
theorem create_local_b_spec (b : Vector α) (element_id : Nat) (M : Mesh α) :
    (create_local_b b element_id M).size = 4 ∧
    ∀ i, (create_local_b b element_id M).get i =
      if i < 4 then
        M.get_problem_data parameter.HEAT_SOURCE * (M.get_element element_id).jacobian / 24
      else b.get i := by
  refine ⟨rfl, ?_⟩
  intro i
  simp only [create_local_b, Vector.vget_set, Element.jacobian]
  by_cases h3 : i = 3
  · subst h3; simp
  by_cases h2 : i = 2
  · subst h2; simp
  by_cases h1 : i = 1
  · subst h1; simp
  by_cases h0 : i = 0
  · subst h0; simp
  · have : ¬ i < 4 := by omega
    simp [h0, h1, h2, h3, this, Vector.set_size, Vector.get]

/-- C13 (amended): for every element, `create_local_b` returns a length-4 vector whose four
entries all equal `Q · J / 24`, where `Q` is the source constant and `J` is the determinant
returned by `calculate_local_jacobian`; no epsilon is substituted, so the entries are 0
when that determinant is zero. -/
theorem C13_create_local_b_entries (b : Vector α) (element_id : Nat) (M : Mesh α) :
    (create_local_b b element_id M).size = 4 ∧
    (∀ a : Fin 4, (create_local_b b element_id M).get a =
      M.get_problem_data parameter.HEAT_SOURCE * (M.get_element element_id).jacobian / 24) ∧
    ((M.get_element element_id).jacobian = 0 →
      ∀ a : Fin 4, (create_local_b b element_id M).get a = 0) := by
  obtain ⟨h1, h2⟩ := create_local_b_spec b element_id M
  refine ⟨h1, fun a => by rw [h2, if_pos a.isLt], fun hJ a => ?_⟩
  rw [h2, if_pos a.isLt, hJ]
  simp

end geometry_claims

theorem coplanar_jacobian_zero : (coplanar_mesh.get_element 0).jacobian = 0 := by
  simp [Element.jacobian, calculate_local_jacobian_eq, coplanar_mesh, Mesh.get_element,
    Element.get_node1, Element.get_node2, Element.get_node3, Element.get_node4,
    Node.get_x_coordinate, Node.get_y_coordinate, Node.get_z_coordinate]

/-- C13, counterexample: on an element whose Jacobian determinant is zero (source constant
24) the entries of `create_local_b` are 0, not `Q · ε / 24` for the substitute `ε` (neither
the 1e-6 of the specification nor the 0.000006 of `create_local_K`). -/
theorem C13_create_local_b_no_substitute :
    (coplanar_mesh.get_element 0).jacobian = 0 ∧
    ¬ ((create_local_b (Vector.create 0) 0 coplanar_mesh).get 0 =
        coplanar_mesh.get_problem_data parameter.HEAT_SOURCE *
          (if (coplanar_mesh.get_element 0).jacobian = 0 then 1 / 1000000
            else (coplanar_mesh.get_element 0).jacobian) / 24) ∧
    ¬ ((create_local_b (Vector.create 0) 0 coplanar_mesh).get 0 =
        coplanar_mesh.get_problem_data parameter.HEAT_SOURCE *
          (if (coplanar_mesh.get_element 0).jacobian = 0 then epsilon_patch
            else (coplanar_mesh.get_element 0).jacobian) / 24) := by
  have hJ := coplanar_jacobian_zero
  have hb : (create_local_b (Vector.create 0) 0 coplanar_mesh).get 0 = 0 := by
    rw [(create_local_b_spec _ _ _).2, if_pos (by norm_num), hJ]
    simp
  have hQ : coplanar_mesh.get_problem_data parameter.HEAT_SOURCE = 24 := rfl
  refine ⟨hJ, ?_, ?_⟩
  · rw [hb, if_pos hJ, hQ]; norm_num
  · rw [hb, if_pos hJ, hQ]; norm_num [epsilon_patch]

section epsilon_claims

variable [LinearOrderedField α]

/-- C15 (amended): for every n×n matrix `A` and every index `j`, `calculate_inverse` computes
the diagonal factor `L[j][j]` without failing: it is the literal 0.000006 when the pivot
`A[j][j] − Σ_{k<j} L[j][k]²` is `≤ 0` and the square root of the pivot when the pivot is
positive. -/
theorem C15_cholesky_degenerate_pivot (sqrt : α → α) (A : Matrix α) (n : Nat) (j : Fin n) :
    (A.get j j - ∑ k in Finset.range j, (calculate_inverse_L sqrt A n).get j k ^ 2 ≤ 0 →
      (calculate_inverse_L sqrt A n).get j j = 6 / 1000000) ∧
    (0 < A.get j j - ∑ k in Finset.range j, (calculate_inverse_L sqrt A n).get j k ^ 2 →
      (calculate_inverse_L sqrt A n).get j j =
        sqrt (A.get j j - ∑ k in Finset.range j, (calculate_inverse_L sqrt A n).get j k ^ 2)) := by
  obtain ⟨_, h, _⟩ := calculate_inverse_L_spec sqrt A n
  have hj := h j j.isLt
  constructor
  · intro hp
    rw [hj, if_pos hp]
    rfl
  · intro hp
    rw [hj, if_neg (not_le.2 hp)]

end epsilon_claims

theorem coplanar_volume_zero : (coplanar_mesh.get_element 0).volume = 0 :=
  (element_volume_zero_iff _).2 coplanar_jacobian_zero

theorem coplanar_local_A :
    ((coplanar_mesh.get_element 0).local_A).toLin 3 3 = !![0, 0, 1; 0, 1, -1; 0, 0, 1] := by
  funext i j
  fin_cases i <;> fin_cases j <;>
    simp [Element.local_A, calculate_local_A, coplanar_mesh, Mesh.get_element, Matrix.toLin,
      Element.get_node1, Element.get_node2, Element.get_node3, Element.get_node4,
      Node.get_x_coordinate, Node.get_y_coordinate, Node.get_z_coordinate, Matrix.vecHead,
      Matrix.vecTail]

theorem coplanar_matrix_part :
    (((calculate_B (Matrix.create 3 4 : Matrix ℚ)).toLin 3 4).transpose *
      ((((coplanar_mesh.get_element 0).local_A).toLin 3 3).transpose *
        (((coplanar_mesh.get_element 0).local_A).toLin 3 3 *
          (calculate_B (Matrix.create 3 4 : Matrix ℚ)).toLin 3 4))) 0 0 = 2 := by
  rw [coplanar_local_A, calculate_B_toLin]
  simp [Matrix.mul_apply, Fin.sum_univ_three, Matrix.vecHead, Matrix.vecTail]
  norm_num

/-- C14, counterexample: on the coplanar element (Jacobian determinant and volume exactly
zero, `k = 3`) the matrix returned by `create_local_K` is not the one the prefactor
`k·V/J²` gives with `J = V = 1e-6`: its entry (0, 0) is 1000000, not 6000000. -/
theorem C14_epsilon_is_not_1e6 :
    (coplanar_mesh.get_element 0).jacobian = 0 ∧ (coplanar_mesh.get_element 0).volume = 0 ∧
    ∃ K, create_local_K (Matrix.create 0 0) 0 coplanar_mesh = some K ∧
      K.get 0 0 = 1000000 ∧
      K.toLin 4 4 ≠
        (coplanar_mesh.get_problem_data parameter.THERMAL_CONDUCTIVITY * (1 / 1000000)
          / (1 / 1000000) ^ 2) •
        (((calculate_B (Matrix.create 3 4 : Matrix ℚ)).toLin 3 4).transpose *
          ((((coplanar_mesh.get_element 0).local_A).toLin 3 3).transpose *
            (((coplanar_mesh.get_element 0).local_A).toLin 3 3 *
              (calculate_B (Matrix.create 3 4 : Matrix ℚ)).toLin 3 4))) := by
  refine ⟨coplanar_jacobian_zero, coplanar_volume_zero, ?_⟩
  obtain ⟨K, h1, _, _, h4⟩ := create_local_K_eq (Matrix.create 0 0) 0 coplanar_mesh
  have hk : coplanar_mesh.get_problem_data parameter.THERMAL_CONDUCTIVITY = 3 := rfl
  have h00 : K.toLin 4 4 0 0 = 1000000 := by
    rw [h4, if_pos coplanar_jacobian_zero, if_pos coplanar_volume_zero, Matrix.smul_apply,
      coplanar_matrix_part, hk]
    norm_num [epsilon_patch]
  refine ⟨K, h1, h00, ?_⟩
  intro heq
  have h := congrFun (congrFun heq 0) 0
  rw [h00, Matrix.smul_apply, coplanar_matrix_part, hk] at h
  norm_num at h

/-- C15, counterexample: on the 1×1 zero matrix the pivot is 0 and the diagonal factor is
0.000006, not 1e-6. -/
theorem C15_epsilon_is_not_1e6 :
    example_singular.get 0 0
        - ∑ k in Finset.range 0, (calculate_inverse_L id example_singular 1).get 0 k ^ 2 ≤ 0 ∧
    (calculate_inverse_L id example_singular 1).get 0 0 = 6 / 1000000 ∧
    (calculate_inverse_L id example_singular 1).get 0 0 ≠ 1 / 1000000 := by
  obtain ⟨_, h, _⟩ := calculate_inverse_L_spec id example_singular 1
  have hp : example_singular.get 0 0
      - ∑ k in Finset.range 0, (calculate_inverse_L id example_singular 1).get 0 k ^ 2 ≤ 0 := by
    simp [example_singular, Matrix.get]
  have h0 := h 0 (by norm_num)
  rw [if_pos hp] at h0
  refine ⟨hp, ?_, ?_⟩
  · rw [h0]; rfl
  · rw [h0]; norm_num [epsilon_patch]

section product_claims

variable [LinearOrderedField α]

/-- The two models of `product_matrix_by_matrix` agree. -/
theorem product_matrix_by_matrix_run_eq (A B R : Matrix α) :
    product_matrix_by_matrix A B R =
      if (product_matrix_by_matrix_run A B R).2 then some (product_matrix_by_matrix_run A B R).1
      else none := by
  simp only [product_matrix_by_matrix, product_matrix_by_matrix_run]
  by_cases h : A.ncols = B.nrows
  · simp [h]
  · simp [h]

/-- C17: for all matrices `A` (n×m) and `B` (p×q), `product_matrix_by_matrix(A, B, R)` fails
(the dimension-mismatch exit) if and only if `m ≠ p`, and when it fails `R` is left
unmodified. -/
theorem C17_product_rejects_mismatch (A B R : Matrix α) :
    (product_matrix_by_matrix A B R = none ↔ A.get_ncols ≠ B.get_nrows) ∧
    ((product_matrix_by_matrix_run A B R).2 = false ↔ A.get_ncols ≠ B.get_nrows) ∧
    (A.get_ncols ≠ B.get_nrows → (product_matrix_by_matrix_run A B R).1 = R) := by
  refine ⟨?_, ?_, ?_⟩
  · by_cases h : A.ncols = B.nrows
    · simp [product_matrix_by_matrix, h]
    · simp [product_matrix_by_matrix, h]
  · by_cases h : A.ncols = B.nrows
    · simp [product_matrix_by_matrix_run, h]
    · simp [product_matrix_by_matrix_run, h]
  · intro h
    have h' : ¬ A.ncols = B.nrows := h
    simp [product_matrix_by_matrix_run, h']

/-- C18: for all matrices `A` (n×m) and `B` (m×q) and any prior size and contents of `R`,
`product_matrix_by_matrix(A, B, R)` leaves `R` of size n×q with
`R[r][c] = Σ_{i<m} A[r][i] · B[i][c]` for every `r < n` and `c < q`. -/
theorem C18_product_value (A B R : Matrix α) (h : A.get_ncols = B.get_nrows) :
    ∃ P, product_matrix_by_matrix A B R = some P ∧
      P.get_nrows = A.get_nrows ∧ P.get_ncols = B.get_ncols ∧
      ∀ (r : Fin A.get_nrows) (c : Fin B.get_ncols),
        P.get r c = ∑ i in Finset.range A.get_ncols, A.get r i * B.get i c := by
  obtain ⟨P, h1, h2, h3, h4⟩ := product_matrix_by_matrix_spec A B R h
  refine ⟨P, h1, h2, h3, ?_⟩
  intro r c
  rw [h4, if_pos ⟨r.isLt, c.isLt⟩]
  rfl

end product_claims

/-- The product of `example_23` by `example_32`, written over a 5×5 matrix of other
contents. -/
theorem C18_product_value_witness :
    ∃ P, product_matrix_by_matrix example_23 example_32 (example_K.set_size 5 5) = some P ∧
      P.get_nrows = 2 ∧ P.get_ncols = 2 ∧
      P.get 0 0 = 58 ∧ P.get 0 1 = 64 ∧ P.get 1 0 = 139 ∧ P.get 1 1 = 154 := by
  obtain ⟨P, h1, h2, h3, h4⟩ :=
    C18_product_value example_23 example_32 (example_K.set_size 5 5) rfl
  refine ⟨P, h1, h2, h3, ?_, ?_, ?_, ?_⟩
  · have := h4 ⟨0, by decide⟩ ⟨0, by decide⟩
    rw [this]
    norm_num [Finset.sum_range_succ, example_23, example_32, Matrix.get, Matrix.get_ncols]
  · have := h4 ⟨0, by decide⟩ ⟨1, by decide⟩
    rw [this]
    norm_num [Finset.sum_range_succ, example_23, example_32, Matrix.get, Matrix.get_ncols]
  · have := h4 ⟨1, by decide⟩ ⟨0, by decide⟩
    rw [this]
    norm_num [Finset.sum_range_succ, example_23, example_32, Matrix.get, Matrix.get_ncols]
  · have := h4 ⟨1, by decide⟩ ⟨1, by decide⟩
    rw [this]
    norm_num [Finset.sum_range_succ, example_23, example_32, Matrix.get, Matrix.get_ncols]

/-- C19, failing input: with `n = 1` row and `m = 2` columns the loop over the columns
stops at `n`, so `R[0]` is `M[0][0] · V[0] = 1` whereas `Σ_{c<m} M[0][c] · V[c] = 2`. -/
theorem C19_matrix_vector_inner_bound :
    (product_matrix_by_vector example_row example_ones 1 2 (Vector.create 1)).get 0 = 1 ∧
    ∑ c in Finset.range 2, example_row.get 0 c * example_ones.get c = 2 ∧
    (product_matrix_by_vector example_row example_ones 1 2 (Vector.create 1)).get 0 ≠
      ∑ c in Finset.range 2, example_row.get 0 c * example_ones.get c := by
  have h1 : (product_matrix_by_vector example_row example_ones 1 2 (Vector.create 1)).get 0
      = 1 := by
    rw [(product_matrix_by_vector_spec _ _ _ _ _).2, if_pos (by norm_num)]
    norm_num [Finset.sum_range_succ, example_row, example_ones, Matrix.get, Vector.get]
  have h2 : ∑ c in Finset.range 2, example_row.get 0 c * example_ones.get c = 2 := by
    norm_num [Finset.sum_range_succ, example_row, example_ones, Matrix.get, Vector.get]
  refine ⟨h1, h2, ?_⟩
  rw [h1, h2]
  norm_num

theorem get_clone (M other : Matrix α) (r c : Nat) :
    (M.clone other).get r c =
      if r < M.nrows ∧ c < M.ncols then M.get r c else other.get r c := rfl

theorem nrows_clone (M other : Matrix α) : (M.clone other).nrows = other.nrows := rfl

theorem ncols_clone (M other : Matrix α) : (M.clone other).ncols = other.ncols := rfl

section determinant_claims

variable [LinearOrderedField α]

theorem determinant_one (M : Matrix α) (h : M.ncols = 1) : determinant M = M.get 0 0 := by
  rw [determinant]
  split <;> simp_all

theorem determinant_two (M : Matrix α) (h : M.ncols = 2) :
    determinant M = M.get 0 0 * M.get 1 1 - M.get 0 1 * M.get 1 0 := by
  rw [determinant]
  split <;> simp_all

/-- The expansion of `determinant_auxiliar` along the first row. -/
theorem determinant_expand (M : Matrix α) (k : Nat) (h : M.ncols = k + 4) :
    determinant M = ∑ c in Finset.range (k + 4), (-1) ^ c * M.get 0 c *
      determinant (((M.clone (Matrix.create (k + 4) (k + 4))).remove_row 0).remove_column c) := by
  rw [determinant]
  split
  · simp_all
  · simp_all
  · simp_all
  · simp_all
  · rename_i n hn
    have hk : n = k := by
      simp only [Matrix.get_ncols_eq] at hn
      omega
    subst hk
    exact for_loop_sum _ _

/-- The function `determinant` computes the determinant of a square matrix with
at least one row. -/
theorem determinant_eq_det (n : Nat) (hn : 1 ≤ n) :
    ∀ M : Matrix α, M.nrows = n → M.ncols = n → determinant M = (M.toLin n n).det := by
  induction n with
  | zero => omega
  | succ n ih =>
    intro M hr hc
    match n, ih, hr, hc with
    | 0, _, _, hc =>
      rw [determinant_one M hc, Matrix.det_fin_one]
      rfl
    | 1, _, _, hc =>
      rw [determinant_two M hc, Matrix.det_fin_two]
      rfl
    | 2, _, _, hc =>
      rw [determinant_three M hc, Matrix.det_fin_three]
      rfl
    | k + 3, ih, hr, hc =>
      rw [determinant_expand M k hc, Matrix.det_succ_row_zero, Finset.sum_range]
      apply Finset.sum_congr rfl
      intro c _
      rw [ih (by omega) _ (by simp [nrows_clone]) (by simp [ncols_clone])]
      congr 1
      congr 1
      funext i j
      simp only [Matrix.toLin, Matrix.submatrix_apply, Matrix.get_remove_column,
        Matrix.get_remove_row, get_clone, Fin.val_succ, Nat.not_lt_zero, if_false]
      have hi : (i : Nat) + 1 < M.nrows := by rw [hr]; omega
      by_cases hjc : (j : Nat) < (c : Nat)
      · have hj : (j : Nat) < M.ncols := by rw [hc]; omega
        have e : (c.succAbove j : Fin (k + 3 + 1)) = j.castSucc :=
          Fin.succAbove_of_castSucc_lt _ _ (by simpa [Fin.lt_def] using hjc)
        rw [if_pos hjc, if_pos ⟨hi, hj⟩, e]
        rfl
      · have hj : (j : Nat) + 1 < M.ncols := by rw [hc]; omega
        have e : (c.succAbove j : Fin (k + 3 + 1)) = j.succ :=
          Fin.succAbove_of_le_castSucc _ _ (by simpa [Fin.le_def] using not_lt.1 hjc)
        rw [if_neg hjc, if_pos ⟨hi, hj⟩, e]
        rfl

/-- C16: for every `n ≥ 1` and every n×n matrix `M` (exact arithmetic), `determinant(M)` is
the determinant of `M` (closed forms for n = 1, 2, 3, expansion along the first row for
n ≥ 4); in particular every 3×3 matrix with a duplicated row gives 0. -/
theorem C16_determinant_is_det (n : Nat) (M : Matrix α) (hn : 1 ≤ n) (hr : M.nrows = n)
    (hc : M.ncols = n) :
    determinant M = (M.toLin n n).det ∧
    (n = 3 → ∀ i i' : Fin n, i ≠ i' → (∀ c : Fin n, M.get i c = M.get i' c) →
      determinant M = 0) := by
  have h := determinant_eq_det n hn M hr hc
  refine ⟨h, ?_⟩
  intro _ i i' hne hrow
  rw [h]
  exact Matrix.det_zero_of_row_eq hne (funext hrow)

end determinant_claims

/-- The determinant of the 3×3 identity scaled by 2 is 8 and that of a 3×3 matrix with
a duplicated row is 0. -/
theorem C16_determinant_is_det_witness :
    determinant example_2I = 8 ∧ determinant example_dup = 0 := by
  constructor
  · rw [(C16_determinant_is_det 3 example_2I (by decide) rfl rfl).1, Matrix.det_fin_three]
    norm_num [Matrix.toLin, example_2I, Matrix.get]
  · exact (C16_determinant_is_det 3 example_dup (by decide) rfl rfl).2 rfl 0 2 (by decide)
      (by
        intro c
        fin_cases c <;> norm_num [example_dup, Matrix.get])

section neumann_claims

variable [LinearOrderedField α]

/-- State of the Neumann loop after `k` conditions. -/
theorem apply_neumann_steps (b : Vector α) (M : Mesh α) (n : Nat) (hb : b.size = n)
    (hids : ∀ c, c < M.get_quantity quantity.NUM_NEUMANN →
      1 ≤ M.neumann_id c ∧ M.neumann_id c ≤ (n : Int))
    (k : Nat) (hk : k ≤ M.get_quantity quantity.NUM_NEUMANN) :
    ∃ b', for_loop_opt k (fun c (b : Vector α) =>
        b.add_at (M.get_neumann_condition c).get_value
          ((M.get_neumann_condition c).get_node.get_ID - 1)) b = some b' ∧
      b'.size = n ∧
      ∀ i : Nat, b'.get i = b.get i +
        ∑ c in Finset.range k,
          if M.neumann_id c = (i : Int) + 1 then (M.get_neumann_condition c).get_value else 0 := by
  induction k with
  | zero => exact ⟨b, rfl, hb, by simp⟩
  | succ k ih =>
    obtain ⟨b1, e1, d1, g1⟩ := ih (by omega)
    have hid := hids k (by omega)
    have hid' : M.neumann_id k = (M.get_neumann_condition k).get_node.get_ID := rfl
    refine ⟨b1.add (M.get_neumann_condition k).get_value
      ((M.get_neumann_condition k).get_node.get_ID - 1).toNat, ?_, by simpa using d1, ?_⟩
    · rw [for_loop_opt_succ, e1, Option.some_bind]
      exact vector_add_at_eq b1 _ _ (by omega) (by rw [d1]; omega)
    · intro i
      rw [Vector.vget_add, Finset.sum_range_succ, ← add_assoc, ← g1 i]
      by_cases hc : M.neumann_id k = (i : Int) + 1
      · have e : ((M.get_neumann_condition k).get_node.get_ID - 1).toNat = i := by omega
        rw [if_pos e.symm, if_pos hc, e]
      · rw [if_neg (fun h => hc (by omega)), if_neg hc, add_zero]

/-- C20: for every vector `b` of size `n` and every Neumann list with node identifiers in
`1 .. n`, after `apply_neumann_boundary_conditions` each entry `b[i]` equals its previous
value plus the sum of the values of all Neumann conditions attached to node `i + 1`; the
entries of nodes with no Neumann condition are unchanged. -/
theorem C20_neumann_additive (b : Vector α) (M : Mesh α) (n : Nat) (hb : b.size = n)
    (hids : ∀ c, c < M.get_quantity quantity.NUM_NEUMANN →
      1 ≤ M.neumann_id c ∧ M.neumann_id c ≤ (n : Int)) :
    ∃ b', apply_neumann_boundary_conditions b M = some b' ∧ b'.size = n ∧
      (∀ i : Nat, b'.get i = b.get i +
        ∑ c in Finset.range (M.get_quantity quantity.NUM_NEUMANN),
          if M.neumann_id c = (i : Int) + 1 then (M.get_neumann_condition c).get_value
          else 0) ∧
      (∀ i : Nat, (∀ c, c < M.get_quantity quantity.NUM_NEUMANN → M.neumann_id c ≠ (i : Int) + 1) →
        b'.get i = b.get i) := by
  obtain ⟨b', e, d, g⟩ := apply_neumann_steps b M n hb hids _ (le_refl _)
  refine ⟨b', e, d, g, ?_⟩
  intro i hno
  rw [g, Finset.sum_eq_zero, add_zero]
  intro c hc
  rw [if_neg (hno c (Finset.mem_range.1 hc))]

end neumann_claims

/-- On `example_mesh` (one Neumann condition of value 1 on node 3) the entry of node 3
grows by 1 and the entry of node 1 is unchanged. -/
theorem C20_neumann_additive_witness :
    ∃ b', apply_neumann_boundary_conditions example_b example_mesh = some b' ∧
      b'.get 2 = example_b.get 2 + 1 ∧ b'.get 0 = example_b.get 0 := by
  have hids : ∀ c, c < example_mesh.get_quantity quantity.NUM_NEUMANN →
      1 ≤ example_mesh.neumann_id c ∧ example_mesh.neumann_id c ≤ ((4 : Nat) : Int) := by
    intro c _
    have h3 : example_mesh.neumann_id c = 3 := rfl
    rw [h3]
    decide
  obtain ⟨b', e, _, g, f⟩ := C20_neumann_additive example_b example_mesh 4 rfl hids
  refine ⟨b', e, ?_, ?_⟩
  · rw [g 2]
    have hq : example_mesh.get_quantity quantity.NUM_NEUMANN = 1 := rfl
    rw [hq, Finset.sum_range_one, if_pos (by decide)]
    rfl
  · apply f 0
    intro c _
    have h3 : example_mesh.neumann_id c = 3 := rfl
    rw [h3]
    decide

section jacobian_matrix_lemmas

variable [LinearOrderedField α]

theorem calculate_local_jacobian_eq_determinant (x1 y1 z1 x2 y2 z2 x3 y3 z3 x4 y4 z4 : α) :
    calculate_local_jacobian x1 y1 z1 x2 y2 z2 x3 y3 z3 x4 y4 z4 =
      determinant (local_jacobian_matrix x1 y1 z1 x2 y2 z2 x3 y3 z3 x4 y4 z4) := rfl

/-- The six entries of `calculate_local_A` that are cofactors of the Jacobian matrix. -/
theorem calculate_local_A_cofactors (A0 : Matrix α) (x1 y1 z1 x2 y2 z2 x3 y3 z3 x4 y4 z4 : α) :
    ∀ i j : Fin 3, (i, j) ≠ (0, 2) → (i, j) ≠ (1, 1) → (i, j) ≠ (1, 2) →
      (calculate_local_A A0 x1 y1 z1 x2 y2 z2 x3 y3 z3 x4 y4 z4).toLin 3 3 i j =
        ((local_jacobian_matrix x1 y1 z1 x2 y2 z2 x3 y3 z3 x4 y4 z4).toLin 3 3).adjugate i j := by
  intro i j h1 h2 h3
  rw [Matrix.adjugate_fin_three]
  fin_cases i <;> fin_cases j <;>
    first
    | (exfalso; first | exact h1 rfl | exact h2 rfl | exact h3 rfl)
    | (simp [calculate_local_A, local_jacobian_matrix, Matrix.toLin, Matrix.vecHead,
        Matrix.vecTail]
       try ring)

end jacobian_matrix_lemmas

/-- C11, failing input: on the nodes (0,0,0), (1,0,0), (0,1,0), (0,0,1) the Jacobian matrix
is the identity, whose adjugate is the identity, but `calculate_local_A` writes
`[[1,0,1],[0,0,-1],[0,0,1]]`: the entries (0,2), (1,1) and (1,2) are not the cofactors and
`A · Jm` is not `det(Jm) · I`. -/
theorem C11_local_A_not_adjugate :
    (local_jacobian_matrix (0 : ℚ) 0 0 1 0 0 0 1 0 0 0 1).toLin 3 3 = 1 ∧
    ((local_jacobian_matrix (0 : ℚ) 0 0 1 0 0 0 1 0 0 0 1).toLin 3 3).adjugate = 1 ∧
    (calculate_local_A (Matrix.create 3 3) (0 : ℚ) 0 0 1 0 0 0 1 0 0 0 1).toLin 3 3
      = !![1, 0, 1; 0, 0, -1; 0, 0, 1] ∧
    (calculate_local_A (Matrix.create 3 3) (0 : ℚ) 0 0 1 0 0 0 1 0 0 0 1).toLin 3 3
      ≠ ((local_jacobian_matrix (0 : ℚ) 0 0 1 0 0 0 1 0 0 0 1).toLin 3 3).adjugate ∧
    (calculate_local_A (Matrix.create 3 3) (0 : ℚ) 0 0 1 0 0 0 1 0 0 0 1).toLin 3 3
        * (local_jacobian_matrix (0 : ℚ) 0 0 1 0 0 0 1 0 0 0 1).toLin 3 3
      ≠ ((local_jacobian_matrix (0 : ℚ) 0 0 1 0 0 0 1 0 0 0 1).toLin 3 3).det • 1 := by
  have hJ : (local_jacobian_matrix (0 : ℚ) 0 0 1 0 0 0 1 0 0 0 1).toLin 3 3 = 1 := by
    funext i j
    fin_cases i <;> fin_cases j <;> simp [local_jacobian_matrix, Matrix.toLin]
  have hA : (calculate_local_A (Matrix.create 3 3) (0 : ℚ) 0 0 1 0 0 0 1 0 0 0 1).toLin 3 3
      = !![1, 0, 1; 0, 0, -1; 0, 0, 1] := by
    funext i j
    fin_cases i <;> fin_cases j <;>
      simp [calculate_local_A, Matrix.toLin, Matrix.vecHead, Matrix.vecTail]
  have hne : (!![1, 0, 1; 0, 0, -1; 0, 0, 1] : LinMatrix (Fin 3) (Fin 3) ℚ) ≠ 1 := by
    intro h
    have := congrFun (congrFun h 1) 1
    simp at this
  refine ⟨hJ, ?_, hA, ?_, ?_⟩
  · rw [hJ, Matrix.adjugate_one]
  · rw [hJ, Matrix.adjugate_one, hA]
    exact hne
  · rw [hJ, Matrix.det_one, one_smul, Matrix.mul_one, hA]
    exact hne

/-- On the coplanar element (Jacobian determinant 0) the load vector has length 4 and its
entries are `Q · 0 / 24 = 0`. -/
theorem C13_create_local_b_entries_witness :
    (create_local_b (Vector.create 0) 0 coplanar_mesh).size = 4 ∧
    (create_local_b (Vector.create 0) 0 coplanar_mesh).get 0 = 0 ∧
    (create_local_b (Vector.create 0) 0 coplanar_mesh).get 3 = 0 :=
  ⟨(C13_create_local_b_entries (Vector.create 0) 0 coplanar_mesh).1,
    (C13_create_local_b_entries (Vector.create 0) 0 coplanar_mesh).2.2
      coplanar_jacobian_zero ⟨0, by decide⟩,
    (C13_create_local_b_entries (Vector.create 0) 0 coplanar_mesh).2.2
      coplanar_jacobian_zero ⟨3, by decide⟩⟩

/-- On the 1×1 zero matrix the pivot is 0 and the diagonal factor is 0.000006; on
`example_spd` over the reals the first pivot is 2 and the diagonal factor is `√2`. -/
theorem C15_cholesky_degenerate_pivot_witness :
    (calculate_inverse_L id example_singular 1).get 0 0 = 6 / 1000000 ∧
    (calculate_inverse_L Real.sqrt (example_spd ℝ) 2).get 0 0 = Real.sqrt 2 := by
  constructor
  · exact (C15_cholesky_degenerate_pivot id example_singular 1 ⟨0, by decide⟩).1
      (by simp [example_singular, Matrix.get])
  · have h := (C15_cholesky_degenerate_pivot Real.sqrt (example_spd ℝ) 2 ⟨0, by decide⟩).2
      (by simp [example_spd, Matrix.get])
    rw [h]
    simp [example_spd, Matrix.get]

/-- A 2×3 matrix times a 1×2 matrix is rejected and the output matrix keeps its size and
contents. -/
theorem C17_product_rejects_mismatch_witness :
    product_matrix_by_matrix example_23 example_row example_2I = none ∧
    (product_matrix_by_matrix_run example_23 example_row example_2I).2 = false ∧
    (product_matrix_by_matrix_run example_23 example_row example_2I).1 = example_2I :=
  ⟨(C17_product_rejects_mismatch example_23 example_row example_2I).1.2 (by decide),
    (C17_product_rejects_mismatch example_23 example_row example_2I).2.1.2 (by decide),
    (C17_product_rejects_mismatch example_23 example_row example_2I).2.2 (by decide)⟩

theorem for_loop_opt_eq_foldl {σ : Type} (n : Nat) (body : Nat → σ → Option σ) (s : σ) :
    for_loop_opt n body s =
      (List.range n).foldl (fun (acc : Option σ) i => acc.bind (body i)) (some s) := rfl

section neumann_order

variable [LinearOrderedField α]

/-- Two `add` calls on a vector commute. -/
theorem vector_add_at_comm (b : Vector α) (v w : α) (i j : Int) :
    (b.add_at v i).bind (fun b => b.add_at w j) = (b.add_at w j).bind (fun b => b.add_at v i) := by
  unfold Vector.add_at checked_index
  by_cases hi : 0 ≤ i ∧ i < (b.size : Int) <;> by_cases hj : 0 ≤ j ∧ j < (b.size : Int)
  · simp only [hi, hj, and_self, if_true, Option.map_some', Option.some_bind, Vector.size_add]
    congr 1
    simp only [Vector.add]
    congr 1
    funext k
    simp only [Function.update_apply]
    by_cases hij : i.toNat = j.toNat
    · by_cases hk : k = j.toNat
      · simp [hk, hij]; ring
      · simp [hk, hij]
    · by_cases hk : k = j.toNat
      · have hk' : k ≠ i.toNat := fun h => hij (h.symm.trans hk)
        have hji : ¬ j.toNat = i.toNat := fun h => hij h.symm
        simp [hk, hk', hij, hji]
      · by_cases hk2 : k = i.toNat
        · have hji : ¬ j.toNat = i.toNat := fun h => hij h.symm
          simp [hk2, hij, hji]
        · simp [hk, hk2]
  · simp [hi, hj]
  · simp [hi, hj]
  · simp [hi, hj]

/-- The Neumann loop as a fold over the Neumann list. -/
theorem apply_neumann_eq_foldl (b : Vector α) (M : Mesh α) :
    apply_neumann_boundary_conditions b M =
      M.neumann_list.foldl (fun (acc : Option (Vector α)) (cond : Condition α) =>
        acc.bind fun b => b.add_at cond.get_value (cond.get_node.get_ID - 1)) (some b) := by
  unfold apply_neumann_boundary_conditions Mesh.neumann_list
  simp only []
  rw [for_loop_opt_eq_foldl, List.foldl_map]

/-- C21: for every vector `b` and every two meshes whose Neumann lists are permutations of
each other, `apply_neumann_boundary_conditions` yields the same result (exact arithmetic):
the same vector, or the same out-of-range failure. -/
theorem C21_neumann_order_independent (b : Vector α) (M M' : Mesh α)
    (h : M.neumann_list.Perm M'.neumann_list) :
    apply_neumann_boundary_conditions b M = apply_neumann_boundary_conditions b M' := by
  rw [apply_neumann_eq_foldl, apply_neumann_eq_foldl]
  apply List.Perm.foldl_eq' h
  intro x _ y _ z
  cases z with
  | none => rfl
  | some b0 =>
    simp only [Option.some_bind, Option.bind_eq_bind]
    exact vector_add_at_comm b0 _ _ _ _

end neumann_order

/-- The Neumann values 1 on node 3, 5 on node 1 and 2 on node 3, applied in this order
and with the first two exchanged, give the same vector (6, 2, 6, 4) from (1, 2, 3, 4). -/
theorem C21_neumann_order_independent_witness :
    apply_neumann_boundary_conditions example_b
        (neumann_mesh [⟨⟨3, 0, 1, 0⟩, 1⟩, ⟨⟨1, 0, 0, 0⟩, 5⟩, ⟨⟨3, 0, 1, 0⟩, 2⟩]) =
      apply_neumann_boundary_conditions example_b
        (neumann_mesh [⟨⟨1, 0, 0, 0⟩, 5⟩, ⟨⟨3, 0, 1, 0⟩, 1⟩, ⟨⟨3, 0, 1, 0⟩, 2⟩]) ∧
    ∃ b', apply_neumann_boundary_conditions example_b
        (neumann_mesh [⟨⟨1, 0, 0, 0⟩, 5⟩, ⟨⟨3, 0, 1, 0⟩, 1⟩, ⟨⟨3, 0, 1, 0⟩, 2⟩]) = some b' ∧
      b'.get 0 = 6 ∧ b'.get 1 = 2 ∧ b'.get 2 = 6 ∧ b'.get 3 = 4 := by
  refine ⟨C21_neumann_order_independent example_b _ _ (List.Perm.swap _ _ _), ?_⟩
  rw [apply_neumann_eq_foldl]
  simp only [Mesh.neumann_list, neumann_mesh, Mesh.get_quantity, List.length_cons,
    List.length_nil]
  simp [List.range_succ, Mesh.get_neumann_condition, Condition.get_value, Condition.get_node,
    Node.get_ID, Vector.add_at, checked_index, example_b]
  norm_num [Vector.add, Vector.get, Function.update_apply]

theorem option_rel_iff {σ : Type} (R : σ → σ → Prop) (x y : Option σ) :
    Option.Rel R x y ↔ (x = none ∧ y = none) ∨ ∃ a b, x = some a ∧ y = some b ∧ R a b := by
  constructor
  · intro h
    cases h with
    | none => exact Or.inl ⟨rfl, rfl⟩
    | some hab => exact Or.inr ⟨_, _, rfl, rfl, hab⟩
  · rintro (⟨rfl, rfl⟩ | ⟨a, b, rfl, rfl, hab⟩)
    · exact Option.Rel.none
    · exact Option.Rel.some hab

/-- A sequence of statements maps related states to related results when each of them
does. -/
theorem statements_rel {σ : Type} (R : σ → σ → Prop) (steps : List (σ → Option σ))
    (h : ∀ f ∈ steps, ∀ s t, R s t → Option.Rel R (f s) (f t)) :
    ∀ s t, R s t → Option.Rel R (statements steps s) (statements steps t) := by
  induction steps with
  | nil =>
    intro s t hst
    exact Option.Rel.some hst
  | cons f fs ih =>
    intro s t hst
    rw [statements_cons, statements_cons]
    rcases (option_rel_iff R _ _).1 (h f (List.mem_cons_self _ _) s t hst) with
      ⟨e1, e2⟩ | ⟨a, b, e1, e2, hab⟩
    · rw [e1, e2]
      exact Option.Rel.none
    · rw [e1, e2, Option.some_bind, Option.some_bind]
      exact ih (fun g hg => h g (List.mem_cons_of_mem _ hg)) _ _ hab

/-- A loop whose body can fail maps related states to related results when its body
does. -/
theorem for_loop_opt_rel {σ : Type} (R : σ → σ → Prop) (body : Nat → σ → Option σ)
    (h : ∀ i s t, R s t → Option.Rel R (body i s) (body i t)) (n : Nat) :
    ∀ s t, R s t → Option.Rel R (for_loop_opt n body s) (for_loop_opt n body t) := by
  induction n with
  | zero =>
    intro s t hst
    exact Option.Rel.some hst
  | succ n ih =>
    intro s t hst
    rw [for_loop_opt_succ, for_loop_opt_succ]
    rcases (option_rel_iff R _ _).1 (ih s t hst) with ⟨e1, e2⟩ | ⟨a, b, e1, e2, hab⟩
    · rw [e1, e2]
      exact Option.Rel.none
    · rw [e1, e2, Option.some_bind, Option.some_bind]
      exact h n _ _ hab

section assembly_frame

variable [LinearOrderedField α]

/-- An `add` call on two `n × m` matrices that agree inside their bounds. -/
theorem matrix_add_at_rel (n m : Nat) (v : α) (r c : Int) (K1 K2 : Matrix α)
    (h : K1.nrows = n ∧ K1.ncols = m ∧ K2.nrows = n ∧ K2.ncols = m ∧
      ∀ i j, i < n → j < m → K1.get i j = K2.get i j) :
    Option.Rel (fun K1 K2 : Matrix α => K1.nrows = n ∧ K1.ncols = m ∧ K2.nrows = n ∧
      K2.ncols = m ∧ ∀ i j, i < n → j < m → K1.get i j = K2.get i j)
      (K1.add_at v r c) (K2.add_at v r c) := by
  obtain ⟨h1, h2, h3, h4, h5⟩ := h
  unfold Matrix.add_at checked_index
  rw [h1, h2, h3, h4]
  by_cases hr : 0 ≤ r ∧ r < (n : Int)
  · by_cases hc : 0 ≤ c ∧ c < (m : Int)
    · rw [if_pos hr, if_pos hc, Option.some_bind, Option.some_bind, Option.map_some',
        Option.map_some']
      refine Option.Rel.some ⟨h1, h2, h3, h4, ?_⟩
      intro i j hi hj
      simp only [Matrix.get_add]
      rw [h5 i j hi hj, h5 r.toNat c.toNat (by omega) (by omega)]
    · rw [if_pos hr, if_neg hc, Option.some_bind, Option.some_bind, Option.map_none',
        Option.map_none']
      exact Option.Rel.none
  · rw [if_neg hr, Option.none_bind, Option.none_bind]
    exact Option.Rel.none

/-- An `add` call on two vectors of size `n` that agree inside their bounds. -/
theorem vector_add_at_rel (n : Nat) (v : α) (r : Int) (b1 b2 : Vector α)
    (h : b1.size = n ∧ b2.size = n ∧ ∀ i, i < n → b1.get i = b2.get i) :
    Option.Rel (fun b1 b2 : Vector α => b1.size = n ∧ b2.size = n ∧
      ∀ i, i < n → b1.get i = b2.get i) (b1.add_at v r) (b2.add_at v r) := by
  obtain ⟨h1, h2, h3⟩ := h
  unfold Vector.add_at checked_index
  rw [h1, h2]
  by_cases hr : 0 ≤ r ∧ r < (n : Int)
  · rw [if_pos hr, Option.map_some', Option.map_some']
    refine Option.Rel.some ⟨h1, h2, ?_⟩
    intro i hi
    simp only [Vector.vget_add]
    rw [h3 i hi, h3 r.toNat (by omega)]
  · rw [if_neg hr, Option.map_none', Option.map_none']
    exact Option.Rel.none

theorem assembly_K_rel (n m : Nat) (local_K : Matrix α) (i1 i2 i3 i4 : Int) (K1 K2 : Matrix α)
    (h : K1.nrows = n ∧ K1.ncols = m ∧ K2.nrows = n ∧ K2.ncols = m ∧
      ∀ i j, i < n → j < m → K1.get i j = K2.get i j) :
    Option.Rel (fun K1 K2 : Matrix α => K1.nrows = n ∧ K1.ncols = m ∧ K2.nrows = n ∧
      K2.ncols = m ∧ ∀ i j, i < n → j < m → K1.get i j = K2.get i j)
      (assembly_K K1 local_K i1 i2 i3 i4) (assembly_K K2 local_K i1 i2 i3 i4) := by
  unfold assembly_K
  apply statements_rel _ _ _ K1 K2 h
  intro f hf s t hst
  simp only [List.mem_cons, List.mem_singleton, List.not_mem_nil, or_false] at hf
  rcases hf with e | e | e | e | e | e | e | e | e | e | e | e | e | e | e | e <;>
    subst e <;> exact matrix_add_at_rel n m _ _ _ s t hst

theorem assembly_b_rel (n : Nat) (local_b : Vector α) (i1 i2 i3 i4 : Int) (b1 b2 : Vector α)
    (h : b1.size = n ∧ b2.size = n ∧ ∀ i, i < n → b1.get i = b2.get i) :
    Option.Rel (fun b1 b2 : Vector α => b1.size = n ∧ b2.size = n ∧
      ∀ i, i < n → b1.get i = b2.get i)
      (assembly_b b1 local_b i1 i2 i3 i4) (assembly_b b2 local_b i1 i2 i3 i4) := by
  unfold assembly_b
  apply statements_rel _ _ _ b1 b2 h
  intro f hf s t hst
  simp only [List.mem_cons, List.mem_singleton, List.not_mem_nil, or_false] at hf
  rcases hf with e | e | e | e <;> subst e <;> exact vector_add_at_rel n _ _ s t hst

/-- Two runs of `assembly` on containers of the same sizes end alike: both fail, or both
return systems of these sizes that agree inside their bounds. -/
theorem assembly_rel (K1 K2 : Matrix α) (b1 b2 : Vector α) (Ks : Nat → Matrix α)
    (bs : Nat → Vector α) (num_elements : Nat) (M : Mesh α) (n m p : Nat)
    (hr1 : K1.nrows = n) (hc1 : K1.ncols = m) (hb1 : b1.size = p)
    (hr2 : K2.nrows = n) (hc2 : K2.ncols = m) (hb2 : b2.size = p) :
    Option.Rel (fun s t : Matrix α × Vector α =>
        (s.1.nrows = n ∧ s.1.ncols = m ∧ t.1.nrows = n ∧ t.1.ncols = m ∧
          ∀ i j, i < n → j < m → s.1.get i j = t.1.get i j) ∧
        (s.2.size = p ∧ t.2.size = p ∧ ∀ i, i < p → s.2.get i = t.2.get i))
      (assembly K1 b1 Ks bs num_elements M) (assembly K2 b2 Ks bs num_elements M) := by
  unfold assembly
  simp only []
  apply for_loop_opt_rel
  · intro e s t hst
    dsimp only
    rcases (option_rel_iff _ _ _).1 (assembly_K_rel n m (Ks e)
      ((M.get_element e).get_node1.get_ID - 1) ((M.get_element e).get_node2.get_ID - 1)
      ((M.get_element e).get_node3.get_ID - 1) ((M.get_element e).get_node4.get_ID - 1)
      s.1 t.1 hst.1) with ⟨e1, e2⟩ | ⟨a, b, e1, e2, hab⟩
    · rw [e1, e2]
      exact Option.Rel.none
    · rw [e1, e2, Option.some_bind, Option.some_bind]
      rcases (option_rel_iff _ _ _).1 (assembly_b_rel p (bs e)
        ((M.get_element e).get_node1.get_ID - 1) ((M.get_element e).get_node2.get_ID - 1)
        ((M.get_element e).get_node3.get_ID - 1) ((M.get_element e).get_node4.get_ID - 1)
        s.2 t.2 hst.2) with ⟨f1, f2⟩ | ⟨a', b', f1, f2, hab'⟩
      · rw [f1, f2]
        exact Option.Rel.none
      · rw [f1, f2, Option.some_bind, Option.some_bind]
        exact Option.Rel.some ⟨hab, hab'⟩
  · refine ⟨⟨hr1, hc1, hr2, hc2, ?_⟩, hb1, hb2, ?_⟩
    · intro i j hi hj
      simp only [Matrix.get_init]
      rw [if_pos ⟨by omega, by omega⟩, if_pos ⟨by omega, by omega⟩]
    · intro i hi
      simp only [Vector.vget_init]
      rw [if_pos (by omega), if_pos (by omega)]

/-- C22: the `K` and `b` produced by `assembly` do not depend on the contents `K` and `b`
held before the call: two runs whose containers differ only in their contents fail
together or return systems of the same sizes with the same entries; when the node
identifiers are in range both return; and with zero elements the result is the all-zero
matrix and vector. -/
theorem C22_assembly_zeroes_first (K1 K2 : Matrix α) (b1 b2 : Vector α) (Ks : Nat → Matrix α)
    (bs : Nat → Vector α) (num_elements : Nat) (M : Mesh α) (n : Nat)
    (hr1 : K1.nrows = n) (hc1 : K1.ncols = n) (hb1 : b1.size = n)
    (hr2 : K2.nrows = n) (hc2 : K2.ncols = n) (hb2 : b2.size = n) :
    (assembly K1 b1 Ks bs num_elements M = none ↔
      assembly K2 b2 Ks bs num_elements M = none) ∧
    (∀ K1' b1' K2' b2', assembly K1 b1 Ks bs num_elements M = some (K1', b1') →
      assembly K2 b2 Ks bs num_elements M = some (K2', b2') →
      K1'.nrows = K2'.nrows ∧ K1'.ncols = K2'.ncols ∧ b1'.size = b2'.size ∧
      (∀ i j : Fin n, K1'.get i j = K2'.get i j) ∧ (∀ i : Fin n, b1'.get i = b2'.get i)) ∧
    ((∀ e, e < num_elements → ∀ a : Fin 4,
        0 ≤ (M.get_element e).index a ∧ (M.get_element e).index a < (n : Int)) →
      ∃ K1' b1' K2' b2', assembly K1 b1 Ks bs num_elements M = some (K1', b1') ∧
        assembly K2 b2 Ks bs num_elements M = some (K2', b2')) ∧
    (∃ K' b', assembly K1 b1 Ks bs 0 M = some (K', b') ∧
      K'.nrows = n ∧ K'.ncols = n ∧ b'.size = n ∧
      (∀ i j : Fin n, K'.get i j = 0) ∧ (∀ i : Fin n, b'.get i = 0)) := by
  have hrel := (option_rel_iff _ _ _).1
    (assembly_rel K1 K2 b1 b2 Ks bs num_elements M n n n hr1 hc1 hb1 hr2 hc2 hb2)
  refine ⟨?_, ?_, ?_, ?_⟩
  · rcases hrel with ⟨e1, e2⟩ | ⟨a, b, e1, e2, _⟩
    · simp [e1, e2]
    · simp [e1, e2]
  · intro K1' b1' K2' b2' e1 e2
    rcases hrel with ⟨f1, _⟩ | ⟨a, b, f1, f2, ⟨h1, h2, h3, h4, h5⟩, h6, h7, h8⟩
    · rw [f1] at e1
      cases e1
    · rw [f1] at e1
      rw [f2] at e2
      cases e1
      cases e2
      exact ⟨h1.trans h3.symm, h2.trans h4.symm, h6.trans h7.symm,
        fun i j => h5 i j i.isLt j.isLt, fun i => h8 i i.isLt⟩
  · intro hids
    obtain ⟨K1', b1', e1, _⟩ := assembly_loop_spec K1 b1 Ks bs num_elements M n hr1 hc1 hb1 hids
    obtain ⟨K2', b2', e2, _⟩ := assembly_loop_spec K2 b2 Ks bs num_elements M n hr2 hc2 hb2 hids
    exact ⟨K1', b1', K2', b2', e1, e2⟩
  · obtain ⟨K', b', e, d1, d2, d3, g1, g2⟩ := assembly_loop_spec K1 b1 Ks bs 0 M n hr1 hc1 hb1
      (fun e he => absurd he (Nat.not_lt_zero e))
    refine ⟨K', b', e, d1, d2, d3, ?_, ?_⟩
    · intro i j
      rw [g1]
      simp [hr1, hc1]
    · intro i
      rw [g2]
      simp [hb1]

end assembly_frame

/-- On `unit_mesh`, assembling over the matrix `example_K` and the vector `example_b` or
over zero-filled containers gives the same 4×4 system. -/
theorem C22_assembly_zeroes_first_witness :
    ∃ K1' b1' K2' b2',
      assembly example_K example_b (fun _ => example_K) (fun _ => example_b) 1 unit_mesh
        = some (K1', b1') ∧
      assembly (Matrix.create 4 4) (Vector.create 4) (fun _ => example_K) (fun _ => example_b) 1
        unit_mesh = some (K2', b2') ∧
      (∀ i j : Fin 4, K1'.get i j = K2'.get i j) ∧ (∀ i : Fin 4, b1'.get i = b2'.get i) := by
  obtain ⟨_, h2, h3, _⟩ := C22_assembly_zeroes_first example_K (Matrix.create 4 4) example_b
    (Vector.create 4) (fun _ => example_K) (fun _ => example_b) 1 unit_mesh 4 rfl rfl rfl rfl
    rfl rfl
  obtain ⟨K1', b1', K2', b2', e1, e2⟩ := h3 (fun e he a => by
    have := unit_mesh_indices e he a
    omega)
  obtain ⟨_, _, _, h4, h5⟩ := h2 K1' b1' K2' b2' e1 e2
  exact ⟨K1', b1', K2', b2', e1, e2, h4, h5⟩

/-- The matrix written by `calculate_inverse` on a symmetric positive definite matrix is
its inverse. -/
theorem calculate_inverse_eq_inv (A : Matrix ℝ) (n : Nat) (X0 : Matrix ℝ)
    (hA : (A.toLin n n).PosDef) :
    (calculate_inverse Real.sqrt A n X0).toLin n n = (A.toLin n n)⁻¹ :=
  (Matrix.inv_eq_right_inv (calculate_inverse_right A n X0 hA)).symm

/-- C23: for every `n` (the sizes 1 .. 8 of the claim included) and every real symmetric
positive definite n×n matrix `A` (exact real arithmetic), applying `calculate_inverse` to
the result of `calculate_inverse(A)` returns `A`. -/
theorem C23_inverse_round_trip (A : Matrix ℝ) (n : Nat) (X0 X1 : Matrix ℝ)
    (hA : (A.toLin n n).PosDef) :
    (calculate_inverse Real.sqrt (calculate_inverse Real.sqrt A n X0) n X1).toLin n n
      = A.toLin n n := by
  have h1 := calculate_inverse_eq_inv A n X0 hA
  have hpd : ((calculate_inverse Real.sqrt A n X0).toLin n n).PosDef := by
    rw [h1]
    exact hA.inv
  rw [calculate_inverse_eq_inv _ n X1 hpd, h1]
  exact Matrix.nonsing_inv_nonsing_inv _ ((Matrix.isUnit_iff_isUnit_det _).1 hA.isUnit)

/-- The round trip on `example_spd` over the reals. -/
theorem C23_inverse_round_trip_witness :
    (calculate_inverse Real.sqrt
        (calculate_inverse Real.sqrt (example_spd ℝ) 2 (Matrix.create 2 2)) 2
        (Matrix.create 2 2)).toLin 2 2 = (example_spd ℝ).toLin 2 2 :=
  C23_inverse_round_trip (example_spd ℝ) 2 (Matrix.create 2 2) (Matrix.create 2 2)
    example_spd_posDef

/-! ## The heap-backed node store -/

namespace MinHeap

theorem findFrom_out (h : MinHeap α) (i : Nat) (p : Int) (hi : h.heap_size ≤ i) :
    h.findFrom i p = -1 := by
  rw [findFrom, dif_pos hi]

theorem findFrom_hit (h : MinHeap α) (i : Nat) (p : Int) (hi : i < h.heap_size)
    (hp : (h.heap_array i).get_ID - 1 = p) : h.findFrom i p = (i : Int) := by
  rw [findFrom, dif_neg (by omega), if_pos hp]

theorem findFrom_miss (h : MinHeap α) (i : Nat) (p : Int) (hi : i < h.heap_size)
    (hp : (h.heap_array i).get_ID - 1 ≠ p) :
    h.findFrom i p = max (h.findFrom (left i) p) (h.findFrom (right i) p) := by
  rw [findFrom, dif_neg (by omega), if_neg hp]

/-- The search returns −1 or the index of a stored node with the identifier sought. -/
theorem findFrom_cases (h : MinHeap α) (p : Int) (i : Nat) :
    h.findFrom i p = -1 ∨
      ∃ r : Nat, h.findFrom i p = (r : Int) ∧ r < h.heap_size ∧
        (h.heap_array r).get_ID - 1 = p := by
  have key : ∀ d i, h.heap_size - i = d → (h.findFrom i p = -1 ∨
      ∃ r : Nat, h.findFrom i p = (r : Int) ∧ r < h.heap_size ∧
        (h.heap_array r).get_ID - 1 = p) := by
    intro d
    induction d using Nat.strong_induction_on with
    | _ d ih =>
      intro i hd
      by_cases hi : h.heap_size ≤ i
      · exact Or.inl (findFrom_out h i p hi)
      · by_cases hp : (h.heap_array i).get_ID - 1 = p
        · exact Or.inr ⟨i, findFrom_hit h i p (by omega) hp, by omega, hp⟩
        · rw [findFrom_miss h i p (by omega) hp]
          have mL : h.heap_size - left i < d := by simp only [left]; omega
          have mR : h.heap_size - right i < d := by simp only [right]; omega
          have hL := ih (h.heap_size - left i) mL (left i) rfl
          have hR := ih (h.heap_size - right i) mR (right i) rfl
          rcases max_choice (h.findFrom (left i) p) (h.findFrom (right i) p) with e | e
          · rw [e]; exact hL
          · rw [e]; exact hR
  exact key _ i rfl

/-- A stored node with the identifier sought is found from the root. -/
theorem findFrom_root_nonneg (h : MinHeap α) (p : Int) (j : Nat) :
    0 ≤ h.findFrom j p → 0 ≤ h.findFrom 0 p := by
  induction j using Nat.strong_induction_on with
  | _ j ih =>
    intro hj
    by_cases h0 : j = 0
    · subst h0; exact hj
    · have hjs : j < h.heap_size := by
        by_contra hc
        rw [findFrom_out h j p (by omega)] at hj
        omega
      have hq : parent j < j := by simp only [parent]; omega
      apply ih (parent j) hq
      by_cases hp : (h.heap_array (parent j)).get_ID - 1 = p
      · rw [findFrom_hit h _ p (by omega) hp]
        omega
      · rw [findFrom_miss h _ p (by omega) hp]
        have hlr : j = left (parent j) ∨ j = right (parent j) := by
          simp only [left, right, parent]; omega
        rcases hlr with e | e
        · exact le_trans (by rw [← e]; exact hj) (le_max_left _ _)
        · exact le_trans (by rw [← e]; exact hj) (le_max_right _ _)

/-- The result of the search from the root. -/
theorem findFrom_root (h : MinHeap α) (p : Int) :
    (h.findFrom 0 p = -1 ↔ ¬ ∃ j, j < h.heap_size ∧ (h.heap_array j).get_ID = p + 1) ∧
    (h.findFrom 0 p ≠ -1 → ∃ i : Nat, h.findFrom 0 p = (i : Int) ∧ i < h.heap_size ∧
      (h.heap_array i).get_ID = p + 1) := by
  have hc := findFrom_cases h p 0
  constructor
  · constructor
    · rintro e ⟨j, hj, hid⟩
      have := findFrom_root_nonneg h p j (by
        rw [findFrom_hit h j p hj (by omega)]
        omega)
      omega
    · intro hno
      rcases hc with e | ⟨r, _, hr, hid⟩
      · exact e
      · exact absurd ⟨r, hr, by omega⟩ hno
  · intro hne
    rcases hc with e | ⟨r, e, hr, hid⟩
    · exact absurd e hne
    · exact ⟨r, e, hr, by omega⟩

theorem getNodeById_eq (h : MinHeap α) (p : Int) (i : Nat) (e : h.findFrom 0 p = (i : Int))
    (hi : i < h.capacity) : h.getNodeById p = some (h.heap_array i) := by
  simp only [getNodeById, e, checked_index_natCast hi, Option.map_some']

theorem getNodeById_none (h : MinHeap α) (p : Int) (e : h.findFrom 0 p = -1) :
    h.getNodeById p = none := by
  simp [getNodeById, e, checked_index]

end MinHeap

/-- C30: for every heap state and every integer `p`, `findFrom(0, p)` returns −1 exactly
when no stored node has identifier `p + 1`, and otherwise returns an index `i` with
`0 ≤ i < heap_size` whose node has identifier `p + 1`; hence `getNodeById(p)` reads inside
the array if and only if such a node is stored, and then reads a node of identifier
`p + 1`. -/
theorem C30_heap_search_result (h : MinHeap α) (p : Int) (hcap : h.heap_size ≤ h.capacity) :
    (h.findFrom 0 p = -1 ↔ ¬ ∃ j, j < h.heap_size ∧ (h.heap_array j).get_ID = p + 1) ∧
    (h.findFrom 0 p ≠ -1 → ∃ i : Nat, h.findFrom 0 p = (i : Int) ∧ i < h.heap_size ∧
      (h.heap_array i).get_ID = p + 1) ∧
    ((∃ node, h.getNodeById p = some node) ↔
      ∃ j, j < h.heap_size ∧ (h.heap_array j).get_ID = p + 1) ∧
    (∀ node, h.getNodeById p = some node → node.get_ID = p + 1) := by
  obtain ⟨h1, h2⟩ := MinHeap.findFrom_root h p
  refine ⟨h1, h2, ?_, ?_⟩
  · constructor
    · rintro ⟨node, e⟩
      by_contra hno
      rw [MinHeap.getNodeById_none h p (h1.2 hno)] at e
      cases e
    · intro hex
      have hne : h.findFrom 0 p ≠ -1 := fun e => h1.1 e hex
      obtain ⟨i, e, hi, _⟩ := h2 hne
      exact ⟨_, MinHeap.getNodeById_eq h p i e (by omega)⟩
  · intro node e
    by_cases hm : h.findFrom 0 p = -1
    · rw [MinHeap.getNodeById_none h p hm] at e
      cases e
    · obtain ⟨i, e', hi, hid⟩ := h2 hm
      rw [MinHeap.getNodeById_eq h p i e' (by omega)] at e
      cases e
      exact hid

/-- On the heap of the nodes 1, 2, 3 the search for `p = 2` returns the index 2 and the
search for `p = 5` returns −1, so that `getNodeById(5)` reads outside the array. -/
theorem C30_heap_search_result_witness :
    example_heap.findFrom 0 2 = 2 ∧ example_heap.findFrom 0 5 = -1 ∧
    example_heap.getNodeById 5 = none ∧
    ∃ node, example_heap.getNodeById 2 = some node := by
  have h := C30_heap_search_result example_heap
  have hid : ∀ j, (example_heap.heap_array j).get_ID = (j : Int) + 1 := fun j => rfl
  have hs : example_heap.heap_size = 3 := rfl
  have hex : ∃ j, j < example_heap.heap_size ∧ (example_heap.heap_array j).get_ID = 2 + 1 :=
    ⟨2, by decide, rfl⟩
  have hno : ¬ ∃ j, j < example_heap.heap_size ∧ (example_heap.heap_array j).get_ID = 5 + 1 := by
    rintro ⟨j, hj, e⟩
    rw [hid, hs] at *
    omega
  obtain ⟨a1, a2, a3, _⟩ := h 2 (le_refl _)
  obtain ⟨b1, _, _, _⟩ := h 5 (le_refl _)
  have e5 := b1.2 hno
  refine ⟨?_, e5, MinHeap.getNodeById_none _ _ e5, a3.2 hex⟩
  obtain ⟨i, e, hi, hidi⟩ := a2 (fun e => a1.1 e hex)
  rw [hid] at hidi
  have : i = 2 := by omega
  rw [e, this]
  rfl

namespace MinHeap

theorem sift_up_stop (h : MinHeap α) (i : Nat)
    (hc : ¬ (i ≠ 0 ∧ (h.heap_array (parent i)).get_ID > (h.heap_array i).get_ID)) :
    h.sift_up i = h := by
  rw [sift_up, dif_neg hc]

theorem sift_up_step (h : MinHeap α) (i : Nat)
    (hc : i ≠ 0 ∧ (h.heap_array (parent i)).get_ID > (h.heap_array i).get_ID) :
    h.sift_up i = (h.swap i (parent i)).sift_up (parent i) := by
  rw [sift_up, dif_pos hc]

/-- A swap of two stored nodes keeps the set of stored nodes. -/
theorem swap_stored (h : MinHeap α) (i j : Nat) (hi : i < h.heap_size) (hj : j < h.heap_size)
    (node : Node α) :
    (∃ k, k < (h.swap i j).heap_size ∧ (h.swap i j).heap_array k = node) ↔
      ∃ k, k < h.heap_size ∧ h.heap_array k = node := by
  have hs : (h.swap i j).heap_size = h.heap_size := rfl
  have ha : ∀ k, (h.swap i j).heap_array k =
      if k = i then h.heap_array j else if k = j then h.heap_array i else h.heap_array k :=
    fun k => rfl
  rw [hs]
  constructor
  · rintro ⟨k, hk, e⟩
    rw [ha] at e
    by_cases h1 : k = i
    · rw [if_pos h1] at e
      exact ⟨j, hj, e⟩
    · rw [if_neg h1] at e
      by_cases h2 : k = j
      · rw [if_pos h2] at e
        exact ⟨i, hi, e⟩
      · rw [if_neg h2] at e
        exact ⟨k, hk, e⟩
  · rintro ⟨k, hk, e⟩
    by_cases h1 : k = i
    · subst h1
      by_cases h3 : j = k
      · subst h3
        exact ⟨j, hj, by rw [ha, if_pos rfl]; exact e⟩
      · exact ⟨j, hj, by rw [ha, if_neg h3, if_pos rfl]; exact e⟩
    · by_cases h2 : k = j
      · subst h2
        exact ⟨i, hi, by rw [ha, if_pos rfl]; exact e⟩
      · exact ⟨k, hk, by rw [ha, if_neg h1, if_neg h2]; exact e⟩

/-- The loop of `insert` keeps the size, the capacity and the set of stored nodes. -/
theorem sift_up_spec (i : Nat) : ∀ (h : MinHeap α), i < h.heap_size →
    (h.sift_up i).heap_size = h.heap_size ∧ (h.sift_up i).capacity = h.capacity ∧
    ∀ node, (∃ k, k < (h.sift_up i).heap_size ∧ (h.sift_up i).heap_array k = node) ↔
      ∃ k, k < h.heap_size ∧ h.heap_array k = node := by
  induction i using Nat.strong_induction_on with
  | _ i ih =>
    intro h hi
    by_cases hc : i ≠ 0 ∧ (h.heap_array (parent i)).get_ID > (h.heap_array i).get_ID
    · rw [sift_up_step h i hc]
      have hq : parent i < i := by
        have := hc.1
        simp only [parent]
        omega
      obtain ⟨h1, h2, h3⟩ := ih (parent i) hq (h.swap i (parent i))
        (show parent i < h.heap_size by omega)
      refine ⟨h1, h2, ?_⟩
      intro node
      rw [h3 node]
      exact swap_stored h i (parent i) hi (by omega) node
    · rw [sift_up_stop h i hc]
      exact ⟨rfl, rfl, fun _ => Iff.rfl⟩

/-- An insertion below the capacity stores one node more. -/
theorem insert_spec (h : MinHeap α) (k : Node α) (hcap : h.heap_size < h.capacity) :
    (h.insert k).heap_size = h.heap_size + 1 ∧ (h.insert k).capacity = h.capacity ∧
    ∀ node, (∃ j, j < (h.insert k).heap_size ∧ (h.insert k).heap_array j = node) ↔
      (node = k ∨ ∃ j, j < h.heap_size ∧ h.heap_array j = node) := by
  have hne : ¬ h.heap_size = h.capacity := by omega
  have e : h.insert k = sift_up
      { h with heap_array := Function.update h.heap_array h.heap_size k,
               heap_size := h.heap_size + 1 } h.heap_size := by
    simp only [insert, if_neg hne]
  rw [e]
  obtain ⟨h1, h2, h3⟩ := sift_up_spec h.heap_size
    { h with heap_array := Function.update h.heap_array h.heap_size k,
             heap_size := h.heap_size + 1 } (Nat.lt_succ_self _)
  refine ⟨h1, h2, ?_⟩
  intro node
  rw [h3 node]
  constructor
  · rintro ⟨j, hj, ej⟩
    simp only [Function.update_apply] at ej
    by_cases hjs : j = h.heap_size
    · rw [if_pos hjs] at ej
      exact Or.inl ej.symm
    · rw [if_neg hjs] at ej
      exact Or.inr ⟨j, by simp only at hj; omega, ej⟩
  · rintro (e1 | ⟨j, hj, ej⟩)
    · exact ⟨h.heap_size, Nat.lt_succ_self _, by simp [e1]⟩
    · refine ⟨j, Nat.lt_succ_of_lt hj, ?_⟩
      simp only [Function.update_apply]
      rw [if_neg (by omega)]
      exact ej

/-- A run of insertions below the capacity stores the nodes inserted. -/
theorem insert_list_spec (l : List (Node α)) : ∀ (h : MinHeap α),
    h.heap_size + l.length ≤ h.capacity →
    (l.foldl insert h).heap_size = h.heap_size + l.length ∧
    (l.foldl insert h).capacity = h.capacity ∧
    ∀ node, (∃ j, j < (l.foldl insert h).heap_size ∧ (l.foldl insert h).heap_array j = node) ↔
      (node ∈ l ∨ ∃ j, j < h.heap_size ∧ h.heap_array j = node) := by
  induction l with
  | nil =>
    intro h _
    exact ⟨rfl, rfl, fun node => by simp⟩
  | cons k ks ih =>
    intro h hcap
    simp only [List.length_cons] at hcap
    obtain ⟨h1, h2, h3⟩ := insert_spec h k (by omega)
    obtain ⟨g1, g2, g3⟩ := ih (h.insert k) (by rw [h1, h2]; omega)
    rw [List.foldl_cons]
    refine ⟨by rw [g1, h1, List.length_cons]; omega, by rw [g2, h2], ?_⟩
    intro node
    rw [g3 node, h3 node, List.mem_cons]
    tauto

end MinHeap

theorem insert_nodes_eq (l : List (Node α)) (M : heap_variant.Mesh α) :
    (M.insert_nodes l).nodes = l.foldl MinHeap.insert M.nodes := by
  have key : ∀ (l : List (Node α)) (n : Nat) (M : heap_variant.Mesh α),
      ((l.enumFrom n).foldl (fun (M : heap_variant.Mesh α) p => M.insert_node p.2 p.1) M).nodes
        = l.foldl MinHeap.insert M.nodes := by
    intro l
    induction l with
    | nil => intro n M; rfl
    | cons k ks ih =>
      intro n M
      rw [List.enumFrom_cons, List.foldl_cons, List.foldl_cons, ih]
      rfl
  exact key l 0 M

/-- C24: for every sequence of nodes with pairwise distinct identifiers inserted through
the heap-backed `Mesh::insert_node` (in any order, not exceeding the capacity),
`Mesh::get_node(id − 1)` returns the node whose identifier is `id`, for every inserted
`id`. -/
theorem C24_heap_insert_lookup (M : heap_variant.Mesh α) (cells : Nat → Node α)
    (l : List (Node α)) (hd : (l.map Node.get_ID).Nodup)
    (hcap : l.length ≤ M.quantities quantity.NUM_NODES) :
    ∀ node ∈ l, ((M.init_arrays cells).insert_nodes l).get_node (node.get_ID - 1) = some node := by
  intro node hnode
  have hH : ((M.init_arrays cells).insert_nodes l).nodes
      = l.foldl MinHeap.insert (MinHeap.create (M.quantities quantity.NUM_NODES) cells) :=
    insert_nodes_eq l _
  obtain ⟨h1, h2, h3⟩ := MinHeap.insert_list_spec l
    (MinHeap.create (M.quantities quantity.NUM_NODES) cells)
    (by simp only [MinHeap.create]; omega)
  simp only [heap_variant.Mesh.get_node]
  rw [hH]
  set H := l.foldl MinHeap.insert (MinHeap.create (M.quantities quantity.NUM_NODES) cells)
    with hHdef
  have hsize : H.heap_size ≤ H.capacity := by
    rw [h1, h2]
    simp only [MinHeap.create]
    omega
  have hmem : ∀ nd, (∃ j, j < H.heap_size ∧ H.heap_array j = nd) ↔ nd ∈ l := by
    intro nd
    rw [h3 nd]
    simp [MinHeap.create]
  obtain ⟨j, hj, ej⟩ := (hmem node).2 hnode
  obtain ⟨f1, f2⟩ := MinHeap.findFrom_root H (node.get_ID - 1)
  have hne : H.findFrom 0 (node.get_ID - 1) ≠ -1 := by
    intro e
    exact f1.1 e ⟨j, hj, by rw [ej]; omega⟩
  obtain ⟨i, e, hi, hid⟩ := f2 hne
  rw [MinHeap.getNodeById_eq H _ i e (by omega)]
  have hin : H.heap_array i ∈ l := (hmem _).1 ⟨i, hi, rfl⟩
  have := List.inj_on_of_nodup_map hd hin hnode (by rw [hid]; omega)
  rw [this]

/-- The nodes 3, 1, 2 inserted in this order into a store of capacity 3 are each returned
by `get_node(id − 1)`. -/
theorem C24_heap_insert_lookup_witness :
    ((example_heap_mesh.init_arrays (fun _ => ⟨0, 0, 0, 0⟩)).insert_nodes example_nodes).get_node 0
      = some ⟨1, 0, 0, 0⟩ ∧
    ((example_heap_mesh.init_arrays (fun _ => ⟨0, 0, 0, 0⟩)).insert_nodes example_nodes).get_node 1
      = some ⟨2, 1, 0, 0⟩ ∧
    ((example_heap_mesh.init_arrays (fun _ => ⟨0, 0, 0, 0⟩)).insert_nodes example_nodes).get_node 2
      = some ⟨3, 0, 1, 0⟩ := by
  have h := C24_heap_insert_lookup example_heap_mesh (fun _ => ⟨0, 0, 0, 0⟩) example_nodes
    (by decide) (by decide)
  exact ⟨h ⟨1, 0, 0, 0⟩ (by simp [example_nodes]), h ⟨2, 1, 0, 0⟩ (by simp [example_nodes]),
    h ⟨3, 0, 1, 0⟩ (by simp [example_nodes])⟩

section second_equation_lemmas

variable [LinearOrderedField α]

/-- The scalar prefactor of `create_local_K` of the second-equation variant, after the
substitution. -/
theorem second_equation_create_local_K_eq (K0 : Matrix α) (element_id : Nat) (M : Mesh α) :
    ∃ K, second_equation.create_local_K K0 element_id M = some K ∧ K.nrows = 4 ∧
      K.ncols = 4 ∧
      K.toLin 4 4 =
        (1 / (3360 * (if (M.get_element element_id).jacobian = 0 then epsilon_patch
              else (M.get_element element_id).jacobian))) •
        (((calculate_B (Matrix.create 3 4 : Matrix α)).toLin 3 4).transpose *
          ((((M.get_element element_id).local_A).toLin 3 3).transpose *
            (((M.get_element element_id).local_A).toLin 3 3 *
              (calculate_B (Matrix.create 3 4 : Matrix α)).toLin 3 4))) := by
  have hB := calculate_B_dims (Matrix.create 3 4 : Matrix α)
  simp only [Matrix.nrows_create, Matrix.ncols_create] at hB
  set A := (M.get_element element_id).local_A with hA
  have hAd : A.nrows = 3 ∧ A.ncols = 3 := by
    have := calculate_local_A_dims (Matrix.create 3 3 : Matrix α)
      (M.get_element element_id).get_node1.get_x_coordinate
      (M.get_element element_id).get_node1.get_y_coordinate
      (M.get_element element_id).get_node1.get_z_coordinate
      (M.get_element element_id).get_node2.get_x_coordinate
      (M.get_element element_id).get_node2.get_y_coordinate
      (M.get_element element_id).get_node2.get_z_coordinate
      (M.get_element element_id).get_node3.get_x_coordinate
      (M.get_element element_id).get_node3.get_y_coordinate
      (M.get_element element_id).get_node3.get_z_coordinate
      (M.get_element element_id).get_node4.get_x_coordinate
      (M.get_element element_id).get_node4.get_y_coordinate
      (M.get_element element_id).get_node4.get_z_coordinate
    simpa [hA, Element.local_A] using this
  set B := calculate_B (Matrix.create 3 4 : Matrix α) with hBdef
  obtain ⟨res1, e1, r1n, r1m, r1⟩ :=
    toLin_product A B (Matrix.create 0 0) 3 3 4 hAd.1 hAd.2 hB.1 hB.2
  have hAt := transpose_spec A 3 3 (Matrix.create 3 3)
  have hBt := transpose_spec B 3 4 (Matrix.create 4 3)
  obtain ⟨res2, e2, r2n, r2m, r2⟩ :=
    toLin_product (transpose A 3 3 (Matrix.create 3 3)) res1 (Matrix.create 0 0) 3 3 4
      (by rw [hAt.1]; rfl) (by rw [hAt.2.1]; rfl) r1n r1m
  obtain ⟨res3, e3, r3n, r3m, r3⟩ :=
    toLin_product (transpose B 3 4 (Matrix.create 4 3)) res2 (Matrix.create 0 0) 4 3 4
      (by rw [hBt.1]; rfl) (by rw [hBt.2.1]; rfl) r2n r2m
  obtain ⟨s, hs⟩ : ∃ s : α, s = 1 / (3360 *
      (if (M.get_element element_id).jacobian = 0 then epsilon_patch
        else (M.get_element element_id).jacobian)) := ⟨_, rfl⟩
  rw [← hs]
  refine ⟨product_scalar_by_matrix s res3 4 4 (K0.set_size 4 4), ?_, ?_, ?_, ?_⟩
  · rw [hs]
    simp only [second_equation.create_local_K]
    rw [show calculate_local_A (Matrix.create 3 3) _ _ _ _ _ _ _ _ _ _ _ _ = A from rfl]
    rw [e1]
    simp only [Option.some_bind, Option.bind_eq_bind]
    rw [e2]
    simp only [Option.some_bind, Option.bind_eq_bind]
    rw [e3]
    simp only [Option.some_bind, Option.bind_eq_bind]
    rfl
  · rw [(product_scalar_by_matrix_spec _ _ _ _ _).1]; rfl
  · rw [(product_scalar_by_matrix_spec _ _ _ _ _).2.1]; rfl
  · rw [toLin_product_scalar, r3, r2, r1, toLin_transpose, toLin_transpose]

/-- The entries `create_local_b` of the second-equation variant writes. -/
theorem second_equation_create_local_b_spec (b : Vector α) (element_id : Nat) (M : Mesh α) :
    (second_equation.create_local_b b element_id M).size = 4 ∧
    ∀ i, (second_equation.create_local_b b element_id M).get i =
      if i < 4 then (M.get_element element_id).jacobian / 105 else b.get i := by
  refine ⟨rfl, ?_⟩
  intro i
  simp only [second_equation.create_local_b, Vector.vget_set, Element.jacobian]
  by_cases h3 : i = 3
  · subst h3; simp
  by_cases h2 : i = 2
  · subst h2; simp
  by_cases h1 : i = 1
  · subst h1; simp
  by_cases h0 : i = 0
  · subst h0; simp
  · have : ¬ i < 4 := by omega
    simp [h0, h1, h2, h3, this, Vector.set_size, Vector.get]

theorem epsilon_patch_ne_zero : (epsilon_patch : α) ≠ 0 := by
  simp only [epsilon_patch]
  norm_num

/-- C25: for every element with nonzero Jacobian `J` and nonzero volume `V`, the
heat-transfer `create_local_K` result equals `3360 · k · V / J` times the second-equation
`create_local_K` result for the same coordinates, and the heat-transfer `create_local_b`
result equals `105 · Q / 24` times the second-equation `create_local_b` result (exact
arithmetic). -/
theorem C25_variants_differ_by_prefactor (K0 K0' : Matrix α) (b0 b0' : Vector α)
    (element_id : Nat) (M : Mesh α)
    (hJ : (M.get_element element_id).jacobian ≠ 0)
    (hV : (M.get_element element_id).volume ≠ 0) :
    (∃ Kh Ks, create_local_K K0 element_id M = some Kh ∧
      second_equation.create_local_K K0' element_id M = some Ks ∧
      Kh.toLin 4 4 =
        (3360 * M.get_problem_data parameter.THERMAL_CONDUCTIVITY
          * (M.get_element element_id).volume / (M.get_element element_id).jacobian) •
        Ks.toLin 4 4) ∧
    (create_local_b b0 element_id M).size = 4 ∧
    (second_equation.create_local_b b0' element_id M).size = 4 ∧
    ∀ a : Fin 4, (create_local_b b0 element_id M).get a =
      (105 * M.get_problem_data parameter.HEAT_SOURCE / 24) *
        (second_equation.create_local_b b0' element_id M).get a := by
  obtain ⟨Kh, e1, _, _, g1⟩ := create_local_K_eq K0 element_id M
  obtain ⟨Ks, e2, _, _, g2⟩ := second_equation_create_local_K_eq K0' element_id M
  obtain ⟨s1, t1⟩ := create_local_b_spec b0 element_id M
  obtain ⟨s2, t2⟩ := second_equation_create_local_b_spec b0' element_id M
  refine ⟨⟨Kh, Ks, e1, e2, ?_⟩, s1, s2, ?_⟩
  · rw [g1, g2, if_neg hJ, if_neg hV, smul_smul]
    congr 1
    field_simp
    ring
  · intro a
    rw [t1, t2, if_pos a.isLt, if_pos a.isLt]
    field_simp
    ring

/-- In exact arithmetic (no rounding, no underflow of the product `J · J`): for every
element the divisor of the scalar prefactor in `create_local_K` (`J · J` in the
heat-transfer variant, `3360 · J` in the second-equation variant, `J` being the value after
the fallback) is nonzero, and a 4×4 matrix is returned. -/
theorem create_local_K_divisor_ne_zero (K0 K0' : Matrix α) (element_id : Nat)
    (M : Mesh α) :
    ∃ J : α, J = (if (M.get_element element_id).jacobian = 0 then epsilon_patch
        else (M.get_element element_id).jacobian) ∧
      J * J ≠ 0 ∧ 3360 * J ≠ 0 ∧
      (∃ K, create_local_K K0 element_id M = some K ∧ K.nrows = 4 ∧ K.ncols = 4 ∧
        K.toLin 4 4 =
          (M.get_problem_data parameter.THERMAL_CONDUCTIVITY
            * (if (M.get_element element_id).volume = 0 then epsilon_patch
                else (M.get_element element_id).volume) / (J * J)) •
          (((calculate_B (Matrix.create 3 4 : Matrix α)).toLin 3 4).transpose *
            ((((M.get_element element_id).local_A).toLin 3 3).transpose *
              (((M.get_element element_id).local_A).toLin 3 3 *
                (calculate_B (Matrix.create 3 4 : Matrix α)).toLin 3 4)))) ∧
      (∃ K, second_equation.create_local_K K0' element_id M = some K ∧ K.nrows = 4 ∧
        K.ncols = 4 ∧
        K.toLin 4 4 =
          (1 / (3360 * J)) •
          (((calculate_B (Matrix.create 3 4 : Matrix α)).toLin 3 4).transpose *
            ((((M.get_element element_id).local_A).toLin 3 3).transpose *
              (((M.get_element element_id).local_A).toLin 3 3 *
                (calculate_B (Matrix.create 3 4 : Matrix α)).toLin 3 4)))) := by
  refine ⟨_, rfl, ?_, ?_, create_local_K_eq K0 element_id M,
    second_equation_create_local_K_eq K0' element_id M⟩
  · have hne : (if (M.get_element element_id).jacobian = 0 then (epsilon_patch : α)
        else (M.get_element element_id).jacobian) ≠ 0 := by
      split_ifs with h
      · exact epsilon_patch_ne_zero
      · exact h
    exact mul_ne_zero hne hne
  · have hne : (if (M.get_element element_id).jacobian = 0 then (epsilon_patch : α)
        else (M.get_element element_id).jacobian) ≠ 0 := by
      split_ifs with h
      · exact epsilon_patch_ne_zero
      · exact h
    exact mul_ne_zero (by norm_num) hne

end second_equation_lemmas

theorem unit_jacobian : (unit_mesh.get_element 0).jacobian = 1 := by
  simp [Element.jacobian, calculate_local_jacobian_eq, unit_mesh, Mesh.get_element,
    Element.get_node1, Element.get_node2, Element.get_node3, Element.get_node4,
    Node.get_x_coordinate, Node.get_y_coordinate, Node.get_z_coordinate]

theorem unit_volume : (unit_mesh.get_element 0).volume = 1 / 6 := by
  rw [element_volume_eq, unit_jacobian]
  norm_num

/-- On the element of `unit_mesh` (`J = 1`, `V = 1/6`, `k = Q = 2`) the factors are
`3360 · 2 · (1/6) / 1 = 1120` and `105 · 2 / 24`. -/
theorem C25_variants_differ_by_prefactor_witness :
    (∃ Kh Ks, create_local_K (Matrix.create 0 0) 0 unit_mesh = some Kh ∧
      second_equation.create_local_K (Matrix.create 0 0) 0 unit_mesh = some Ks ∧
      Kh.toLin 4 4 = (1120 : ℚ) • Ks.toLin 4 4) ∧
    ∀ a : Fin 4, (create_local_b (Vector.create 0) 0 unit_mesh).get a =
      (35 / 4) * (second_equation.create_local_b (Vector.create 0) 0 unit_mesh).get a := by
  have h := C25_variants_differ_by_prefactor (Matrix.create 0 0) (Matrix.create 0 0)
    (Vector.create 0) (Vector.create 0) 0 unit_mesh
    (by rw [unit_jacobian]; norm_num) (by rw [unit_volume]; norm_num)
  have hk : unit_mesh.get_problem_data parameter.THERMAL_CONDUCTIVITY = 2 := rfl
  have hQ : unit_mesh.get_problem_data parameter.HEAT_SOURCE = 2 := rfl
  rw [unit_jacobian, unit_volume, hk, hQ] at h
  obtain ⟨⟨Kh, Ks, e1, e2, g⟩, _, _, t⟩ := h
  refine ⟨⟨Kh, Ks, e1, e2, ?_⟩, ?_⟩
  · rw [g]
    norm_num
  · intro a
    rw [t a]
    norm_num

theorem vector_ext (v w : Vector α) (hs : v.size = w.size) (hg : ∀ i, v.get i = w.get i) :
    v = w := by
  cases v with
  | mk s d =>
    cases w with
    | mk s' d' =>
      simp only [Vector.get] at hg
      simp only at hs
      subst hs
      have : d = d' := funext hg
      subst this
      rfl

/-- C26: for every matrix `M` with `n` rows and `m` columns and every m×n matrix `T`,
`transpose(M, n, m, T)` sets `T[c][r] = M[r][c]` for all `r < n` and `c < m`; consequently
transposing the result again (`transpose(T, m, n, M2)`) gives `M2` equal to `M`. -/
theorem C26_transpose_round_trip (M T M2 : Matrix α) (n m : Nat)
    (hM : M.nrows = n ∧ M.ncols = m) (hT : T.nrows = m ∧ T.ncols = n)
    (hM2 : M2.nrows = n ∧ M2.ncols = m) :
    (transpose M n m T).nrows = m ∧ (transpose M n m T).ncols = n ∧
    (∀ (r : Fin n) (c : Fin m), (transpose M n m T).get c r = M.get r c) ∧
    (transpose (transpose M n m T) m n M2).nrows = M.nrows ∧
    (transpose (transpose M n m T) m n M2).ncols = M.ncols ∧
    (∀ (r : Fin n) (c : Fin m),
      (transpose (transpose M n m T) m n M2).get r c = M.get r c) := by
  obtain ⟨a1, a2, a3⟩ := transpose_spec M n m T
  obtain ⟨b1, b2, b3⟩ := transpose_spec (transpose M n m T) m n M2
  refine ⟨by rw [a1, hT.1], by rw [a2, hT.2], ?_, by rw [b1, hM2.1, hM.1],
    by rw [b2, hM2.2, hM.2], ?_⟩
  · intro r c
    rw [a3, if_pos ⟨r.isLt, c.isLt⟩]
  · intro r c
    rw [b3, if_pos ⟨c.isLt, r.isLt⟩, a3, if_pos ⟨r.isLt, c.isLt⟩]

/-- The transpose of the 2×3 matrix `example_23` has rows (1, 4), (2, 5), (3, 6), and the
transpose of that is `example_23`. -/
theorem C26_transpose_round_trip_witness :
    (transpose example_23 2 3 (Matrix.create 3 2)).get 2 0 = 3 ∧
    (transpose example_23 2 3 (Matrix.create 3 2)).get 0 1 = 4 ∧
    (transpose (transpose example_23 2 3 (Matrix.create 3 2)) 3 2 (Matrix.create 2 3)).get 1 2
      = 6 := by
  obtain ⟨_, _, h3, _, _, h6⟩ := C26_transpose_round_trip example_23 (Matrix.create 3 2)
    (Matrix.create 2 3) 2 3 ⟨rfl, rfl⟩ ⟨rfl, rfl⟩ ⟨rfl, rfl⟩
  refine ⟨?_, ?_, ?_⟩
  · have := h3 ⟨0, by decide⟩ ⟨2, by decide⟩
    rw [this]
    norm_num [example_23, Matrix.get]
  · have := h3 ⟨1, by decide⟩ ⟨0, by decide⟩
    rw [this]
    norm_num [example_23, Matrix.get]
  · have := h6 ⟨1, by decide⟩ ⟨2, by decide⟩
    rw [this]
    norm_num [example_23, Matrix.get]

section condensation_order

variable [LinearOrderedField α]

/-- The subtraction loop of the step as the specification words it. -/
theorem subtract_loop_spec (K : Matrix α) (b : Vector α) (idx : Nat) (value : α) (k : Nat) :
    (for_loop k (fun r (b : Vector α) => b.set (b.get r - value * K.get r idx) r) b).size
      = b.size ∧
    ∀ r, (for_loop k (fun r (b : Vector α) => b.set (b.get r - value * K.get r idx) r) b).get r
      = if r < k then b.get r - value * K.get r idx else b.get r := by
  induction k with
  | zero => simp [for_loop_zero]
  | succ k ih =>
    rw [for_loop_succ]
    obtain ⟨h1, h2⟩ := ih
    refine ⟨by rw [Vector.size_set, h1], ?_⟩
    intro r
    simp only [Vector.vget_set, h2]
    by_cases hr : r = k
    · subst hr; simp only [lt_irrefl, if_false, if_true, Nat.lt_succ_self]
    · have : r < k + 1 ↔ r < k := by omega
      simp only [hr, this, if_false]

/-- The step of the code on an in-range index is the step of the specification. -/
theorem dirichlet_step_eq_spec (M : Mesh α) (c : Nat) (K : Matrix α) (b : Vector α)
    (previous_removed : Int) (idx : Nat)
    (hidx : (M.get_dirichlet_condition c).get_node.get_ID - 1 - previous_removed = (idx : Int))
    (hr : idx < K.nrows) (hc : idx < K.ncols) (hb : idx < b.size) :
    dirichlet_step M c (K, b, previous_removed) =
      some ((condensation_step_spec K b idx (M.get_dirichlet_condition c).get_value).1,
        (condensation_step_spec K b idx (M.get_dirichlet_condition c).get_value).2,
        previous_removed + 1) := by
  obtain ⟨b', e, hs, hg⟩ := add_column_to_RHS_spec (K.remove_row idx) (b.remove_row idx) idx
    (M.get_dirichlet_condition c).get_value (by simpa using hc)
  obtain ⟨s1, s2⟩ := subtract_loop_spec K b idx (M.get_dirichlet_condition c).get_value K.nrows
  have hb' : b' = (condensation_step_spec K b idx (M.get_dirichlet_condition c).get_value).2 := by
    apply vector_ext
    · rw [hs]
      simp only [condensation_step_spec, Vector.size_remove_row, Matrix.get_nrows_eq, s1]
    · intro r
      rw [hg]
      simp only [condensation_step_spec, Vector.vget_remove_row, Matrix.get_nrows_eq, s2,
        Matrix.nrows_remove_row, Matrix.get_remove_row]
      by_cases hri : r < idx
      · have h1 : r < K.nrows - 1 := by omega
        have h2 : r < K.nrows := by omega
        simp only [hri, h1, h2, if_true]
        ring
      · by_cases h1 : r < K.nrows - 1
        · have h2 : r + 1 < K.nrows := by omega
          simp only [hri, h1, h2, if_true, if_false]
          ring
        · have h2 : ¬ r + 1 < K.nrows := by omega
          simp only [hri, h1, h2, if_false]
  simp only [dirichlet_step, hidx, Matrix.remove_row_at, Vector.remove_row_at,
    Matrix.remove_column_at, checked_index_natCast hr, checked_index_natCast hb,
    Option.map_some', Option.some_bind, Option.bind_eq_bind, e, Matrix.ncols_remove_row,
    checked_index_natCast hc, hb']
  rfl

/-- C28: for every `K`, `b`, in-range index `idx` and prescribed value, the per-condition
step the code performs (remove row `idx` from `K`, remove `b[idx]`, subtract
`value · K[r][idx]` from `b[r]` for every remaining row `r`, then remove column `idx`)
yields the same reduced `K` and `b` as the step the specification describes (first
subtract for every row, then remove row and column `idx` from `K` and element `idx` from
`b`). -/
theorem C28_condensation_step_order (M : Mesh α) (c : Nat) (K : Matrix α) (b : Vector α)
    (previous_removed : Int) (idx : Nat)
    (hidx : (M.get_dirichlet_condition c).get_node.get_ID - 1 - previous_removed = (idx : Int))
    (hr : idx < K.nrows) (hc : idx < K.ncols) (hb : idx < b.size) :
    dirichlet_step M c (K, b, previous_removed) =
      some ((condensation_step_spec K b idx (M.get_dirichlet_condition c).get_value).1,
        (condensation_step_spec K b idx (M.get_dirichlet_condition c).get_value).2,
        previous_removed + 1) :=
  dirichlet_step_eq_spec M c K b previous_removed idx hidx hr hc hb

end condensation_order

/-- The first condition of `example_mesh` (value 5 on node 2) on `example_K`,
`example_b`: both orders leave the rows of the nodes 1, 3, 4 and the right-hand side
(1 − 5, 3 − 5, 4 − 5). -/
theorem C28_condensation_step_order_witness :
    ∃ K' b', dirichlet_step example_mesh 0 (example_K, example_b, 0) = some (K', b', 1) ∧
      (K', b') = condensation_step_spec example_K example_b 1 5 ∧
      K'.nrows = 3 ∧ K'.ncols = 3 ∧ b'.size = 3 ∧
      b'.get 0 = -4 ∧ b'.get 1 = -2 ∧ b'.get 2 = -1 := by
  have h := C28_condensation_step_order example_mesh 0 example_K example_b 0 1 (by decide)
    (by decide) (by decide) (by decide)
  have hv : (example_mesh.get_dirichlet_condition 0).get_value = 5 := rfl
  rw [hv] at h
  refine ⟨_, _, h, rfl, rfl, rfl, rfl, ?_, ?_, ?_⟩
  · simp only [condensation_step_spec, Vector.vget_remove_row, Matrix.get_nrows_eq,
      (subtract_loop_spec _ _ _ _ _).2]
    norm_num [example_K, example_b, Matrix.get, Vector.get]
  · simp only [condensation_step_spec, Vector.vget_remove_row, Matrix.get_nrows_eq,
      (subtract_loop_spec _ _ _ _ _).2]
    norm_num [example_K, example_b, Matrix.get, Vector.get]
  · simp only [condensation_step_spec, Vector.vget_remove_row, Matrix.get_nrows_eq,
      (subtract_loop_spec _ _ _ _ _).2]
    norm_num [example_K, example_b, Matrix.get, Vector.get]

/-- C29: there are Dirichlet lists of pairwise distinct, in-range node identifiers, not in
increasing order, that `apply_dirichlet_boundary_conditions` does not handle. With the
identifiers [4, 2] on four nodes the index computed for node 2 is `2 − 1 − 1 = 0`, while
after the removal of the row of node 4 the row of node 2 stands at position 1 and position
0 holds the row of node 1: the reduced matrix keeps the rows and columns of the nodes 2
and 3 (entries 22, 23, 32, 33 of `example_grid`) and has lost those of the free node 1.
With the identifiers [3, 1] the index computed for node 1 is −1, out of range. -/
theorem C29_unsorted_dirichlet_not_handled :
    (unsorted_mesh.dirichlet_id 0 = 4 ∧ unsorted_mesh.dirichlet_id 1 = 2 ∧
      unsorted_mesh.get_quantity quantity.NUM_DIRICHLET = 2 ∧
      unsorted_mesh.get_quantity quantity.NUM_NODES = 4) ∧
    unsorted_mesh.dirichlet_id 1 - 1 - 1 = 0 ∧
    (unsorted_mesh.survivor 1 0 = 0 ∧ unsorted_mesh.survivor 1 1 = 1 ∧
      unsorted_mesh.dirichlet_position 1 = 1) ∧
    (∃ K' b', apply_dirichlet_boundary_conditions example_grid example_b unsorted_mesh
        = some (K', b') ∧
      K'.nrows = 2 ∧ K'.ncols = 2 ∧
      K'.get 0 0 = 22 ∧ K'.get 0 1 = 23 ∧ K'.get 1 0 = 32 ∧ K'.get 1 1 = 33) ∧
    (reversed_mesh.dirichlet_id 0 = 3 ∧ reversed_mesh.dirichlet_id 1 = 1 ∧
      reversed_mesh.get_quantity quantity.NUM_DIRICHLET = 2) ∧
    reversed_mesh.dirichlet_id 1 - 1 - 1 = -1 ∧
    apply_dirichlet_boundary_conditions example_grid example_b reversed_mesh = none := by
  refine ⟨⟨rfl, rfl, rfl, rfl⟩, by decide, ⟨by decide, by decide, by decide⟩, ?_,
    ⟨rfl, rfl, rfl⟩, by decide, ?_⟩
  · have h0 := dirichlet_step_eq_spec unsorted_mesh 0 example_grid example_b 0 3
      (by decide) (by decide) (by decide) (by decide)
    have h1 := dirichlet_step_eq_spec unsorted_mesh 1
      (condensation_step_spec example_grid example_b 3
        (unsorted_mesh.get_dirichlet_condition 0).get_value).1
      (condensation_step_spec example_grid example_b 3
        (unsorted_mesh.get_dirichlet_condition 0).get_value).2 (0 + 1) 0
      (by decide) (by decide) (by decide) (by decide)
    have hq : unsorted_mesh.get_quantity quantity.NUM_DIRICHLET = 2 := rfl
    have hres : apply_dirichlet_boundary_conditions example_grid example_b unsorted_mesh =
        some ((condensation_step_spec
            (condensation_step_spec example_grid example_b 3
              (unsorted_mesh.get_dirichlet_condition 0).get_value).1
            (condensation_step_spec example_grid example_b 3
              (unsorted_mesh.get_dirichlet_condition 0).get_value).2 0
            (unsorted_mesh.get_dirichlet_condition 1).get_value).1,
          (condensation_step_spec
            (condensation_step_spec example_grid example_b 3
              (unsorted_mesh.get_dirichlet_condition 0).get_value).1
            (condensation_step_spec example_grid example_b 3
              (unsorted_mesh.get_dirichlet_condition 0).get_value).2 0
            (unsorted_mesh.get_dirichlet_condition 1).get_value).2) := by
      simp only [apply_dirichlet_boundary_conditions, apply_dirichlet_loop, hq]
      rw [for_loop_opt_succ, for_loop_opt_succ, for_loop_opt_zero, Option.some_bind, h0,
        Option.some_bind, h1, Option.map_some']
    refine ⟨_, _, hres, rfl, rfl, ?_, ?_, ?_, ?_⟩ <;>
      norm_num [condensation_step_spec, example_grid, Matrix.get, Matrix.remove_row,
        Matrix.remove_column]
  · have h0 := dirichlet_step_eq_spec reversed_mesh 0 example_grid example_b 0 2
      (by decide) (by decide) (by decide) (by decide)
    have hq : reversed_mesh.get_quantity quantity.NUM_DIRICHLET = 2 := rfl
    simp only [apply_dirichlet_boundary_conditions, apply_dirichlet_loop, hq]
    rw [for_loop_opt_succ, for_loop_opt_succ, for_loop_opt_zero, Option.some_bind, h0,
      Option.some_bind]
    have hidx : (reversed_mesh.get_dirichlet_condition 1).get_node.get_ID - 1 - (0 + 1)
        = -1 := by decide
    simp only [dirichlet_step, hidx, Matrix.remove_row_at, checked_index]
    simp

/-! ## Counters of the merge loop -/

/-- Every Dirichlet position is the original index of a condition of the list. -/
theorem dirichlet_positions_subset (M : Mesh α) (n : Nat) :
    (M.dirichlet_positions n).toFinset ⊆
      (Finset.range (M.get_quantity quantity.NUM_DIRICHLET)).image M.dirichlet_position := by
  intro i hi
  rw [List.mem_toFinset, mem_dirichlet_positions, has_dirichlet_iff] at hi
  obtain ⟨_, c, hc, hid⟩ := hi
  rw [Finset.mem_image]
  exact ⟨c, Finset.mem_range.2 hc, by simp only [Mesh.dirichlet_position]; omega⟩

theorem dirichlet_positions_nodup (M : Mesh α) (n : Nat) : (M.dirichlet_positions n).Nodup :=
  (List.nodup_range n).filter _

/-- There are at most as many Dirichlet positions as conditions. -/
theorem dirichlet_positions_length_le (M : Mesh α) (n : Nat) :
    (M.dirichlet_positions n).length ≤ M.get_quantity quantity.NUM_DIRICHLET := by
  rw [← List.toFinset_card_of_nodup (dirichlet_positions_nodup M n)]
  calc (M.dirichlet_positions n).toFinset.card
      ≤ ((Finset.range (M.get_quantity quantity.NUM_DIRICHLET)).image
          M.dirichlet_position).card := Finset.card_le_card (dirichlet_positions_subset M n)
    _ ≤ (Finset.range (M.get_quantity quantity.NUM_DIRICHLET)).card := Finset.card_image_le
    _ = M.get_quantity quantity.NUM_DIRICHLET := Finset.card_range _

/-- With pairwise distinct identifiers in `1 .. n` there are as many Dirichlet positions as
conditions. -/
theorem dirichlet_positions_length (M : Mesh α) (n : Nat)
    (hdist : ∀ a b, a < M.get_quantity quantity.NUM_DIRICHLET →
      b < M.get_quantity quantity.NUM_DIRICHLET → M.dirichlet_id a = M.dirichlet_id b → a = b)
    (hrange : ∀ c, c < M.get_quantity quantity.NUM_DIRICHLET →
      1 ≤ M.dirichlet_id c ∧ M.dirichlet_id c ≤ (n : Int)) :
    (M.dirichlet_positions n).length = M.get_quantity quantity.NUM_DIRICHLET := by
  rw [← List.toFinset_card_of_nodup (dirichlet_positions_nodup M n)]
  have heq : (M.dirichlet_positions n).toFinset =
      (Finset.range (M.get_quantity quantity.NUM_DIRICHLET)).image M.dirichlet_position := by
    apply Finset.Subset.antisymm (dirichlet_positions_subset M n)
    intro i hi
    rw [Finset.mem_image] at hi
    obtain ⟨c, hc, hid⟩ := hi
    have hc' := Finset.mem_range.1 hc
    have := hrange c hc'
    rw [List.mem_toFinset, mem_dirichlet_positions, has_dirichlet_iff]
    simp only [Mesh.dirichlet_position] at hid
    exact ⟨by omega, c, hc', by omega⟩
  rw [heq, Finset.card_image_of_injOn, Finset.card_range]
  intro a ha b hb hab
  have ha' := Finset.mem_range.1 (Finset.mem_coe.1 ha)
  have hb' := Finset.mem_range.1 (Finset.mem_coe.1 hb)
  have h1 := hrange a ha'
  have h2 := hrange b hb'
  simp only [Mesh.dirichlet_position] at hab
  exact hdist a b ha' hb' (by omega)

/-- Every position below `n` is a free position or a Dirichlet position. -/
theorem positions_length (M : Mesh α) (n : Nat) :
    (M.free_positions n).length + (M.dirichlet_positions n).length = n := by
  induction n with
  | zero => rfl
  | succ k ih =>
    rw [free_positions_succ, dirichlet_positions_succ]
    cases M.does_node_have_dirichlet_condition ((k : Int) + 1) <;> simp <;> omega

theorem dirichlet_positions_length_mono (M : Mesh α) (i n : Nat) (h : i ≤ n) :
    (M.dirichlet_positions i).length ≤ (M.dirichlet_positions n).length := by
  induction n with
  | zero =>
    have : i = 0 := by omega
    subst this
    exact le_refl _
  | succ k ih =>
    by_cases hik : i = k + 1
    · subst hik; exact le_refl _
    · have := ih (by omega)
      rw [dirichlet_positions_succ]
      cases M.does_node_have_dirichlet_condition ((k : Int) + 1) <;> simp <;> omega

theorem free_positions_length_mono (M : Mesh α) (i n : Nat) (h : i ≤ n) :
    (M.free_positions i).length ≤ (M.free_positions n).length := by
  induction n with
  | zero =>
    have : i = 0 := by omega
    subst this
    exact le_refl _
  | succ k ih =>
    by_cases hik : i = k + 1
    · subst hik; exact le_refl _
    · have := ih (by omega)
      rw [free_positions_succ]
      cases M.does_node_have_dirichlet_condition ((k : Int) + 1) <;> simp <;> omega

/-- One iteration of the merge loop. -/
theorem merge_loop_succ (T Tf : Vector α) (M : Mesh α) (k : Nat) :
    merge_loop T Tf (k + 1) M =
      if M.does_node_have_dirichlet_condition ((k : Int) + 1) then
        ((merge_loop T Tf k M).1.set
            (M.get_dirichlet_condition (merge_loop T Tf k M).2.1).get_value k,
          (merge_loop T Tf k M).2.1 + 1, (merge_loop T Tf k M).2.2)
      else
        ((merge_loop T Tf k M).1.set (T.get (merge_loop T Tf k M).2.2) k,
          (merge_loop T Tf k M).2.1, (merge_loop T Tf k M).2.2 + 1) := by
  simp only [merge_loop, for_loop_succ]

/-- C31: for every mesh whose Dirichlet conditions all carry the same value `v`, in any
list order, `merge_results_with_dirichlet` writes `v` at the position of every node that
has a Dirichlet condition; with node identifiers in `1 .. n` this is the position
`id − 1` of every condition of the list. -/
theorem C31_merge_shared_value (X Tf : Vector α) (n : Nat) (M : Mesh α) (v : α)
    (hv : ∀ c, c < M.get_quantity quantity.NUM_DIRICHLET →
      (M.get_dirichlet_condition c).get_value = v)
    (hrange : ∀ c, c < M.get_quantity quantity.NUM_DIRICHLET →
      1 ≤ M.dirichlet_id c ∧ M.dirichlet_id c ≤ (n : Int)) :
    (∀ i : Fin n, M.does_node_have_dirichlet_condition ((i : Int) + 1) = true →
      (merge_results_with_dirichlet X Tf n M).get i = v) ∧
    (∀ c, c < M.get_quantity quantity.NUM_DIRICHLET →
      (merge_results_with_dirichlet X Tf n M).get (M.dirichlet_id c - 1).toNat = v) := by
  obtain ⟨_, _, _, _, _, h6⟩ := merge_loop_spec X Tf M n
  have key : ∀ i, i < n → M.does_node_have_dirichlet_condition ((i : Int) + 1) = true →
      (merge_results_with_dirichlet X Tf n M).get i = v := by
    intro i hi hd
    have hmem : i ∈ M.dirichlet_positions n := (mem_dirichlet_positions M n i).2 ⟨hi, hd⟩
    obtain ⟨j, hj, hij⟩ := List.getElem_of_mem hmem
    have hj' : (M.dirichlet_positions n)[j]? = some i := by
      rw [List.getElem?_eq_getElem hj, hij]
    have := h6 j i hj'
    simp only [merge_results_with_dirichlet]
    rw [this]
    exact hv j (lt_of_lt_of_le hj (dirichlet_positions_length_le M n))
  refine ⟨fun i hd => key i i.isLt hd, ?_⟩
  intro c hc
  have hr := hrange c hc
  apply key _ (by omega)
  rw [has_dirichlet_iff]
  exact ⟨c, hc, by omega⟩

/-- The shared value 7 on the nodes 4 and 2, listed in this order, on four nodes: the
full result holds 7 at the positions 1 and 3. -/
theorem C31_merge_shared_value_witness :
    (merge_results_with_dirichlet example_X (Vector.create 4) 4
      (dirichlet_mesh [⟨⟨4, 0, 0, 1⟩, 7⟩, ⟨⟨2, 1, 0, 0⟩, 7⟩])).get 3 = 7 ∧
    (merge_results_with_dirichlet example_X (Vector.create 4) 4
      (dirichlet_mesh [⟨⟨4, 0, 0, 1⟩, 7⟩, ⟨⟨2, 1, 0, 0⟩, 7⟩])).get 1 = 7 := by
  have hv : ∀ c, c < (dirichlet_mesh [⟨⟨4, 0, 0, 1⟩, 7⟩, ⟨⟨2, 1, 0, 0⟩, 7⟩]).get_quantity
      quantity.NUM_DIRICHLET →
      ((dirichlet_mesh [⟨⟨4, 0, 0, 1⟩, 7⟩, ⟨⟨2, 1, 0, 0⟩, 7⟩]).get_dirichlet_condition
        c).get_value = 7 := by
    intro c hc
    have hc2 : c < 2 := hc
    interval_cases c <;> rfl
  have hrange : ∀ c, c < (dirichlet_mesh [⟨⟨4, 0, 0, 1⟩, 7⟩, ⟨⟨2, 1, 0, 0⟩, 7⟩]).get_quantity
      quantity.NUM_DIRICHLET →
      1 ≤ (dirichlet_mesh [⟨⟨4, 0, 0, 1⟩, 7⟩, ⟨⟨2, 1, 0, 0⟩, 7⟩]).dirichlet_id c ∧
      (dirichlet_mesh [⟨⟨4, 0, 0, 1⟩, 7⟩, ⟨⟨2, 1, 0, 0⟩, 7⟩]).dirichlet_id c ≤ ((4 : Nat) : Int) := by
    intro c hc
    have hc2 : c < 2 := hc
    interval_cases c <;> decide
  have h := (C31_merge_shared_value example_X (Vector.create 4) 4
    (dirichlet_mesh [⟨⟨4, 0, 0, 1⟩, 7⟩, ⟨⟨2, 1, 0, 0⟩, 7⟩]) 7 hv hrange).2
  exact ⟨h 0 (by decide), h 1 (by decide)⟩

/-- C38: for every mesh with `n` nodes and `d` Dirichlet conditions on pairwise distinct
nodes with identifiers in `1 .. n`, and `X` of size `n − d`, `merge_results_with_dirichlet`
reads only `X[0 .. n−d−1]` and the Dirichlet conditions `0 .. d−1` (at iteration `i` the
counter used as index is below the bound), ends with `cont_T = n − d` and
`cont_dirichlet = d`, and iteration `i` performs one write, at position `i`, for each of
the `n` positions. -/
theorem C38_merge_in_bounds (X Tf : Vector α) (n : Nat) (M : Mesh α)
    (hX : X.size = n - M.get_quantity quantity.NUM_DIRICHLET)
    (hdist : ∀ a b, a < M.get_quantity quantity.NUM_DIRICHLET →
      b < M.get_quantity quantity.NUM_DIRICHLET → M.dirichlet_id a = M.dirichlet_id b → a = b)
    (hrange : ∀ c, c < M.get_quantity quantity.NUM_DIRICHLET →
      1 ≤ M.dirichlet_id c ∧ M.dirichlet_id c ≤ (n : Int)) :
    (∀ i, i < n →
      if M.does_node_have_dirichlet_condition ((i : Int) + 1) then
        (merge_loop X Tf i M).2.1 < M.get_quantity quantity.NUM_DIRICHLET ∧
        (merge_loop X Tf (i + 1) M).1 = (merge_loop X Tf i M).1.set
          (M.get_dirichlet_condition (merge_loop X Tf i M).2.1).get_value i
      else
        (merge_loop X Tf i M).2.2 < X.size ∧
        (merge_loop X Tf (i + 1) M).1 = (merge_loop X Tf i M).1.set
          (X.get (merge_loop X Tf i M).2.2) i) ∧
    (merge_loop X Tf n M).2.2 = n - M.get_quantity quantity.NUM_DIRICHLET ∧
    (merge_loop X Tf n M).2.1 = M.get_quantity quantity.NUM_DIRICHLET := by
  have hd := dirichlet_positions_length M n hdist hrange
  have hsum := positions_length M n
  obtain ⟨_, hn1, hn2, _⟩ := merge_loop_spec X Tf M n
  refine ⟨?_, by rw [hn2]; omega, by rw [hn1, hd]⟩
  intro i hi
  obtain ⟨_, hi1, hi2, _⟩ := merge_loop_spec X Tf M i
  have hstep := merge_loop_succ X Tf M i
  have m1 := dirichlet_positions_length_mono M (i + 1) n (by omega)
  have m2 := free_positions_length_mono M (i + 1) n (by omega)
  by_cases hc : M.does_node_have_dirichlet_condition ((i : Int) + 1) = true
  · rw [if_pos hc]
    rw [if_pos hc] at hstep
    refine ⟨?_, by rw [hstep]⟩
    rw [dirichlet_positions_succ, if_pos hc, List.length_append, List.length_singleton] at m1
    rw [hi1]
    omega
  · rw [if_neg hc]
    rw [if_neg hc] at hstep
    refine ⟨?_, by rw [hstep]⟩
    rw [free_positions_succ, if_neg hc, List.length_append, List.length_singleton] at m2
    rw [hi2, hX]
    omega

/-- On `example_mesh` (four nodes, Dirichlet conditions on the nodes 2 and 4) and a
solution of size 2 the counters end at 2 and 2. -/
theorem C38_merge_in_bounds_witness :
    (merge_loop example_X (Vector.create 4) 4 example_mesh).2.2 = 2 ∧
    (merge_loop example_X (Vector.create 4) 4 example_mesh).2.1 = 2 := by
  have hdist : ∀ a b, a < example_mesh.get_quantity quantity.NUM_DIRICHLET →
      b < example_mesh.get_quantity quantity.NUM_DIRICHLET →
      example_mesh.dirichlet_id a = example_mesh.dirichlet_id b → a = b := by
    intro a b ha hb
    have ha2 : a < 2 := ha
    have hb2 : b < 2 := hb
    interval_cases a <;> interval_cases b <;> decide
  exact (C38_merge_in_bounds example_X (Vector.create 4) 4 example_mesh rfl hdist
    example_mesh_in_range).2

theorem free_positions_get_lt (M : Mesh α) (n : Nat) (r : Fin (M.free_positions n).length) :
    (M.free_positions n).get r < n ∧
    M.does_node_have_dirichlet_condition ((((M.free_positions n).get r : Nat) : Int) + 1)
      = false :=
  (mem_free_positions M n _).1 (List.get_mem _ _ _)

section pipeline_lemmas

variable [LinearOrderedField α]

/-- The system left by the condensation, on the free positions. -/
theorem apply_dirichlet_spec (K : Matrix α) (b : Vector α) (M : Mesh α) (n : Nat)
    (hKr : K.nrows = n) (hKc : K.ncols = n) (hb : b.size = n)
    (hinc : ∀ c, c + 1 < M.get_quantity quantity.NUM_DIRICHLET →
      M.dirichlet_id c < M.dirichlet_id (c + 1))
    (hrange : ∀ c, c < M.get_quantity quantity.NUM_DIRICHLET →
      1 ≤ M.dirichlet_id c ∧ M.dirichlet_id c ≤ (n : Int)) :
    ∃ K' b', apply_dirichlet_boundary_conditions K b M = some (K', b') ∧
      K'.nrows = (M.free_positions n).length ∧ K'.ncols = (M.free_positions n).length ∧
      b'.size = (M.free_positions n).length ∧
      (∀ r s : Fin (M.free_positions n).length,
        K'.get r s = K.get ((M.free_positions n).get r) ((M.free_positions n).get s)) ∧
      (∀ r : Fin (M.free_positions n).length,
        b'.get r = b.get ((M.free_positions n).get r) -
          ∑ c in Finset.range (M.get_quantity quantity.NUM_DIRICHLET),
            (M.get_dirichlet_condition c).get_value *
              K.get ((M.free_positions n).get r) (M.dirichlet_id c - 1).toNat) := by
  obtain ⟨Kc, bc, hloop, h1, h2, h3, h4, h5⟩ :=
    apply_dirichlet_steps K b M n hKr hKc hb hinc hrange _ (le_refl _)
  obtain ⟨hlen, hget⟩ := free_positions_get M n hinc hrange
  refine ⟨Kc, bc, ?_, by rw [h1, hlen], by rw [h2, hlen], by rw [h3, hlen], ?_, ?_⟩
  · simp [apply_dirichlet_boundary_conditions, apply_dirichlet_loop, hloop]
  · intro r s
    rw [h4, hget r, hget s]
  · intro r
    rw [h5 r (by have := r.isLt; omega), hget r, sub_eq_add_neg, ← Finset.sum_neg_distrib]
    congr 1
    apply Finset.sum_congr rfl
    intro c _
    simp only [Mesh.dirichlet_position, neg_mul]

/-- C32: for every `K` and `b` of size `n`, every Dirichlet list with strictly increasing
node identifiers in `1 .. n` and every Neumann list with identifiers in `1 .. n`, two runs
of `apply_neumann_boundary_conditions` followed by `apply_dirichlet_boundary_conditions`
that differ only in the values of the Neumann conditions attached to nodes that also have
a Dirichlet condition produce the same reduced `K` and `b`. -/
theorem C32_neumann_on_dirichlet_node_no_effect (K : Matrix α) (b : Vector α) (M : Mesh α)
    (neumann' : Nat → Condition α) (n : Nat)
    (hKr : K.nrows = n) (hKc : K.ncols = n) (hb : b.size = n)
    (hinc : ∀ c, c + 1 < M.get_quantity quantity.NUM_DIRICHLET →
      M.dirichlet_id c < M.dirichlet_id (c + 1))
    (hrange : ∀ c, c < M.get_quantity quantity.NUM_DIRICHLET →
      1 ≤ M.dirichlet_id c ∧ M.dirichlet_id c ≤ (n : Int))
    (hneu : ∀ c, c < M.get_quantity quantity.NUM_NEUMANN →
      1 ≤ M.neumann_id c ∧ M.neumann_id c ≤ (n : Int))
    (hnode : ∀ c, c < M.get_quantity quantity.NUM_NEUMANN →
      (neumann' c).get_node.get_ID = M.neumann_id c)
    (hvalue : ∀ c, c < M.get_quantity quantity.NUM_NEUMANN →
      M.does_node_have_dirichlet_condition (M.neumann_id c) = false →
      (neumann' c).get_value = (M.get_neumann_condition c).get_value) :
    ∃ b1 b2 K1 c1 K2 c2,
      apply_neumann_boundary_conditions b M = some b1 ∧
      apply_neumann_boundary_conditions b { M with neumann_conditions := neumann' } = some b2 ∧
      apply_dirichlet_boundary_conditions K b1 M = some (K1, c1) ∧
      apply_dirichlet_boundary_conditions K b2 { M with neumann_conditions := neumann' }
        = some (K2, c2) ∧
      K1.nrows = K2.nrows ∧ K1.ncols = K2.ncols ∧ c1.size = c2.size ∧
      K1.nrows = n - M.get_quantity quantity.NUM_DIRICHLET ∧
      K1.ncols = n - M.get_quantity quantity.NUM_DIRICHLET ∧
      c1.size = n - M.get_quantity quantity.NUM_DIRICHLET ∧
      (∀ r s : Fin (n - M.get_quantity quantity.NUM_DIRICHLET), K1.get r s = K2.get r s) ∧
      (∀ r : Fin (n - M.get_quantity quantity.NUM_DIRICHLET), c1.get r = c2.get r) := by
  obtain ⟨b1, e1, s1, g1⟩ := apply_neumann_steps b M n hb hneu _ (le_refl _)
  obtain ⟨b2, e2, s2, g2⟩ := apply_neumann_steps b { M with neumann_conditions := neumann' } n
    hb (fun c hc => by
      have h1 := hneu c hc
      have h2 := hnode c hc
      have h3 : ({ M with neumann_conditions := neumann' } : Mesh α).neumann_id c
          = (neumann' c).get_node.get_ID := rfl
      rw [h3, h2]
      exact h1) _ (le_refl _)
  obtain ⟨K1, c1, f1, d1, d2, d3, k1, v1⟩ := apply_dirichlet_spec K b1 M n hKr hKc s1 hinc hrange
  obtain ⟨K2, c2, f2, d1', d2', d3', k2, v2⟩ :=
    apply_dirichlet_spec K b2 { M with neumann_conditions := neumann' } n hKr hKc s2 hinc hrange
  have hlen := (free_positions_get M n hinc hrange).1
  have hfp : ({ M with neumann_conditions := neumann' } : Mesh α).free_positions n
      = M.free_positions n := rfl
  have hb12 : ∀ r : Fin (M.free_positions n).length,
      b1.get ((M.free_positions n).get r) = b2.get ((M.free_positions n).get r) := by
    intro r
    obtain ⟨_, hfree⟩ := free_positions_get_lt M n r
    rw [g1, g2]
    congr 1
    apply Finset.sum_congr rfl
    intro c hc
    have hc' := Finset.mem_range.1 hc
    have h3 : ({ M with neumann_conditions := neumann' } : Mesh α).neumann_id c
        = (neumann' c).get_node.get_ID := rfl
    have h4 : (({ M with neumann_conditions := neumann' } : Mesh α).get_neumann_condition
        c).get_value = (neumann' c).get_value := rfl
    rw [h3, h4, hnode c hc']
    by_cases hid : M.neumann_id c = (((M.free_positions n).get r : Nat) : Int) + 1
    · rw [if_pos hid, if_pos hid]
      exact (hvalue c hc' (by rw [hid]; exact hfree)).symm
    · rw [if_neg hid, if_neg hid]
  refine ⟨b1, b2, K1, c1, K2, c2, e1, e2, f1, f2, by rw [d1, d1', hfp], by rw [d2, d2', hfp],
    by rw [d3, d3', hfp], by rw [d1, hlen], by rw [d2, hlen], by rw [d3, hlen], ?_, ?_⟩
  · intro r s
    have hr : (r : Nat) < (M.free_positions n).length := by rw [hlen]; exact r.isLt
    have hs : (s : Nat) < (M.free_positions n).length := by rw [hlen]; exact s.isLt
    have a1 := k1 ⟨r, hr⟩ ⟨s, hs⟩
    have a2 := k2 ⟨r, hr⟩ ⟨s, hs⟩
    simp only at a1 a2
    rw [a1, a2]
    rfl
  · intro r
    have hr : (r : Nat) < (M.free_positions n).length := by rw [hlen]; exact r.isLt
    have a1 := v1 ⟨r, hr⟩
    have a2 := v2 ⟨r, hr⟩
    simp only at a1 a2
    rw [a1, a2]
    have := hb12 ⟨r, hr⟩
    rw [this]
    rfl

/-- C33: for every mesh with node identifiers in `1 .. n`, if every local matrix passed to
`assembly` is symmetric then the assembled global `K` is symmetric, and for every
Dirichlet list with strictly increasing node identifiers the reduced `K` left by
`apply_dirichlet_boundary_conditions` is symmetric as well. -/
theorem C33_symmetry_preserved (K0 : Matrix α) (b0 : Vector α) (Ks : Nat → Matrix α)
    (bs : Nat → Vector α) (num_elements : Nat) (M : Mesh α) (n : Nat)
    (hKr : K0.nrows = n) (hKc : K0.ncols = n) (hb : b0.size = n)
    (hids : ∀ e, e < num_elements → ∀ a : Fin 4,
      0 ≤ (M.get_element e).index a ∧ (M.get_element e).index a < (n : Int))
    (hsym : ∀ e, e < num_elements → ∀ a b : Fin 4, (Ks e).get a b = (Ks e).get b a)
    (hinc : ∀ c, c + 1 < M.get_quantity quantity.NUM_DIRICHLET →
      M.dirichlet_id c < M.dirichlet_id (c + 1))
    (hrange : ∀ c, c < M.get_quantity quantity.NUM_DIRICHLET →
      1 ≤ M.dirichlet_id c ∧ M.dirichlet_id c ≤ (n : Int)) :
    ∃ K b, assembly K0 b0 Ks bs num_elements M = some (K, b) ∧
      K.nrows = n ∧ K.ncols = n ∧
      (∀ i j : Fin n, K.get i j = K.get j i) ∧
      ∀ b1 : Vector α, b1.size = n →
        ∃ K' b', apply_dirichlet_boundary_conditions K b1 M = some (K', b') ∧
          K'.nrows = n - M.get_quantity quantity.NUM_DIRICHLET ∧
          K'.ncols = n - M.get_quantity quantity.NUM_DIRICHLET ∧
          ∀ r s : Fin (n - M.get_quantity quantity.NUM_DIRICHLET), K'.get r s = K'.get s r := by
  obtain ⟨K, b, e, d1, d2, _, g, _⟩ := assembly_loop_spec K0 b0 Ks bs num_elements M n hKr hKc
    hb hids
  have hKsym : ∀ i j, i < n → j < n → K.get i j = K.get j i := by
    intro i j hi hj
    rw [g, g, Matrix.get_init, Matrix.get_init, if_pos ⟨by omega, by omega⟩,
      if_pos ⟨by omega, by omega⟩]
    congr 1
    apply Finset.sum_congr rfl
    intro el hel
    rw [Finset.sum_comm]
    apply Finset.sum_congr rfl
    intro a _
    apply Finset.sum_congr rfl
    intro c _
    rw [hsym el (Finset.mem_range.1 hel) c a]
    by_cases h : (M.get_element el).index a = (j : Int) ∧ (M.get_element el).index c = (i : Int)
    · rw [if_pos h, if_pos ⟨h.2, h.1⟩]
    · rw [if_neg h, if_neg (fun h' => h ⟨h'.2, h'.1⟩)]
  refine ⟨K, b, e, d1, d2, fun i j => hKsym i j i.isLt j.isLt, ?_⟩
  intro b1 hb1
  obtain ⟨K', b', f, r1, r2, _, k, _⟩ := apply_dirichlet_spec K b1 M n d1 d2 hb1 hinc hrange
  have hlen := (free_positions_get M n hinc hrange).1
  refine ⟨K', b', f, by rw [r1, hlen], by rw [r2, hlen], ?_⟩
  intro r s
  have hr : (r : Nat) < (M.free_positions n).length := by rw [hlen]; exact r.isLt
  have hs : (s : Nat) < (M.free_positions n).length := by rw [hlen]; exact s.isLt
  have a1 := k ⟨r, hr⟩ ⟨s, hs⟩
  have a2 := k ⟨s, hs⟩ ⟨r, hr⟩
  simp only at a1 a2
  rw [a1, a2]
  exact hKsym _ _ (free_positions_get_lt M n ⟨r, hr⟩).1 (free_positions_get_lt M n ⟨s, hs⟩).1

end pipeline_lemmas

/-- Four nodes with Dirichlet conditions on the nodes 2 and 4 and Neumann conditions on
the nodes 2 and 3: the value 1 or 100 of the Neumann condition on node 2 gives the same
reduced system. -/
theorem C32_neumann_on_dirichlet_node_no_effect_witness :
    ∃ b1 b2 K1 c1 K2 c2,
      apply_neumann_boundary_conditions example_b
        (neumann_mesh [⟨⟨2, 1, 0, 0⟩, 1⟩, ⟨⟨3, 0, 1, 0⟩, 1⟩]) = some b1 ∧
      apply_neumann_boundary_conditions example_b
        (neumann_mesh [⟨⟨2, 1, 0, 0⟩, 100⟩, ⟨⟨3, 0, 1, 0⟩, 1⟩]) = some b2 ∧
      apply_dirichlet_boundary_conditions example_K b1
        (neumann_mesh [⟨⟨2, 1, 0, 0⟩, 1⟩, ⟨⟨3, 0, 1, 0⟩, 1⟩]) = some (K1, c1) ∧
      apply_dirichlet_boundary_conditions example_K b2
        (neumann_mesh [⟨⟨2, 1, 0, 0⟩, 100⟩, ⟨⟨3, 0, 1, 0⟩, 1⟩]) = some (K2, c2) ∧
      (∀ r s : Fin 2, K1.get r s = K2.get r s) ∧ (∀ r : Fin 2, c1.get r = c2.get r) := by
  have hinc : ∀ c, c + 1 < (neumann_mesh [⟨⟨2, 1, 0, 0⟩, 1⟩, ⟨⟨3, 0, 1, 0⟩, 1⟩]).get_quantity
      quantity.NUM_DIRICHLET →
      (neumann_mesh [⟨⟨2, 1, 0, 0⟩, 1⟩, ⟨⟨3, 0, 1, 0⟩, 1⟩]).dirichlet_id c <
        (neumann_mesh [⟨⟨2, 1, 0, 0⟩, 1⟩, ⟨⟨3, 0, 1, 0⟩, 1⟩]).dirichlet_id (c + 1) := by
    intro c hc
    have hc2 : c + 1 < 2 := hc
    have : c = 0 := by omega
    subst this
    decide
  have hrange : ∀ c, c < (neumann_mesh [⟨⟨2, 1, 0, 0⟩, 1⟩, ⟨⟨3, 0, 1, 0⟩, 1⟩]).get_quantity
      quantity.NUM_DIRICHLET →
      1 ≤ (neumann_mesh [⟨⟨2, 1, 0, 0⟩, 1⟩, ⟨⟨3, 0, 1, 0⟩, 1⟩]).dirichlet_id c ∧
      (neumann_mesh [⟨⟨2, 1, 0, 0⟩, 1⟩, ⟨⟨3, 0, 1, 0⟩, 1⟩]).dirichlet_id c ≤ ((4 : Nat) : Int) := by
    intro c hc
    have hc2 : c < 2 := hc
    interval_cases c <;> decide
  have hneu : ∀ c, c < (neumann_mesh [⟨⟨2, 1, 0, 0⟩, 1⟩, ⟨⟨3, 0, 1, 0⟩, 1⟩]).get_quantity
      quantity.NUM_NEUMANN →
      1 ≤ (neumann_mesh [⟨⟨2, 1, 0, 0⟩, 1⟩, ⟨⟨3, 0, 1, 0⟩, 1⟩]).neumann_id c ∧
      (neumann_mesh [⟨⟨2, 1, 0, 0⟩, 1⟩, ⟨⟨3, 0, 1, 0⟩, 1⟩]).neumann_id c ≤ ((4 : Nat) : Int) := by
    intro c hc
    have hc2 : c < 2 := hc
    interval_cases c <;> decide
  obtain ⟨b1, b2, K1, c1, K2, c2, e1, e2, f1, f2, _, _, _, _, _, _, hK, hc⟩ :=
    C32_neumann_on_dirichlet_node_no_effect example_K example_b
      (neumann_mesh [⟨⟨2, 1, 0, 0⟩, 1⟩, ⟨⟨3, 0, 1, 0⟩, 1⟩])
      (neumann_mesh [⟨⟨2, 1, 0, 0⟩, 100⟩, ⟨⟨3, 0, 1, 0⟩, 1⟩]).neumann_conditions 4 rfl rfl rfl
      hinc hrange hneu
      (by
        intro c hc
        have hc2 : c < 2 := hc
        interval_cases c <;> rfl)
      (by
        intro c hc hfree
        have hc2 : c < 2 := hc
        interval_cases c
        · exact absurd hfree (by decide)
        · rfl)
  exact ⟨b1, b2, K1, c1, K2, c2, e1, e2, f1, f2, hK, hc⟩

section stiffness_structure

variable [LinearOrderedField α]

/-- Every row of the constant matrix `B` sums to zero. -/
theorem calculate_B_mulVec_one (B0 : Matrix α) :
    ((calculate_B B0).toLin 3 4).mulVec (fun _ => (1 : α)) = 0 := by
  rw [calculate_B_toLin]
  funext i
  fin_cases i <;> simp [Matrix.mulVec, Matrix.dotProduct, Fin.sum_univ_four]

/-- The matrix part `Bᵗ·Aᵗ·A·B` has rows and columns that sum to zero. -/
theorem matrix_part_sums (B : LinMatrix (Fin 3) (Fin 4) α) (A : LinMatrix (Fin 3) (Fin 3) α)
    (hB : B.mulVec (fun _ => (1 : α)) = 0) (s : α) :
    (∀ i : Fin 4, ∑ j : Fin 4, (s • (B.transpose * (A.transpose * (A * B)))) i j = 0) ∧
    (∀ j : Fin 4, ∑ i : Fin 4, (s • (B.transpose * (A.transpose * (A * B)))) i j = 0) := by
  have h1 : (s • (B.transpose * (A.transpose * (A * B)))).mulVec (fun _ => (1 : α)) = 0 := by
    rw [Matrix.smul_mulVec_assoc, ← Matrix.mulVec_mulVec, ← Matrix.mulVec_mulVec,
      ← Matrix.mulVec_mulVec, hB]
    simp
  have h2 : Matrix.vecMul (fun _ => (1 : α)) (s • (B.transpose * (A.transpose * (A * B))))
      = 0 := by
    have ht : (s • (B.transpose * (A.transpose * (A * B)))).transpose
        = s • (B.transpose * (A.transpose * (A * B))) := by
      simp only [Matrix.transpose_smul, Matrix.transpose_mul, Matrix.transpose_transpose,
        Matrix.mul_assoc]
    rw [← Matrix.mulVec_transpose, ht]
    exact h1
  constructor
  · intro i
    have := congrFun h1 i
    simpa [Matrix.mulVec, Matrix.dotProduct] using this
  · intro j
    have := congrFun h2 j
    simpa [Matrix.vecMul, Matrix.dotProduct] using this

/-- C34: for every element (any coordinates, any `k`, in both the heat-transfer and the
second-equation variant), every row and every column of the 4×4 matrix returned by
`create_local_K` sums to zero (exact arithmetic), because every row of the constant matrix
`B` sums to zero. -/
theorem C34_local_K_rows_columns_sum_zero (K0 K0' : Matrix α) (element_id : Nat) (M : Mesh α) :
    (∀ i : Fin 3, ∑ j : Fin 4, (calculate_B (Matrix.create 3 4 : Matrix α)).get i j = 0) ∧
    (∃ K, create_local_K K0 element_id M = some K ∧ K.nrows = 4 ∧ K.ncols = 4 ∧
      (∀ i : Fin 4, ∑ j : Fin 4, K.get i j = 0) ∧
      (∀ j : Fin 4, ∑ i : Fin 4, K.get i j = 0)) ∧
    (∃ K, second_equation.create_local_K K0' element_id M = some K ∧ K.nrows = 4 ∧
      K.ncols = 4 ∧
      (∀ i : Fin 4, ∑ j : Fin 4, K.get i j = 0) ∧
      (∀ j : Fin 4, ∑ i : Fin 4, K.get i j = 0)) := by
  have hB := calculate_B_mulVec_one (Matrix.create 3 4 : Matrix α)
  refine ⟨?_, ?_, ?_⟩
  · intro i
    have := congrFun hB i
    simpa [Matrix.mulVec, Matrix.dotProduct, Matrix.toLin] using this
  · obtain ⟨K, e, d1, d2, g⟩ := create_local_K_eq K0 element_id M
    obtain ⟨r, c⟩ := matrix_part_sums _ ((M.get_element element_id).local_A.toLin 3 3) hB
      (M.get_problem_data parameter.THERMAL_CONDUCTIVITY
        * (if (M.get_element element_id).volume = 0 then epsilon_patch
            else (M.get_element element_id).volume)
        / ((if (M.get_element element_id).jacobian = 0 then epsilon_patch
            else (M.get_element element_id).jacobian)
          * (if (M.get_element element_id).jacobian = 0 then epsilon_patch
            else (M.get_element element_id).jacobian)))
    rw [← g] at r c
    exact ⟨K, e, d1, d2, r, c⟩
  · obtain ⟨K, e, d1, d2, g⟩ := second_equation_create_local_K_eq K0' element_id M
    obtain ⟨r, c⟩ := matrix_part_sums _ ((M.get_element element_id).local_A.toLin 3 3) hB
      (1 / (3360 * (if (M.get_element element_id).jacobian = 0 then epsilon_patch
        else (M.get_element element_id).jacobian)))
    rw [← g] at r c
    exact ⟨K, e, d1, d2, r, c⟩

/-- The quadratic form of `s • Bᵗ·Aᵗ·A·B` is `s` times a sum of squares. -/
theorem matrix_part_quadratic (B : LinMatrix (Fin 3) (Fin 4) α)
    (A : LinMatrix (Fin 3) (Fin 3) α) (s : α) (x : Fin 4 → α) :
    ∑ i : Fin 4, ∑ j : Fin 4, x i * (s • (B.transpose * (A.transpose * (A * B)))) i j * x j
      = s * ∑ t : Fin 3, ((A * B).mulVec x t) ^ 2 := by
  have h1 : ∑ i : Fin 4, ∑ j : Fin 4,
      x i * (s • (B.transpose * (A.transpose * (A * B)))) i j * x j
      = Matrix.dotProduct x ((s • (B.transpose * (A.transpose * (A * B)))).mulVec x) := by
    simp only [Matrix.dotProduct, Matrix.mulVec, Finset.mul_sum]
    apply Finset.sum_congr rfl
    intro i _
    apply Finset.sum_congr rfl
    intro j _
    ring
  have h2 : B.transpose * (A.transpose * (A * B)) = (A * B).transpose * (A * B) := by
    rw [Matrix.transpose_mul, Matrix.mul_assoc]
  rw [h1, h2, Matrix.smul_mulVec_assoc, Matrix.dotProduct_smul, ← Matrix.mulVec_mulVec,
    Matrix.dotProduct_mulVec, Matrix.vecMul_transpose, smul_eq_mul]
  congr 1
  simp only [Matrix.dotProduct, sq]

/-- C35: for every element and every conductivity `k ≥ 0`, the heat-transfer
`create_local_K` result `K` satisfies `xᵗ · K · x ≥ 0` for every `x` (exact arithmetic,
the reals included), since the prefactor `k·V/J²` is non-negative after the fallbacks and
the matrix part is `(A·B)ᵗ·(A·B)`. -/
theorem C35_local_K_positive_semidefinite (K0 : Matrix α) (element_id : Nat) (M : Mesh α)
    (hk : 0 ≤ M.get_problem_data parameter.THERMAL_CONDUCTIVITY) :
    ∃ K, create_local_K K0 element_id M = some K ∧
      ∀ x : Fin 4 → α, 0 ≤ ∑ i : Fin 4, ∑ j : Fin 4, x i * K.get i j * x j := by
  obtain ⟨K, e, _, _, g⟩ := create_local_K_eq K0 element_id M
  refine ⟨K, e, ?_⟩
  intro x
  have hq := matrix_part_quadratic ((calculate_B (Matrix.create 3 4 : Matrix α)).toLin 3 4)
    ((M.get_element element_id).local_A.toLin 3 3)
    (M.get_problem_data parameter.THERMAL_CONDUCTIVITY
      * (if (M.get_element element_id).volume = 0 then epsilon_patch
          else (M.get_element element_id).volume)
      / ((if (M.get_element element_id).jacobian = 0 then epsilon_patch
          else (M.get_element element_id).jacobian)
        * (if (M.get_element element_id).jacobian = 0 then epsilon_patch
          else (M.get_element element_id).jacobian))) x
  rw [← g] at hq
  have hq' : ∑ i : Fin 4, ∑ j : Fin 4, x i * K.get i j * x j
      = ∑ i : Fin 4, ∑ j : Fin 4, x i * K.toLin 4 4 i j * x j := rfl
  rw [hq', hq]
  have hV : 0 ≤ (if (M.get_element element_id).volume = 0 then (epsilon_patch : α)
      else (M.get_element element_id).volume) := by
    split_ifs with h
    · simp only [epsilon_patch]; norm_num
    · rw [element_volume_eq]
      exact mul_nonneg (by norm_num) (abs_nonneg _)
  apply mul_nonneg
  · exact div_nonneg (mul_nonneg hk hV) (mul_self_nonneg _)
  · exact Finset.sum_nonneg (fun t _ => sq_nonneg _)

end stiffness_structure

/-- On the element of `unit_mesh` (`k = 2`) the quadratic form of the local matrix is
non-negative at the vector (1, −2, 3, 5). -/
theorem C35_local_K_positive_semidefinite_witness :
    ∃ K, create_local_K (Matrix.create 0 0) 0 unit_mesh = some K ∧
      0 ≤ ∑ i : Fin 4, ∑ j : Fin 4, (![1, -2, 3, 5] : Fin 4 → ℚ) i * K.get i j *
        (![1, -2, 3, 5] : Fin 4 → ℚ) j := by
  obtain ⟨K, e, h⟩ := C35_local_K_positive_semidefinite (Matrix.create 0 0) 0 unit_mesh
    (by
      have hk : unit_mesh.get_problem_data parameter.THERMAL_CONDUCTIVITY = 2 := rfl
      rw [hk]
      norm_num)
  exact ⟨K, e, h _⟩

/-- Two loops whose bodies agree below the bound are equal. -/
theorem for_loop_congr {σ : Type} (n : Nat) (f g : Nat → σ → σ)
    (h : ∀ i, i < n → ∀ s, f i s = g i s) (s : σ) : for_loop n f s = for_loop n g s := by
  induction n with
  | zero => rfl
  | succ n ih =>
    rw [for_loop_succ, for_loop_succ, ih (fun i hi => h i (by omega)), h n (by omega)]

section lower_triangle

variable [LinearOrderedField α]

/-- The factor `L` depends on the lower triangle of `A` only. -/
theorem calculate_inverse_L_congr (sqrt : α → α) (A A' : Matrix α) (n : Nat)
    (h : ∀ i j, j ≤ i → i < n → A.get i j = A'.get i j) :
    calculate_inverse_L sqrt A n = calculate_inverse_L sqrt A' n := by
  unfold calculate_inverse_L
  apply for_loop_congr
  intro i hi L
  apply for_loop_congr
  intro j hj L
  by_cases hij : i = j
  · subst hij
    simp only [if_true]
    rw [h i i (le_refl _) hi]
  · simp only [hij, if_false]
    by_cases hgt : i > j
    · simp only [hgt, if_true]
      rw [h i j (by omega) hi]
    · simp only [hgt, if_false]

/-- The entries of `X` inside the bounds depend on `L` and `Y` only, not on the matrix
`X` is written over. -/
theorem calculate_inverse_X_congr (L Y : Matrix α) (n : Nat) (X X' : Matrix α) :
    ∀ i j, i < n → j < n →
      (calculate_inverse_X L Y n X).get i j = (calculate_inverse_X L Y n X').get i j := by
  obtain ⟨_, _, h1⟩ := calculate_inverse_X_spec L Y n X
  obtain ⟨_, _, h2⟩ := calculate_inverse_X_spec L Y n X'
  have key : ∀ d i, n - i ≤ d → i < n → ∀ j, j < n →
      (calculate_inverse_X L Y n X).get i j = (calculate_inverse_X L Y n X').get i j := by
    intro d
    induction d with
    | zero => intro i hd hi; omega
    | succ d ih =>
      intro i hd hi j hj
      rw [h1 i j hi hj, h2 i j hi hj]
      congr 2
      apply Finset.sum_congr rfl
      intro k hk
      have hk' := Finset.mem_Ico.1 hk
      rw [ih k (by omega) hk'.2 j hj]
  intro i j hi hj
  exact key (n - i) i (le_refl _) hi j hj

/-- C36: for every `n` and every two n×n matrices `A` and `A'` that agree on all entries
`(i, j)` with `i ≥ j`, `calculate_inverse(A, n, X)` and `calculate_inverse(A', n, X')`
produce identical `X` and `X'`: the entries above the diagonal are never read. -/
theorem C36_inverse_reads_lower_triangle (sqrt : α → α) (A A' : Matrix α) (n : Nat)
    (X X' : Matrix α) (hX : X.nrows = X'.nrows ∧ X.ncols = X'.ncols)
    (h : ∀ i j : Fin n, j ≤ i → A.get i j = A'.get i j) :
    (calculate_inverse sqrt A n X).nrows = (calculate_inverse sqrt A' n X').nrows ∧
    (calculate_inverse sqrt A n X).ncols = (calculate_inverse sqrt A' n X').ncols ∧
    (∀ i j : Fin n,
      (calculate_inverse sqrt A n X).get i j = (calculate_inverse sqrt A' n X').get i j) ∧
    calculate_inverse sqrt A n X = calculate_inverse sqrt A' n X := by
  have hL : calculate_inverse_L sqrt A n = calculate_inverse_L sqrt A' n :=
    calculate_inverse_L_congr sqrt A A' n
      (fun i j hji hi => h ⟨i, hi⟩ ⟨j, by omega⟩ hji)
  have e : calculate_inverse sqrt A n X = calculate_inverse sqrt A' n X := by
    simp only [calculate_inverse, hL]
  obtain ⟨a1, a2, _⟩ := calculate_inverse_X_spec (calculate_inverse_L sqrt A' n)
    (calculate_inverse_Y (calculate_inverse_L sqrt A' n) n) n X
  obtain ⟨b1, b2, _⟩ := calculate_inverse_X_spec (calculate_inverse_L sqrt A' n)
    (calculate_inverse_Y (calculate_inverse_L sqrt A' n) n) n X'
  refine ⟨?_, ?_, ?_, e⟩
  · rw [e]
    simp only [calculate_inverse]
    rw [a1, b1, hX.1]
  · rw [e]
    simp only [calculate_inverse]
    rw [a2, b2, hX.2]
  · intro i j
    rw [e]
    exact calculate_inverse_X_congr _ _ n X X' i j i.isLt j.isLt

end lower_triangle

/-- In exact real arithmetic (no overflow to infinity, no NaN): for every `n` and every
n×n matrix `A`, every diagonal entry `L[j][j]` computed by `calculate_inverse` is strictly
positive and `L` is lower triangular. -/
theorem cholesky_diagonal_pos (A : Matrix ℝ) (n : Nat) :
    (∀ j : Fin n, 0 < (calculate_inverse_L Real.sqrt A n).get j j) ∧
    (∀ j : Fin n, (calculate_inverse_L Real.sqrt A n).get j j ≠ 0) ∧
    (∀ i j : Fin n, i < j → (calculate_inverse_L Real.sqrt A n).get i j = 0) := by
  obtain ⟨h0, h1, _⟩ := calculate_inverse_L_spec Real.sqrt A n
  have hpos : ∀ j : Fin n, 0 < (calculate_inverse_L Real.sqrt A n).get j j := by
    intro j
    rw [h1 j j.isLt]
    split_ifs with hp
    · simp only [epsilon_patch]
      norm_num
    · exact Real.sqrt_pos.2 (not_le.1 hp)
  exact ⟨hpos, fun j => (hpos j).ne', fun i j hij => h0 i j hij j.isLt⟩

/-- The matrices `example_spd` and `example_lower` (rows (2, 9), (1, 2)) have the same
lower triangle and the same result. -/
theorem C36_inverse_reads_lower_triangle_witness :
    (example_spd ℝ).get 0 1 ≠ (example_lower ℝ).get 0 1 ∧
    ∀ i j : Fin 2,
      (calculate_inverse Real.sqrt (example_spd ℝ) 2 (Matrix.create 2 2)).get i j =
        (calculate_inverse Real.sqrt (example_lower ℝ) 2 (Matrix.create 2 2)).get i j := by
  refine ⟨by norm_num [example_spd, example_lower, Matrix.get], ?_⟩
  exact (C36_inverse_reads_lower_triangle Real.sqrt (example_spd ℝ) (example_lower ℝ) 2
    (Matrix.create 2 2) (Matrix.create 2 2) ⟨rfl, rfl⟩ (by
      intro i j hji
      fin_cases i <;> fin_cases j <;>
        first
        | (exfalso; revert hji; decide)
        | simp [example_spd, example_lower, Matrix.get])).2.2.1

namespace MinHeap

theorem swap_array (h : MinHeap α) (i j k : Nat) :
    (h.swap i j).heap_array k =
      if k = i then h.heap_array j else if k = j then h.heap_array i else h.heap_array k := rfl

theorem swap_size (h : MinHeap α) (i j : Nat) : (h.swap i j).heap_size = h.heap_size := rfl

/-- A swap of two stored nodes permutes the stored nodes. -/
theorem swap_stored_perm (h : MinHeap α) (i j : Nat) (hi : i < h.heap_size)
    (hj : j < h.heap_size) : (h.swap i j).stored.Perm h.stored := by
  have e : (h.swap i j).stored =
      ((List.range h.heap_size).map (Equiv.swap i j)).map h.heap_array := by
    simp only [stored, swap_size, List.map_map]
    apply List.map_congr_left
    intro k _
    simp only [Function.comp, swap_array, Equiv.swap_apply_def]
    split_ifs <;> rfl
  rw [e]
  apply List.Perm.map
  rw [List.perm_ext_iff_of_nodup ((List.nodup_range _).map (Equiv.swap i j).injective)
    (List.nodup_range _)]
  intro x
  simp only [List.mem_map, List.mem_range]
  constructor
  · rintro ⟨y, hy, rfl⟩
    rw [Equiv.swap_apply_def]
    split_ifs <;> omega
  · intro hx
    refine ⟨Equiv.swap i j x, ?_, Equiv.swap_apply_self i j x⟩
    rw [Equiv.swap_apply_def]
    split_ifs <;> omega

/-- The loop of `insert` permutes the stored nodes. -/
theorem sift_up_stored_perm (i : Nat) : ∀ (h : MinHeap α), i < h.heap_size →
    (h.sift_up i).stored.Perm h.stored := by
  induction i using Nat.strong_induction_on with
  | _ i ih =>
    intro h hi
    by_cases hc : i ≠ 0 ∧ (h.heap_array (parent i)).get_ID > (h.heap_array i).get_ID
    · rw [sift_up_step h i hc]
      have hq : parent i < i := by
        have := hc.1
        simp only [parent]
        omega
      exact (ih (parent i) hq (h.swap i (parent i)) (show parent i < h.heap_size by omega)).trans
        (swap_stored_perm h i (parent i) hi (by omega))
    · rw [sift_up_stop h i hc]

/-- The loop of `insert` restores the heap order when the only pair out of order is the
node at `i` and its parent. -/
theorem sift_up_heap (i : Nat) : ∀ (h : MinHeap α), i < h.heap_size →
    (∀ j, 1 ≤ j → j < h.heap_size → j ≠ i →
      (h.heap_array (parent j)).get_ID ≤ (h.heap_array j).get_ID) →
    (∀ j, 1 ≤ j → j < h.heap_size → parent j = i → 1 ≤ i →
      (h.heap_array (parent i)).get_ID ≤ (h.heap_array j).get_ID) →
    ∀ j, 1 ≤ j → j < (h.sift_up i).heap_size →
      ((h.sift_up i).heap_array (parent j)).get_ID ≤ ((h.sift_up i).heap_array j).get_ID := by
  induction i using Nat.strong_induction_on with
  | _ i ih =>
    intro h hi hA hB
    by_cases hc : i ≠ 0 ∧ (h.heap_array (parent i)).get_ID > (h.heap_array i).get_ID
    · rw [sift_up_step h i hc]
      have hi0 : 1 ≤ i := by have := hc.1; omega
      have hq : parent i < i := by
        simp only [parent]
        omega
      have hpar : ∀ j, 1 ≤ j → parent j < j := by
        intro j hj
        simp only [parent]
        omega
      apply ih (parent i) hq (h.swap i (parent i)) (show parent i < h.heap_size by omega)
      · intro j hj1 hjs hjp
        rw [swap_size] at hjs
        have hpj := hpar j hj1
        by_cases hji : j = i
        · subst hji
          rw [swap_array, swap_array, if_neg (by omega), if_pos rfl, if_pos rfl]
          exact le_of_lt hc.2
        · rw [swap_array h i (parent i) j, if_neg hji, if_neg hjp]
          by_cases hqi : parent j = i
          · rw [swap_array, if_pos hqi]
            exact hB j hj1 hjs hqi hi0
          · by_cases hqp : parent j = parent i
            · rw [swap_array, if_neg hqi, if_pos hqp]
              have := hA j hj1 hjs hji
              rw [hqp] at this
              exact le_trans (le_of_lt hc.2) this
            · rw [swap_array, if_neg hqi, if_neg hqp]
              exact hA j hj1 hjs hji
      · intro j hj1 hjs hjp hp1
        rw [swap_size] at hjs
        have hg := hpar (parent i) hp1
        have hgA := hA (parent i) hp1 (by omega) (by omega)
        rw [swap_array h i (parent i) (parent (parent i)), if_neg (by omega), if_neg (by omega)]
        by_cases hji : j = i
        · subst hji
          rw [swap_array, if_pos rfl]
          exact hgA
        · have hjne : j ≠ parent i := by
            have := hpar j hj1
            omega
          rw [swap_array, if_neg hji, if_neg hjne]
          have := hA j hj1 hjs hji
          rw [hjp] at this
          exact le_trans hgA this
    · rw [sift_up_stop h i hc]
      intro j hj1 hjs
      by_cases hji : j = i
      · subst hji
        have : ¬ (h.heap_array (parent j)).get_ID > (h.heap_array j).get_ID :=
          fun hgt => hc ⟨by omega, hgt⟩
        exact not_lt.1 this
      · exact hA j hj1 hjs hji

theorem insert_eq (h : MinHeap α) (k : Node α) (hcap : h.heap_size ≠ h.capacity) :
    h.insert k = sift_up
      { h with heap_array := Function.update h.heap_array h.heap_size k,
               heap_size := h.heap_size + 1 } h.heap_size := by
  simp only [insert, if_neg hcap]

theorem insert_run_fst (h : MinHeap α) (k : Node α) : (h.insert_run k).1 = h.insert k := by
  simp only [insert_run, insert]
  split_ifs <;> rfl

end MinHeap

/-- C39: for every heap state with `heap_size < capacity` in which every stored node at
index `i ≥ 1` has an identifier not smaller than that of the node at index `parent(i)`,
after `insert(k)` the same holds, `heap_size` has grown by exactly one, and the stored
nodes are the previous ones plus `k`. -/
theorem C39_heap_insert_keeps_invariant (h : MinHeap α) (k : Node α)
    (hcap : h.heap_size < h.capacity)
    (hheap : ∀ i, 1 ≤ i → i < h.heap_size →
      (h.heap_array (MinHeap.parent i)).get_ID ≤ (h.heap_array i).get_ID) :
    (∀ i, 1 ≤ i → i < (h.insert k).heap_size →
      ((h.insert k).heap_array (MinHeap.parent i)).get_ID ≤ ((h.insert k).heap_array i).get_ID) ∧
    (h.insert k).heap_size = h.heap_size + 1 ∧
    (h.insert k).capacity = h.capacity ∧
    (h.insert k).stored.Perm (k :: h.stored) := by
  have e := MinHeap.insert_eq h k (by omega)
  obtain ⟨s1, s2, _⟩ := MinHeap.insert_spec h k hcap
  have hpar : ∀ j, 1 ≤ j → MinHeap.parent j < j := by
    intro j hj
    simp only [MinHeap.parent]
    omega
  refine ⟨?_, s1, s2, ?_⟩
  · rw [e]
    apply MinHeap.sift_up_heap h.heap_size _ (Nat.lt_succ_self _)
    · intro j hj1 hjs hjn
      have hjs' : j < h.heap_size + 1 := hjs
      have hp := hpar j hj1
      have a1 : Function.update h.heap_array h.heap_size k j = h.heap_array j :=
        Function.update_noteq hjn _ _
      have a2 : Function.update h.heap_array h.heap_size k (MinHeap.parent j)
          = h.heap_array (MinHeap.parent j) := Function.update_noteq (by omega) _ _
      show (Function.update h.heap_array h.heap_size k (MinHeap.parent j)).get_ID
        ≤ (Function.update h.heap_array h.heap_size k j).get_ID
      rw [a1, a2]
      exact hheap j hj1 (by omega)
    · intro j hj1 hjs hjp _
      have hjs' : j < h.heap_size + 1 := hjs
      have hp := hpar j hj1
      omega
  · rw [e]
    refine (MinHeap.sift_up_stored_perm h.heap_size _ (Nat.lt_succ_self _)).trans ?_
    have hst : MinHeap.stored
        { h with heap_array := Function.update h.heap_array h.heap_size k,
                 heap_size := h.heap_size + 1 } = h.stored ++ [k] := by
      simp only [MinHeap.stored, List.range_succ, List.map_append, List.map_cons, List.map_nil,
        Function.update_same]
      congr 1
      apply List.map_congr_left
      intro j hj
      exact Function.update_noteq (by have := List.mem_range.1 hj; omega) _ _
    rw [hst]
    exact List.perm_append_singleton k h.stored

/-- C40: for every heap state with `heap_size = capacity` and every node `k`, `insert(k)`
reports the overflow and leaves `heap_size` and all stored nodes unchanged. -/
theorem C40_heap_insert_full (h : MinHeap α) (k : Node α) (hfull : h.heap_size = h.capacity) :
    (h.insert_run k).2 = true ∧ (h.insert_run k).1 = h.insert k ∧ h.insert k = h ∧
    (h.insert k).heap_size = h.heap_size ∧ (h.insert k).stored = h.stored := by
  have e : h.insert k = h := by
    simp only [MinHeap.insert, if_pos hfull]
  refine ⟨?_, MinHeap.insert_run_fst h k, e, by rw [e], by rw [e]⟩
  simp only [MinHeap.insert_run, if_pos hfull]

/-- The node 1 inserted into the heap of the nodes 2, 3, 4 (capacity 4): four nodes are
stored and the order holds along the path from the last cell to the root. -/
theorem C39_heap_insert_keeps_invariant_witness :
    (example_heap_spare.insert ⟨1, 0, 0, 0⟩).heap_size = 4 ∧
    ((example_heap_spare.insert ⟨1, 0, 0, 0⟩).heap_array 0).get_ID ≤
      ((example_heap_spare.insert ⟨1, 0, 0, 0⟩).heap_array 1).get_ID ∧
    ((example_heap_spare.insert ⟨1, 0, 0, 0⟩).heap_array 1).get_ID ≤
      ((example_heap_spare.insert ⟨1, 0, 0, 0⟩).heap_array 3).get_ID ∧
    (example_heap_spare.insert ⟨1, 0, 0, 0⟩).stored.Perm
      (⟨1, 0, 0, 0⟩ :: example_heap_spare.stored) := by
  obtain ⟨h1, h2, _, h4⟩ := C39_heap_insert_keeps_invariant example_heap_spare ⟨1, 0, 0, 0⟩
    (by decide) (by
      intro i hi1 _
      have hid : ∀ j, (example_heap_spare.heap_array j).get_ID = (j : Int) + 2 := fun j => rfl
      rw [hid, hid]
      simp only [MinHeap.parent]
      omega)
  have hs : (example_heap_spare.insert ⟨1, 0, 0, 0⟩).heap_size = 4 := h2
  refine ⟨hs, ?_, ?_, h4⟩
  · exact h1 1 (le_refl _) (by rw [hs]; decide)
  · exact h1 3 (by decide) (by rw [hs]; decide)

/-- The heap `example_heap` is full: an insertion is reported and changes nothing. -/
theorem C40_heap_insert_full_witness :
    (example_heap.insert_run ⟨9, 0, 0, 0⟩).2 = true ∧
    example_heap.insert ⟨9, 0, 0, 0⟩ = example_heap :=
  ⟨(C40_heap_insert_full example_heap ⟨9, 0, 0, 0⟩ rfl).1,
    (C40_heap_insert_full example_heap ⟨9, 0, 0, 0⟩ rfl).2.2.1⟩

section prefactor_values

variable [LinearOrderedField α]

/-- The matrix of `create_local_K_run` is the matrix of `create_local_K`. -/
theorem create_local_K_run_fst (K0 : Matrix α) (element_id : Nat) (M : Mesh α) :
    (create_local_K_run K0 element_id M).map (fun s => s.1) = create_local_K K0 element_id M := by
  simp only [create_local_K_run, create_local_K, Option.map_bind, Function.comp_def,
    Option.map_some']

/-- The values of the locals `J` and `volume` of `create_local_K` when the prefactor is
evaluated. -/
theorem create_local_K_run_eq (K0 : Matrix α) (element_id : Nat) (M : Mesh α) :
    ∃ K, create_local_K K0 element_id M = some K ∧
      create_local_K_run K0 element_id M = some (K,
        (if (M.get_element element_id).jacobian = 0 then epsilon_patch
          else (M.get_element element_id).jacobian),
        (if (M.get_element element_id).volume = 0 then epsilon_patch
          else (M.get_element element_id).volume)) := by
  obtain ⟨K, e, _⟩ := create_local_K_eq K0 element_id M
  refine ⟨K, e, ?_⟩
  have h := create_local_K_run_fst K0 element_id M
  rw [e] at h
  cases hr : create_local_K_run K0 element_id M with
  | none => rw [hr] at h; cases h
  | some s =>
    rw [hr] at h
    simp only [Option.map_some', Option.some.injEq] at h
    have h2 : s.2 = ((if (M.get_element element_id).jacobian = 0 then epsilon_patch
          else (M.get_element element_id).jacobian),
        (if (M.get_element element_id).volume = 0 then epsilon_patch
          else (M.get_element element_id).volume)) := by
      simp only [create_local_K_run, Option.bind_eq_some] at hr
      obtain ⟨r1, _, r2, _, r3, _, hs⟩ := hr
      cases hs
      rfl
    obtain ⟨s1, s2⟩ := s
    simp only at h h2
    rw [h, h2]

/-- C14 (amended): in `create_local_K`, for every element whose Jacobian determinant is
exactly zero the value of `J` used in the prefactor `k·V/J²` is 0.000006, and for every
element whose computed volume is exactly zero the value of `V` used is 0.000006; a `J` or
`V` that is not zero is used as computed. -/
theorem C14_create_local_K_epsilon (K0 : Matrix α) (element_id : Nat) (M : Mesh α) :
    ∃ K J V, create_local_K_run K0 element_id M = some (K, J, V) ∧
      create_local_K K0 element_id M = some K ∧
      ((M.get_element element_id).jacobian = 0 → J = 6 / 1000000) ∧
      ((M.get_element element_id).volume = 0 → V = 6 / 1000000) ∧
      ((M.get_element element_id).jacobian ≠ 0 → J = (M.get_element element_id).jacobian) ∧
      ((M.get_element element_id).volume ≠ 0 → V = (M.get_element element_id).volume) ∧
      K.toLin 4 4 =
        (M.get_problem_data parameter.THERMAL_CONDUCTIVITY * V / (J * J)) •
        (((calculate_B (Matrix.create 3 4 : Matrix α)).toLin 3 4).transpose *
          ((((M.get_element element_id).local_A).toLin 3 3).transpose *
            (((M.get_element element_id).local_A).toLin 3 3 *
              (calculate_B (Matrix.create 3 4 : Matrix α)).toLin 3 4))) := by
  obtain ⟨K, e, hr⟩ := create_local_K_run_eq K0 element_id M
  obtain ⟨K', e', _, _, g⟩ := create_local_K_eq K0 element_id M
  rw [e] at e'
  cases e'
  refine ⟨K, _, _, hr, e, ?_, ?_, ?_, ?_, g⟩
  · intro h
    rw [if_pos h]
    rfl
  · intro h
    rw [if_pos h]
    rfl
  · intro h
    rw [if_neg h]
  · intro h
    rw [if_neg h]

end prefactor_values

/-- On the coplanar element (Jacobian determinant and volume exactly zero) the values of
`J` and `V` used in the prefactor are both 0.000006. -/
theorem C14_create_local_K_epsilon_witness :
    (coplanar_mesh.get_element 0).jacobian = 0 ∧ (coplanar_mesh.get_element 0).volume = 0 ∧
    ∃ K, create_local_K_run (Matrix.create 0 0) 0 coplanar_mesh
        = some (K, 6 / 1000000, 6 / 1000000) ∧
      create_local_K (Matrix.create 0 0) 0 coplanar_mesh = some K := by
  obtain ⟨K, J, V, hr, e, hJ, hV, _⟩ :=
    C14_create_local_K_epsilon (Matrix.create 0 0) 0 coplanar_mesh
  refine ⟨coplanar_jacobian_zero, coplanar_volume_zero, K, ?_, e⟩
  rw [hr, hJ coplanar_jacobian_zero, hV coplanar_volume_zero]

/-- On `example_mesh` (four nodes, Dirichlet conditions on the nodes 2 and 4) with the
symmetric local matrix `example_K` the assembled 4×4 matrix is symmetric, and so is the
2×2 matrix left by the condensation of the two Dirichlet nodes. -/
theorem C33_symmetry_preserved_witness :
    ∃ K b, assembly (Matrix.create 4 4) (Vector.create 4) (fun _ => example_K)
        (fun _ => example_b) 1 example_mesh = some (K, b) ∧
      (∀ i j : Fin 4, K.get i j = K.get j i) ∧
      ∃ K' b', apply_dirichlet_boundary_conditions K b example_mesh = some (K', b') ∧
        K'.nrows = 2 ∧ K'.ncols = 2 ∧ ∀ r s : Fin 2, K'.get r s = K'.get s r := by
  have hids : ∀ e, e < 1 → ∀ a : Fin 4,
      0 ≤ (example_mesh.get_element e).index a ∧
        (example_mesh.get_element e).index a < ((4 : Nat) : Int) := by
    intro e he a
    have h0 : e = 0 := by omega
    subst h0
    fin_cases a <;> decide
  obtain ⟨K, b, e, _, _, hs, hd⟩ := C33_symmetry_preserved (Matrix.create 4 4)
    (Vector.create 4) (fun _ => example_K) (fun _ => example_b) 1 example_mesh 4 rfl rfl rfl
    hids
    (fun e _ a b => by
      simp only [example_K, Matrix.get]
      by_cases h : (a : Nat) = b
      · rw [if_pos h, if_pos h.symm]
      · rw [if_neg h, if_neg (fun h' => h h'.symm)])
    example_mesh_increasing example_mesh_in_range
  have hbs : b.size = 4 := by
    obtain ⟨K2, b2, e2, _, _, d3, _⟩ := assembly_loop_spec (Matrix.create 4 4 : Matrix ℚ)
      (Vector.create 4) (fun _ => example_K) (fun _ => example_b) 1 example_mesh 4 rfl rfl rfl
      hids
    rw [e] at e2
    cases e2
    exact d3
  obtain ⟨K', b', f, r1, r2, hs'⟩ := hd b hbs
  exact ⟨K, b, e, hs, K', b', f, r1, r2, hs'⟩

end MEF
